import Mathlib

/-!
Verification development for the static blog builder (`build.py`).

The rendering pipeline of `build.py` is embedded shallowly: strings are
modelled as `List Char` (ASCII model of Python text: `\s`, `str.strip` and
`\d` are modelled on their ASCII parts, which covers every input relevant
below), mutable scanner state is threaded explicitly, and each Python
function is translated into an executable Lean function of the same name.
-/

set_option maxHeartbeats 2000000

namespace Blog

/-- Python text, modelled as a list of characters. -/
abbrev Str := List Char

/-- ASCII whitespace as recognised by Python's `str.strip` / regex `\s`. -/
def pyIsSpace (c : Char) : Bool :=
  c = ' ' || c = '\t' || c = '\n' || c = '\r' || c = '\x0b' || c = '\x0c'

/-- Python `str.lstrip()` (ASCII whitespace model). -/
def pyLstrip (s : Str) : Str := s.dropWhile pyIsSpace

/-- Python `str.rstrip()` (ASCII whitespace model). -/
def pyRstrip (s : Str) : Str := (s.reverse.dropWhile pyIsSpace).reverse

/-- Python `str.strip()` (ASCII whitespace model). -/
def pyStrip (s : Str) : Str := pyRstrip (pyLstrip s)

/-- ASCII decimal digit, the relevant case of regex `\d`. -/
def pyIsDigit (c : Char) : Bool := '0' ≤ c && c ≤ '9'

/-- ASCII letter. -/
def pyIsAlpha (c : Char) : Bool := ('a' ≤ c && c ≤ 'z') || ('A' ≤ c && c ≤ 'Z')

/-- Escaping of one character as performed by `html.escape` (quote=True). -/
def escapeChar (c : Char) : Str :=
  if c = '&' then "&amp;".data
  else if c = '<' then "&lt;".data
  else if c = '>' then "&gt;".data
  else if c = '"' then "&quot;".data
  else if c = '\'' then "&#x27;".data
  else [c]

/-- Python `html.escape(s)` (quote defaults to True).  Replacing `&` first and
the other characters afterwards is equivalent to this single charwise pass. -/
def htmlEscape (s : Str) : Str := (s.map escapeChar).flatten

/-- Python `str.find(pat)` on a suffix: index of the first occurrence of
`pat` as a contiguous sublist, or `none`. -/
def findSub (pat : Str) : Str → Option Nat
  | [] => if pat.isPrefixOf ([] : Str) then some 0 else none
  | c :: t =>
    if pat.isPrefixOf (c :: t) then some 0
    else (findSub pat t).map (· + 1)

/-- Decimal digits of `n`, as Python `str(n)` produces them. -/
def natToStr (n : Nat) : Str :=
  if h : n < 10 then [Char.ofNat (48 + n)]
  else natToStr (n / 10) ++ [Char.ofNat (48 + n % 10)]
  decreasing_by exact Nat.div_lt_self (by omega) (by omega)

/-- Python `str.splitlines()` for `\n`-separated text (the only separator
occurring in the sources modelled): empty input gives no lines, and a
trailing newline produces no trailing empty line. -/
def splitLines (s : Str) : List Str :=
  match s with
  | [] => []
  | c :: t =>
    if c = '\n' then [] :: splitLines t
    else
      match splitLines t with
      | [] => [[c]]
      | l :: ls => (c :: l) :: ls

/-- Python `"\n".join(lines)`. -/
def joinNl : List Str → Str
  | [] => []
  | [l] => l
  | l :: ls => l ++ '\n' :: joinNl ls

/-- Python `" ".join(parts)`. -/
def joinSp : List Str → Str
  | [] => []
  | [l] => l
  | l :: ls => l ++ ' ' :: joinSp ls

theorem dropWhile_length_le {α : Type} (p : α → Bool) (l : List α) :
    (l.dropWhile p).length ≤ l.length := by
  induction l with
  | nil => simp
  | cons c t ih => by_cases h : p c <;> simp [List.dropWhile_cons, h] <;> omega

theorem pyStrip_length_le (s : Str) : (pyStrip s).length ≤ s.length := by
  have h1 : (pyLstrip s).length ≤ s.length := dropWhile_length_le _ _
  have h2 : (pyStrip s).length ≤ (pyLstrip s).length := by
    unfold pyStrip pyRstrip
    simpa using dropWhile_length_le pyIsSpace (pyLstrip s).reverse
  omega

/-! ### Inline renderer (`render_inlines` and `linkify`) -/

/-- Characters of the scheme class `[a-z0-9+.-]` of `AUTOLINK_RE`
(`re.IGNORECASE` makes it accept capitals too). -/
def isSchemeChar (c : Char) : Bool :=
  pyIsAlpha c || pyIsDigit c || c = '+' || c = '.' || c = '-'

/-- Characters matched by `[^\s<]` in `AUTOLINK_RE`. -/
def isUrlChar (c : Char) : Bool := !pyIsSpace c && c ≠ '<'

/-- Attempt to match `AUTOLINK_RE` at the start of `s`: a letter followed by
scheme characters (greedy), then `://`, then a nonempty greedy run of
non-space non-`<` characters.  Returns the matched URL and the rest. -/
def matchAutolink (s : Str) : Option (Str × Str) :=
  match s with
  | [] => none
  | c :: _ =>
    if pyIsAlpha c then
      if [':', '/', '/'].isPrefixOf (s.dropWhile isSchemeChar) then
        if ((s.dropWhile isSchemeChar).drop 3).takeWhile isUrlChar = [] then none
        else some (s.takeWhile isSchemeChar ++ [':', '/', '/']
              ++ ((s.dropWhile isSchemeChar).drop 3).takeWhile isUrlChar,
            ((s.dropWhile isSchemeChar).drop 3).dropWhile isUrlChar)
      else none
    else none

theorem matchAutolink_rest_lt {s url rest : Str}
    (h : matchAutolink s = some (url, rest)) : rest.length < s.length := by
  cases s with
  | nil => simp [matchAutolink] at h
  | cons c t =>
    simp only [matchAutolink] at h
    by_cases h1 : pyIsAlpha c = true
    · rw [if_pos h1] at h
      by_cases h2 : ([':', '/', '/'].isPrefixOf
          ((c :: t).dropWhile isSchemeChar)) = true
      · rw [if_pos h2] at h
        by_cases h3 : ((((c :: t).dropWhile isSchemeChar).drop 3).takeWhile
            isUrlChar) = []
        · rw [if_pos h3] at h; cases h
        · rw [if_neg h3] at h
          have hrest : rest
              = (((c :: t).dropWhile isSchemeChar).drop 3).dropWhile isUrlChar := by
            cases h; rfl
          have hsc : isSchemeChar c = true := by simp [isSchemeChar, h1]
          have hdw : (c :: t).dropWhile isSchemeChar = t.dropWhile isSchemeChar := by
            simp [List.dropWhile_cons, hsc]
          have l1 : ((((c :: t).dropWhile isSchemeChar).drop 3).dropWhile
              isUrlChar).length ≤ (((c :: t).dropWhile isSchemeChar).drop 3).length :=
            dropWhile_length_le _ _
          have l2 : (((c :: t).dropWhile isSchemeChar).drop 3).length
              ≤ ((c :: t).dropWhile isSchemeChar).length := by
            simp [List.length_drop]
          have l3 : ((c :: t).dropWhile isSchemeChar).length ≤ t.length := by
            rw [hdw]; exact dropWhile_length_le _ _
          rw [hrest]
          simp only [List.length_cons]
          omega
      · rw [if_neg h2] at h; cases h
    · rw [if_neg h1] at h; cases h

theorem matchAutolink_getD_lt {s : Str} (h : (matchAutolink s).isSome = true) :
    (((matchAutolink s).getD ([], [])).2).length < s.length := by
  obtain ⟨⟨url, rest⟩, hpr⟩ := Option.isSome_iff_exists.mp h
  rw [hpr]
  exact matchAutolink_rest_lt hpr

/-- Python `linkify`: replace every (leftmost, non-overlapping) match of
`AUTOLINK_RE` by an anchor whose href and text are both `html.escape`d. -/
def linkify : Str → Str
  | [] => []
  | c :: t =>
    if (matchAutolink (c :: t)).isSome then
      "<a href=\"".data ++ htmlEscape ((matchAutolink (c :: t)).getD ([], [])).1
        ++ "\">".data ++ htmlEscape ((matchAutolink (c :: t)).getD ([], [])).1
        ++ "</a>".data ++ linkify ((matchAutolink (c :: t)).getD ([], [])).2
    else c :: linkify t
  termination_by s => s.length
  decreasing_by
  all_goals simp_wf
  all_goals
    first
    | (apply matchAutolink_getD_lt; assumption)
    | omega
    | simp

/-- `flush_plain` in `render_inlines`: the pending plain-text buffer is
HTML-escaped and then autolinked; an empty buffer contributes nothing. -/
def flush_plain (buf : Str) : Str :=
  if buf = [] then [] else linkify (htmlEscape buf)

/-- The glossary popover markup assembled in `render_inlines` (verbatim from
the Python f-strings), given the popover id, the raw term and the rendered
definition HTML. -/
def popover_html (pid term defHtml : Str) : Str :=
  "<span class=\"inline-flex items-center gap-1 align-baseline\">".data
  ++ "<button type=\"button\" class=\"underline decoration-dotted underline-offset-4 transition-colors duration-200 focus-visible:outline focus-visible:outline-2 focus-visible:outline-offset-2 focus-visible:outline-sky-500\" popovertarget=\"".data
  ++ pid ++ "\">".data ++ htmlEscape term ++ "</button>".data
  ++ "<aside id=\"".data ++ pid
  ++ "\" class=\"z-20 max-w-xs rounded-2xl border border-neutral-200/70 bg-white/95 p-4 text-sm leading-6 text-neutral-700 shadow-xl backdrop-blur-lg dark:border-white/10 dark:bg-neutral-900/95 dark:text-neutral-100\" popover=\"auto\" role=\"note\">".data
  ++ "<strong class=\"block text-sm font-semibold text-neutral-900 dark:text-neutral-100\">".data
  ++ htmlEscape term ++ "</strong>".data
  ++ "<span class=\"mt-2 block text-sm text-neutral-600 dark:text-neutral-200\">".data
  ++ defHtml ++ "</span>".data
  ++ "</aside>".data
  ++ "</span>".data

/-- The scanning loop of `render_inlines`.  `t` is the remaining input,
`buf` the pending plain-text buffer, `acc` the concatenation of the emitted
segments, `ctx` the popover counter of the `RenderContext`.  Each arm
mirrors one `if`-branch of the Python loop, including the fall-through
behaviour when a closing delimiter is missing. -/
def scanInlines : Str → Str → Str → Nat → Str × Nat
  | [], buf, acc, ctx => (acc ++ flush_plain buf, ctx)
  | '*' :: '*' :: u, buf, acc, ctx =>
    match findSub ['*', '*'] u with
    | some j =>
      let inner := scanInlines (u.take j) [] [] ctx
      scanInlines (u.drop (j + 2)) []
        (acc ++ flush_plain buf ++ "<strong>".data ++ inner.1 ++ "</strong>".data)
        inner.2
    | none =>
      -- `startswith("**", i)` holds but there is no closing `**`; the scan
      -- falls through to `startswith("*", i)`, and `find("*", i + 1)` hits
      -- the second asterisk, producing an empty emphasis span.
      let inner := scanInlines ([] : Str) [] [] ctx
      scanInlines u []
        (acc ++ flush_plain buf ++ "<em>".data ++ inner.1 ++ "</em>".data)
        inner.2
  | '*' :: u, buf, acc, ctx =>
    match findSub ['*'] u with
    | some j =>
      let inner := scanInlines (u.take j) [] [] ctx
      scanInlines (u.drop (j + 1)) []
        (acc ++ flush_plain buf ++ "<em>".data ++ inner.1 ++ "</em>".data)
        inner.2
    | none => scanInlines u (buf ++ ['*']) acc ctx
  | '`' :: u, buf, acc, ctx =>
    match findSub ['`'] u with
    | some j =>
      scanInlines (u.drop (j + 1)) []
        (acc ++ flush_plain buf ++ "<code>".data ++ htmlEscape (u.take j)
          ++ "</code>".data)
        ctx
    | none => scanInlines u (buf ++ ['`']) acc ctx
  | '(' :: '(' :: u, buf, acc, ctx =>
    match findSub [')', ')'] u with
    | some j =>
      match findSub [':', ':'] (u.take j) with
      | some k =>
        if pyStrip ((u.take j).take k) ≠ [] ∧ pyStrip ((u.take j).drop (k + 2)) ≠ [] then
          let inner := scanInlines (pyStrip ((u.take j).drop (k + 2))) [] [] (ctx + 1)
          scanInlines (u.drop (j + 2)) []
            (acc ++ flush_plain buf
              ++ popover_html ("glossary-popover-".data ++ natToStr (ctx + 1))
                (pyStrip ((u.take j).take k)) inner.1)
            inner.2
        else scanInlines ('(' :: u) (buf ++ ['(']) acc ctx
      | none => scanInlines ('(' :: u) (buf ++ ['(']) acc ctx
    | none => scanInlines ('(' :: u) (buf ++ ['(']) acc ctx
  | '[' :: u, buf, acc, ctx =>
    match findSub [']'] u with
    | some j =>
      if (u.drop (j + 1)).take 1 = ['('] then
        match findSub [')'] (u.drop (j + 2)) with
        | some p =>
          let inner := scanInlines (u.take j) [] [] ctx
          scanInlines ((u.drop (j + 2)).drop (p + 1)) []
            (acc ++ flush_plain buf ++ "<a href=\"".data
              ++ htmlEscape ((u.drop (j + 2)).take p)
              ++ "\">".data ++ inner.1 ++ "</a>".data)
            inner.2
        | none => scanInlines u (buf ++ ['[']) acc ctx
      else scanInlines u (buf ++ ['[']) acc ctx
    | none => scanInlines u (buf ++ ['[']) acc ctx
  | c :: u, buf, acc, ctx => scanInlines u (buf ++ [c]) acc ctx
  termination_by t _ _ _ => t.length
  decreasing_by
  all_goals simp_wf
  all_goals
    first
    | omega
    | (simp only [List.length_take, List.length_drop, List.length_cons,
        List.length_nil]; omega)
    | (have hv := congrArg List.length hd
       simp only [List.length_drop, List.length_cons] at hv
       try simp only [List.length_take, List.length_drop]
       omega)
    | (refine lt_of_le_of_lt (pyStrip_length_le _) ?_
       simp only [List.length_take, List.length_drop, List.length_cons]
       omega)

/-- Python `render_inlines(text, context)`: scan with empty buffers; returns
the HTML and the updated popover counter. -/
def render_inlines (text : Str) (ctx : Nat) : Str × Nat :=
  scanInlines text [] [] ctx

/-! ### Summary extraction (`extract_plain_text`, `extract_summary`, `slugify`) -/

/-- `[^:()]`, the term class of the glossary pattern in `extract_plain_text`. -/
def isTermChar (c : Char) : Bool := c ≠ ':' && c ≠ '(' && c ≠ ')'

/-- `[^()]`, the definition class of the glossary pattern. -/
def isDefChar (c : Char) : Bool := c ≠ '(' && c ≠ ')'

/-- `re.sub(r"\(\(([^:()]+)::([^()]+)\)\)", r"\1", text)`. -/
def subGlossary : Str → Str
  | [] => []
  | '(' :: '(' :: r =>
    let t1 := r.takeWhile isTermChar
    let r1 := r.dropWhile isTermChar
    if t1 ≠ [] ∧ [':', ':'].isPrefixOf r1 then
      let t2 := (r1.drop 2).takeWhile isDefChar
      let r2 := (r1.drop 2).dropWhile isDefChar
      if t2 ≠ [] ∧ [')', ')'].isPrefixOf r2 then t1 ++ subGlossary (r2.drop 2)
      else '(' :: subGlossary ('(' :: r)
    else '(' :: subGlossary ('(' :: r)
  | c :: t => c :: subGlossary t
  termination_by s => s.length
  decreasing_by
  all_goals simp_wf
  all_goals
    first
    | omega
    | (have h1 : (List.dropWhile isTermChar r).length ≤ r.length :=
         dropWhile_length_le _ _
       have h3 : (((List.dropWhile isTermChar r).drop 2).dropWhile isDefChar).length
           ≤ ((List.dropWhile isTermChar r).drop 2).length := dropWhile_length_le _ _
       try simp only [List.length_drop, List.length_cons] at h3
       try simp only [List.length_drop, List.length_cons]
       omega)

/-- ``re.sub(r"`([^`]+)`", r"\1", text)``. -/
def subCode : Str → Str
  | [] => []
  | '`' :: r =>
    let t1 := r.takeWhile (fun c => c ≠ '`')
    if t1 ≠ [] ∧ (r.dropWhile (fun c => c ≠ '`')).take 1 = ['`'] then
      t1 ++ subCode ((r.dropWhile (fun c => c ≠ '`')).drop 1)
    else '`' :: subCode r
  | c :: t => c :: subCode t
  termination_by s => s.length
  decreasing_by
  all_goals simp_wf
  all_goals
    first
    | omega
    | (have h1 : (List.dropWhile (fun c => c ≠ '`') r).length ≤ r.length :=
         dropWhile_length_le _ _
       try simp only [ne_eq, decide_not] at h1
       try simp only [List.length_drop, List.length_cons]
       omega)

/-- `re.sub(r"\*\*([^*]+)\*\*", r"\1", text)`. -/
def subStrong : Str → Str
  | [] => []
  | '*' :: '*' :: r =>
    let t1 := r.takeWhile (fun c => c ≠ '*')
    if t1 ≠ [] ∧ ['*', '*'].isPrefixOf (r.dropWhile (fun c => c ≠ '*')) then
      t1 ++ subStrong ((r.dropWhile (fun c => c ≠ '*')).drop 2)
    else '*' :: subStrong ('*' :: r)
  | c :: t => c :: subStrong t
  termination_by s => s.length
  decreasing_by
  all_goals simp_wf
  all_goals
    first
    | omega
    | (have h1 : (List.dropWhile (fun c => c ≠ '*') r).length ≤ r.length :=
         dropWhile_length_le _ _
       try simp only [ne_eq, decide_not] at h1
       try simp only [List.length_drop, List.length_cons]
       omega)

/-- `re.sub(r"\*([^*]+)\*", r"\1", text)`. -/
def subEm : Str → Str
  | [] => []
  | '*' :: r =>
    let t1 := r.takeWhile (fun c => c ≠ '*')
    if t1 ≠ [] ∧ (r.dropWhile (fun c => c ≠ '*')).take 1 = ['*'] then
      t1 ++ subEm ((r.dropWhile (fun c => c ≠ '*')).drop 1)
    else '*' :: subEm r
  | c :: t => c :: subEm t
  termination_by s => s.length
  decreasing_by
  all_goals simp_wf
  all_goals
    first
    | omega
    | (have h1 : (List.dropWhile (fun c => c ≠ '*') r).length ≤ r.length :=
         dropWhile_length_le _ _
       try simp only [ne_eq, decide_not] at h1
       try simp only [List.length_drop, List.length_cons]
       omega)

/-- Search for lazy `(.*?)\]\(`: index of the first `](` reachable without
crossing a newline (`.` does not match `\n`). -/
def findLinkMid : Str → Option Nat
  | [] => none
  | c :: t =>
    if c = ']' ∧ t.take 1 = ['('] then some 0
    else if c = '\n' then none
    else (findLinkMid t).map (· + 1)

/-- Search for lazy `(.*?)\)`: index of the first `)` reachable without
crossing a newline. -/
def findParenNoNl : Str → Option Nat
  | [] => none
  | c :: t =>
    if c = ')' then some 0
    else if c = '\n' then none
    else (findParenNoNl t).map (· + 1)

theorem findLinkMid_le {s : Str} {j : Nat} (h : findLinkMid s = some j) :
    j + 2 ≤ s.length := by
  induction s generalizing j with
  | nil => simp [findLinkMid] at h
  | cons c t ih =>
    simp only [findLinkMid] at h
    by_cases h1 : c = ']' ∧ t.take 1 = ['(']
    · rw [if_pos h1] at h
      obtain ⟨hc, ht⟩ := h1
      have hlen : t.length ≥ 1 := by
        have := congrArg List.length ht
        simp only [List.length_take, List.length_cons, List.length_nil] at this
        omega
      cases h
      simp only [List.length_cons]
      omega
    · rw [if_neg h1] at h
      by_cases h2 : c = '\n'
      · rw [if_pos h2] at h; cases h
      · rw [if_neg h2] at h
        revert h
        cases hj : findLinkMid t with
        | none => intro h; simp at h
        | some j' =>
          intro h
          simp at h
          have := ih hj
          simp only [List.length_cons]
          omega

theorem findParenNoNl_le {s : Str} {j : Nat} (h : findParenNoNl s = some j) :
    j + 1 ≤ s.length := by
  induction s generalizing j with
  | nil => simp [findParenNoNl] at h
  | cons c t ih =>
    simp only [findParenNoNl] at h
    by_cases h1 : c = ')'
    · rw [if_pos h1] at h
      cases h
      simp only [List.length_cons]
      omega
    · rw [if_neg h1] at h
      by_cases h2 : c = '\n'
      · rw [if_pos h2] at h; cases h
      · rw [if_neg h2] at h
        revert h
        cases hj : findParenNoNl t with
        | none => intro h; simp at h
        | some j' =>
          intro h
          simp at h
          have := ih hj
          simp only [List.length_cons]
          omega

/-- `re.sub(r"\[(.*?)\]\((.*?)\)", r"\1", text)`. -/
def subLink : Str → Str
  | [] => []
  | '[' :: r =>
    match hm : findLinkMid r with
    | some j =>
      match hp : findParenNoNl (r.drop (j + 2)) with
      | some p => r.take j ++ subLink ((r.drop (j + 2)).drop (p + 1))
      | none => '[' :: subLink r
    | none => '[' :: subLink r
  | c :: t => c :: subLink t
  termination_by s => s.length
  decreasing_by
  all_goals simp_wf
  all_goals
    first
    | omega
    | (have h1 := findLinkMid_le hm
       have h2 := findParenNoNl_le hp
       try simp only [List.length_drop, List.length_cons] at h2
       try simp only [List.length_drop, List.length_cons]
       omega)

/-- The whitespace-collapsing pass `re.sub(r"\s+", " ", text)`. -/
def collapseWs : Str → Str
  | [] => []
  | c :: t =>
    if pyIsSpace c then
      match t with
      | d :: _ => if pyIsSpace d then collapseWs t else ' ' :: collapseWs t
      | [] => [' ']
    else c :: collapseWs t

/-- Python `extract_plain_text(markup)`: the five sequential `re.sub`
passes followed by whitespace collapsing and stripping. -/
def extract_plain_text (markup : Str) : Str :=
  pyStrip (collapseWs (subLink (subEm (subStrong (subCode (subGlossary markup))))))

/-- Python `body.split("\n\n")`. -/
def splitParas : Str → List Str
  | [] => [[]]
  | '\n' :: '\n' :: t => [] :: splitParas t
  | c :: t =>
    match splitParas t with
    | [] => [[c]]
    | l :: ls => (c :: l) :: ls

/-- Python `extract_summary(body)`: plain text of the first raw paragraph
that is nonempty after markup stripping, else the empty string. -/
def extract_summary (body : Str) : Str :=
  (((splitParas body).map extract_plain_text).find? (fun s => !s.isEmpty)).getD []

/-- `[a-z0-9]` after lowering, the class kept by `slugify`. -/
def isSlugChar (c : Char) : Bool := ('a' ≤ c && c ≤ 'z') || pyIsDigit c

/-- The pass `re.sub(r"[^a-z0-9]+", "-", value.lower())`. -/
def slugCollapse : Str → Str
  | [] => []
  | c :: t =>
    if isSlugChar c then c :: slugCollapse t
    else
      match t with
      | d :: _ => if isSlugChar d then '-' :: slugCollapse t else slugCollapse t
      | [] => ['-']

/-- Python `slugify(value)`. -/
def slugify (value : Str) : Str :=
  let s := slugCollapse (value.map Char.toLower)
  let s := s.dropWhile (fun c => c = '-')
  let s := (s.reverse.dropWhile (fun c => c = '-')).reverse
  if s = [] then "section".data else s

/-! ### Block renderer (`render_body`) -/

/-- `Heading` dataclass. -/
structure Heading where
  level : Nat
  text : Str
  anchor : Str
deriving Repr, DecidableEq

/-- `RenderedBody` dataclass. -/
structure RenderedBody where
  html : Str
  headings : List Heading
deriving Repr, DecidableEq

/-- The `list_type` values `"unordered"` / `"ordered"`. -/
inductive LKind | unordered | ordered
deriving Repr, DecidableEq

/-- The mutable scan state of `render_body`: the accumulated block HTML,
the pending paragraph / list / code-fence buffers, the heading outline with
its per-post slug counters, and the popover counter of the
`RenderContext`. -/
structure BState where
  blocks : List Str
  paragraph_lines : List Str
  list_items : List (List Str)
  list_type : Option LKind
  in_code_fence : Bool
  code_lines : List Str
  headings : List Heading
  heading_counts : List (Str × Nat)
  ctx : Nat
deriving Repr, DecidableEq

/-- Python `dict.get(key, 0)` on the `heading_counts` dict. -/
def dictGet : List (Str × Nat) → Str → Nat
  | [], _ => 0
  | (k', v) :: t, k => if k' = k then v else dictGet t k

/-- Python `dict[key] = value` on the `heading_counts` dict. -/
def dictSet : List (Str × Nat) → Str → Nat → List (Str × Nat)
  | [], k, v => [(k, v)]
  | (k', v') :: t, k, v => if k' = k then (k, v) :: t else (k', v') :: dictSet t k v

/-- `flush_paragraph` in `render_body`. -/
def flush_paragraph (st : BState) : BState :=
  if st.paragraph_lines = [] then st
  else
    let r := render_inlines (joinSp st.paragraph_lines) st.ctx
    { st with blocks := st.blocks ++ ["<p>".data ++ r.1 ++ "</p>".data],
              paragraph_lines := [], ctx := r.2 }

/-- `flush_list` in `render_body`. -/
def flush_list (st : BState) : BState :=
  let blocks' :=
    if st.list_type ≠ none ∧ st.list_items ≠ [] then
      let tag : Str := if st.list_type = some LKind.unordered then "ul".data else "ol".data
      st.blocks ++ ["<".data ++ tag ++ ">".data
        ++ (st.list_items.map
            (fun parts => "<li>".data ++ joinSp parts ++ "</li>".data)).flatten
        ++ "</".data ++ tag ++ ">".data]
    else st.blocks
  { st with blocks := blocks', list_items := [], list_type := none }

/-- The fixed `<pre><code>` opening markup of `flush_code`. -/
def PRE_OPEN : Str :=
  ("<pre class=\"mt-8 overflow-x-auto rounded-3xl bg-neutral-950 text-neutral-50 shadow-xl ring-1 ring-white/10 dark:bg-neutral-900 dark:text-neutral-50 dark:ring-white/10\">"
    ++ "<code class=\"block font-mono text-sm leading-6\">").data

/-- `flush_code` in `render_body`. -/
def flush_code (st : BState) : BState :=
  if st.code_lines = [] then st
  else
    { st with
      blocks := st.blocks
        ++ [PRE_OPEN ++ joinNl (st.code_lines.map htmlEscape) ++ "</code></pre>".data],
      code_lines := [] }

/-- `re.match(r"^([-*+])\s+(.*)$", stripped)`: the rest after the marker and
its greedy whitespace run, when the line is a bullet item. -/
def bulletMatch (stripped : Str) : Option Str :=
  match stripped with
  | c :: d :: t =>
    if (c = '-' ∨ c = '*' ∨ c = '+') ∧ pyIsSpace d
    then some ((d :: t).dropWhile pyIsSpace) else none
  | _ => none

/-- `re.match(r"^(\d+)[.)]\s+(.*)$", stripped)`: the rest after the digits,
the separator and its whitespace run, when the line is an ordered item. -/
def orderedMatch (stripped : Str) : Option Str :=
  if stripped.takeWhile pyIsDigit = [] then none
  else
    match stripped.dropWhile pyIsDigit with
    | c :: d :: t =>
      if (c = '.' ∨ c = ')') ∧ pyIsSpace d
      then some ((d :: t).dropWhile pyIsSpace) else none
    | _ => none

/-- `re.match(r"^(#{1,6})\s+(.*)$", stripped)`: the heading level and the
rest after the marker run and its whitespace, when the line is a heading. -/
def headingMatch (stripped : Str) : Option (Nat × Str) :=
  let hs := stripped.takeWhile (fun c => c = '#')
  if 1 ≤ hs.length ∧ hs.length ≤ 6 then
    match stripped.dropWhile (fun c => c = '#') with
    | d :: t => if pyIsSpace d then some (hs.length, (d :: t).dropWhile pyIsSpace) else none
    | [] => none
  else none

/-- One iteration of the `for raw_line in body.splitlines()` loop of
`render_body` (`line = raw_line.rstrip("\n")` is the identity on
newline-free lines). -/
def stepLine (st : BState) (line : Str) : BState :=
  if st.in_code_fence then
    if ['`', '`', '`'].isPrefixOf (pyStrip line) then
      flush_code { st with in_code_fence := false }
    else { st with code_lines := st.code_lines ++ [line] }
  else
    let stripped := pyStrip line
    if ['`', '`', '`'].isPrefixOf stripped then
      let st := flush_list (flush_paragraph st)
      { st with in_code_fence := true, code_lines := [] }
    else if stripped = [] then
      flush_paragraph st
    else
      match bulletMatch stripped with
      | some rest =>
        let st := flush_paragraph st
        let st :=
          if st.list_type ≠ none ∧ st.list_type ≠ some LKind.unordered
          then flush_list st else st
        let r := render_inlines rest st.ctx
        { st with list_type := some LKind.unordered,
                  list_items := st.list_items ++ [[r.1]], ctx := r.2 }
      | none =>
      match orderedMatch stripped with
      | some rest =>
        let st := flush_paragraph st
        let st :=
          if st.list_type ≠ none ∧ st.list_type ≠ some LKind.ordered
          then flush_list st else st
        let r := render_inlines rest st.ctx
        { st with list_type := some LKind.ordered,
                  list_items := st.list_items ++ [[r.1]], ctx := r.2 }
      | none =>
      if st.list_type ≠ none ∧ line.take 1 = [' '] ∧ st.list_items ≠ [] then
        let r := render_inlines stripped st.ctx
        { st with
          list_items := st.list_items.dropLast ++ [(st.list_items.getLastD []) ++ [r.1]],
          ctx := r.2 }
      else
      match headingMatch stripped with
      | some (level, g2) =>
        let st := flush_list (flush_paragraph st)
        let content := pyStrip g2
        let r := render_inlines content st.ctx
        let plain := extract_plain_text content
        let base := slugify plain
        let count := dictGet st.heading_counts base
        let anchor := if count = 0 then base else base ++ ['-'] ++ natToStr count
        { st with
          blocks := st.blocks
            ++ ["<h".data ++ natToStr level ++ " id=\"".data ++ anchor ++ "\">".data
                ++ r.1 ++ "</h".data ++ natToStr level ++ ">".data],
          headings := st.headings ++ [⟨level, plain, anchor⟩],
          heading_counts := dictSet st.heading_counts base (count + 1),
          ctx := r.2 }
      | none =>
        let st := if st.list_type ≠ none then flush_list st else st
        { st with paragraph_lines := st.paragraph_lines ++ [stripped] }

/-- The post-loop epilogue of `render_body`: an unterminated code fence is
flushed as a final code block, then the pending paragraph and list. -/
def finishBody (st : BState) : BState :=
  let st := if st.in_code_fence then flush_code { st with in_code_fence := false } else st
  flush_list (flush_paragraph st)

/-- The initial state of one `render_body` call with popover counter
`ctx0` (the code constructs `RenderContext()`, i.e. counter `0`). -/
def initState (ctx0 : Nat) : BState :=
  ⟨[], [], [], none, false, [], [], [], ctx0⟩

/-- The whole line loop of `render_body`, parameterised by the initial
popover counter. -/
def runBody (body : Str) (ctx0 : Nat) : BState :=
  finishBody ((splitLines body).foldl stepLine (initState ctx0))

/-- Python `render_body(body)`: empty bodies short-circuit; otherwise the
line loop runs with a fresh `RenderContext()` and the blocks are joined
with newlines. -/
def render_body (body : Str) : RenderedBody :=
  if body = [] then ⟨[], []⟩
  else
    let st := runBody body 0
    ⟨joinNl st.blocks, st.headings⟩

/-! ### `textwrap.shorten` (used for post descriptions)

`shorten(text, width=155, placeholder="…")` first collapses whitespace
(`' '.join(text.strip().split())`), splits the result into chunks with
`TextWrapper._split` (`break_on_hyphens` behaviour of `wordsep_re`), and
runs `_wrap_chunks` with `width=155`, `max_lines=1`.  The embedding below
reproduces that code path for such arguments. -/

/-- Python `str.split()` (no argument): maximal non-whitespace runs. -/
def pySplitWs : Str → List Str
  | [] => []
  | c :: t =>
    if pyIsSpace c then pySplitWs t
    else (c :: t).takeWhile (fun x => !pyIsSpace x)
      :: pySplitWs ((c :: t).dropWhile (fun x => !pyIsSpace x))
  termination_by s => s.length
  decreasing_by
  all_goals simp_wf
  all_goals
    first
    | omega
    | (rename_i hc
       have hdw : List.dropWhile (fun x => !pyIsSpace x) (c :: t)
           = List.dropWhile (fun x => !pyIsSpace x) t := by
         simp [List.dropWhile_cons, hc]
       have h1 : (List.dropWhile (fun x => !pyIsSpace x) t).length ≤ t.length :=
         dropWhile_length_le _ _
       simp only [hdw, List.length_cons]
       omega)

/-- `\w` of `wordsep_re` (ASCII model). -/
def wsWordChar (c : Char) : Bool := pyIsAlpha c || pyIsDigit c || c = '_'

/-- The `letter` class `[^\d\W]` of `wordsep_re` (ASCII model). -/
def wsLetter (c : Char) : Bool := pyIsAlpha c || c = '_'

/-- The `word_punct` class `[\w!"'&.,?]` of `wordsep_re`. -/
def wordPunct (c : Char) : Bool :=
  wsWordChar c || c = '!' || c = '"' || c = '\'' || c = '&' || c = '.' || c = ','
    || c = '?'

/-- The hyphen lookbehind `(?:(?<=[^\d\W]{2}-)|(?<=[^\d\W]-[^\d\W]-))` of
`wordsep_re`, evaluated on the reversed text preceding (and including) the
hyphen's position, hyphen excluded: the argument is everything before the
hyphen, last character first. -/
def hyphenLookbehind (fullRev : Str) : Bool :=
  match fullRev with
  | a :: rest1 =>
    wsLetter a &&
      (match rest1 with
       | b :: rest2 =>
         wsLetter b
           || (b = '-' && (match rest2 with | c :: _ => wsLetter c | [] => false))
       | [] => false)
  | [] => false

/-- The hyphen lookahead `(?=[^\d\W]-?[^\d\W])` of `wordsep_re` on the text
after the hyphen. -/
def hyphenLookahead (r : Str) : Bool :=
  match r with
  | l1 :: rest =>
    wsLetter l1 &&
      (match rest with
       | l2 :: rest2 =>
         wsLetter l2
           || (l2 = '-' && (match rest2 with | l3 :: _ => wsLetter l3 | [] => false))
       | [] => false)
  | [] => false

/-- Whether the character just before the current position is in
`word_punct` (argument reversed, so its head is that character). -/
def headWordPunct : Str → Bool
  | a :: _ => wordPunct a
  | [] => false

/-- The em-dash lookahead `(?=-{2,}\w)` of `wordsep_re`. -/
def emDashAhead (r : Str) : Bool :=
  (r.takeWhile (fun c => c = '-')).length ≥ 2
    && (match r.dropWhile (fun c => c = '-') with
        | w :: _ => wsWordChar w
        | [] => false)

/-- The lazy word alternative `\S+?(...)` of `wordsep_re`: grow the word one
character at a time, stopping at the first position where one of its three
stop alternatives (hyphen break, end of word, em-dash follows) matches.
`prevRev` is the reversed text before the match, `consumedRev` the reversed
characters consumed so far (at least one).  Returns the chunk and the rest
of the text. -/
def wordScan (prevRev consumedRev rest : Str) : Str × Str :=
  match rest with
  | [] => (consumedRev.reverse, [])
  | x :: r2 =>
    if x = '-' ∧ hyphenLookbehind (consumedRev ++ prevRev) = true
        ∧ hyphenLookahead r2 = true then
      (consumedRev.reverse ++ ['-'], r2)
    else if pyIsSpace x then (consumedRev.reverse, rest)
    else if headWordPunct consumedRev = true ∧ emDashAhead rest = true then
      (consumedRev.reverse, rest)
    else wordScan prevRev (x :: consumedRev) r2

theorem wordScan_rest_le (prevRev consumedRev rest : Str) :
    (wordScan prevRev consumedRev rest).2.length ≤ rest.length := by
  induction rest generalizing consumedRev with
  | nil => simp [wordScan]
  | cons x r2 ih =>
    rw [wordScan]
    split
    · simp only [List.length_cons]; omega
    · split
      · simp
      · split
        · simp
        · have := ih (x :: consumedRev)
          simp only [List.length_cons]
          omega

/-- `TextWrapper._split` with `break_on_hyphens=True`: the full `wordsep_re`
pass dividing text into whitespace chunks, em-dash chunks and word chunks.
`prevRev` is the reversed text already consumed (for lookbehinds). -/
def wordsepChunks (prevRev : Str) (s : Str) : List Str :=
  match s with
  | [] => []
  | c :: t =>
    if pyIsSpace c then
      ((c :: t).takeWhile pyIsSpace)
        :: wordsepChunks (((c :: t).takeWhile pyIsSpace).reverse ++ prevRev)
          ((c :: t).dropWhile pyIsSpace)
    else if c = '-' ∧ headWordPunct prevRev = true ∧ emDashAhead (c :: t) = true then
      ((c :: t).takeWhile (fun x => x = '-'))
        :: wordsepChunks (((c :: t).takeWhile (fun x => x = '-')).reverse ++ prevRev)
          ((c :: t).dropWhile (fun x => x = '-'))
    else
      (wordScan prevRev [c] t).1
        :: wordsepChunks ((wordScan prevRev [c] t).1.reverse ++ prevRev)
          (wordScan prevRev [c] t).2
  termination_by s.length
  decreasing_by
  all_goals simp_wf
  all_goals
    first
    | (have h1 : (List.dropWhile pyIsSpace t).length ≤ t.length := dropWhile_length_le _ _
       have hdw : (List.dropWhile pyIsSpace (c :: t)).length ≤ t.length := by
         simp only [List.dropWhile_cons]
         split
         · exact h1
         · simp_all
       try simp only [List.length_cons]
       omega)
    | (have h1 : (List.dropWhile (fun x => x = '-') t).length ≤ t.length :=
         dropWhile_length_le _ _
       have hdw : (List.dropWhile (fun x => x = '-') (c :: t)).length ≤ t.length := by
         simp only [List.dropWhile_cons]
         split
         · exact h1
         · simp_all
       try simp only [List.length_cons]
       omega)
    | (have hwsl := wordScan_rest_le prevRev [c] t
       try simp only [List.length_cons]
       omega)

/-- A chunk consisting only of whitespace (`chunk.strip() == ''`). -/
def isWsChunk (chunk : Str) : Bool := chunk.all pyIsSpace

/-- The greedy chunk-accumulation loop of `_wrap_chunks`: keep taking chunks
while the accumulated length stays within the width.  Returns the taken
chunks and the remainder. -/
def greedyTake (width : Nat) (curLen : Nat) : List Str → List Str × List Str
  | [] => ([], [])
  | ch :: rest =>
    if curLen + ch.length ≤ width then
      ((greedyTake width (curLen + ch.length) rest).1.cons ch,
        (greedyTake width (curLen + ch.length) rest).2)
    else ([], ch :: rest)

/-- Python `str.rfind('-', 0, end)`: index of the last `-` strictly before
`end`, or `none`. -/
def rfindDashBefore (s : Str) (e : Nat) : Option Nat :=
  ((s.take e).reverse.findIdx? (fun c => c = '-')).map (fun i => (s.take e).length - 1 - i)

/-- `TextWrapper._handle_long_word` for `break_long_words=True`,
`break_on_hyphens=True` and a chunk longer than the whole width: put
`chunk[:end]` on the line (where `end` is the space left, or just past the
last usable hyphen inside it) and push the remainder back. -/
def handleLongWord (width : Nat) (cur : List Str) (chunk : Str) (rest : List Str) :
    List Str × List Str :=
  let spaceLeft := width - (cur.map List.length).sum
  let e :=
    match rfindDashBefore chunk spaceLeft with
    | some hy =>
      if hy > 0 ∧ (chunk.take hy).any (fun c => c ≠ '-') then hy + 1 else spaceLeft
    | none => spaceLeft
  (cur ++ [chunk.take e], chunk.drop e :: rest)

/-- The placeholder loop of `_wrap_chunks` for `max_lines=1`: drop trailing
chunks until the placeholder fits after a non-whitespace chunk; if the line
empties, the result is the placeholder alone. -/
def placeholderLoop (width : Nat) (cur : List Str) : Str :=
  match cur with
  | [] => ['…']
  | a :: rest =>
    if isWsChunk ((a :: rest).getLastD []) = false
        ∧ ((a :: rest).map List.length).sum + 1 ≤ width then
      (a :: rest).flatten ++ ['…']
    else placeholderLoop width (a :: rest).dropLast
  termination_by cur.length
  decreasing_by
  all_goals simp_wf
  all_goals try simp only [List.length_dropLast, List.length_cons]
  all_goals omega

/-- `_wrap_chunks` for `width=155`, `max_lines=1`, `placeholder='…'`,
default `drop_whitespace`/`break_long_words`/`break_on_hyphens`, on a chunk
list whose first chunk is not whitespace (always the case for the collapsed,
stripped text `shorten` passes in): greedy fill, one `_handle_long_word`
call for an over-wide next chunk, trailing-whitespace drop, then either the
line fits (no chunks left, or only a single whitespace chunk) or the
placeholder loop truncates it. -/
def wrapOneLine (width : Nat) (chunks : List Str) : Str :=
  let g := greedyTake width 0 chunks
  let h :=
    if g.2 ≠ [] ∧ (g.2.headD []).length > width then
      handleLongWord width g.1 (g.2.headD []) g.2.tail
    else g
  let cur := if h.1 ≠ [] ∧ isWsChunk (h.1.getLastD []) then h.1.dropLast else h.1
  let restChunks := h.2
  if cur = [] then []
  else if restChunks = [] ∨ (restChunks.length = 1 ∧ isWsChunk (restChunks.headD [])) then
    cur.flatten
  else placeholderLoop width cur

/-- Python `textwrap.shorten(text, width=155, placeholder="…")`. -/
def pyShorten (text : Str) : Str :=
  wrapOneLine 155 (wordsepChunks [] (joinSp (pySplitWs text)))

/-! ### Post assembly (`POST_FILENAME`, `parse_post`) -/

/-- Gregorian leap year, as `datetime.date` uses. -/
def isLeap (y : Nat) : Bool := y % 4 = 0 && (y % 100 ≠ 0 || y % 400 = 0)

/-- Days in a month of the proleptic Gregorian calendar. -/
def daysInMonth (y m : Nat) : Nat :=
  if m = 1 ∨ m = 3 ∨ m = 5 ∨ m = 7 ∨ m = 8 ∨ m = 10 ∨ m = 12 then 31
  else if m = 4 ∨ m = 6 ∨ m = 9 ∨ m = 11 then 30
  else if m = 2 then (if isLeap y then 29 else 28)
  else 0

/-- Validity of `datetime.strptime(date_str, "%Y-%m-%d").date()` on a
`dddd-dd-dd` digit layout: `datetime` requires year ≥ 1, month 1–12 and a
day valid for the month. -/
def validDate (y m d : Nat) : Bool :=
  1 ≤ y && 1 ≤ m && m ≤ 12 && 1 ≤ d && d ≤ daysInMonth y m

/-- Numeric value of a digit string. -/
def digitsToNat (s : Str) : Nat := s.foldl (fun a c => a * 10 + (c.toNat - 48)) 0

/-- `POST_FILENAME.match(name)` for the pattern
`(?P<date>\d{4}-\d{2}-\d{2})-(?P<slug>.+)\.(?P<ext>txt|md)$`: the anchored
`$` forces the extension to be the filename's suffix, the greedy `.+` makes
the slug everything between the date segment and that final suffix, and `.`
excludes newlines from the slug.  Returns `((y, m, d), slug, ext)`. -/
def parseFilename (name : Str) : Option ((Nat × Nat × Nat) × Str × Str) :=
  match
    (if (".txt".data).isSuffixOf name then some (name.take (name.length - 4), "txt".data)
     else if (".md".data).isSuffixOf name then some (name.take (name.length - 3), "md".data)
     else none : Option (Str × Str))
  with
  | none => none
  | some (core, ext) =>
    match core with
    | y1 :: y2 :: y3 :: y4 :: '-' :: m1 :: m2 :: '-' :: d1 :: d2 :: '-' :: slug =>
      if pyIsDigit y1 ∧ pyIsDigit y2 ∧ pyIsDigit y3 ∧ pyIsDigit y4
          ∧ pyIsDigit m1 ∧ pyIsDigit m2 ∧ pyIsDigit d1 ∧ pyIsDigit d2
          ∧ slug ≠ [] ∧ '\n' ∉ slug then
        some ((digitsToNat [y1, y2, y3, y4], digitsToNat [m1, m2],
          digitsToNat [d1, d2]), slug, ext)
      else none
    | _ => none

/-- Python `str.title()` (ASCII model): a letter is uppercased after a
non-letter and lowercased otherwise.  Only used by the dead `or` fallback of
`parse_post`'s title computation. -/
def pyTitle : Bool → Str → Str
  | _, [] => []
  | prev, c :: t =>
    (if pyIsAlpha c then (if prev then c.toLower else c.toUpper) else c)
      :: pyTitle (pyIsAlpha c) t

/-- The md-title heading strip `re.match(r"^#+\s*(.*)$", title_line)` of
`parse_post`: when the line starts with `#`s and the rest is nonempty after
stripping, the title becomes that stripped rest. -/
def mdStripTitle (titleLine : Str) : Str :=
  if titleLine.take 1 = ['#'] then
    let g1 := (titleLine.dropWhile (fun c => c = '#')).dropWhile pyIsSpace
    if pyStrip g1 ≠ [] then pyStrip g1 else titleLine
  else titleLine

/-- The first-nonblank-line search of `parse_post`: returns the stripped
title line and the lines after it. -/
def findTitle : List Str → Option (Str × List Str)
  | [] => none
  | l :: ls => if pyStrip l ≠ [] then some (pyStrip l, ls) else findTitle ls

/-- The `Post` dataclass (the fields `parse_post` populates). -/
structure Post where
  title : Str
  date : Nat × Nat × Nat
  slug : Str
  summary : Str
  description : Str
  body_html : Str
  headings : List Heading
deriving Repr, DecidableEq

/-- Python `parse_post(path)`, with the file name and its text content as
inputs: `None` when the filename does not match `POST_FILENAME`, the date
is not a valid calendar date, or the content is whitespace-only. -/
def parse_post (name : Str) (content : Str) : Option Post :=
  match parseFilename name with
  | none => none
  | some ((y, m, d), slug, ext) =>
    if validDate y m d = false then none
    else if pyStrip content = [] then none
    else
      match findTitle (splitLines content) with
      | none => none
      | some (t0, restLines) =>
        let title_line := if ext = "md".data then mdStripTitle t0 else t0
        let title :=
          if title_line ≠ [] then title_line
          else pyTitle false (slug.map (fun c => if c = '-' then ' ' else c))
        let body := pyStrip (joinNl restLines)
        let rendered := render_body body
        let summary := extract_summary body
        let description := if summary ≠ [] then pyShorten summary else title
        some ⟨title, (y, m, d), slug,
          (if summary ≠ [] then summary else title), description,
          rendered.html, rendered.headings⟩

/-! ### `load_posts` -/

/-- Membership of a file name in `POSTS_DIR.glob("*.txt")`: the name ends in
`.txt` and, per glob semantics, is not a hidden file (a leading `*` does not
match a leading dot). -/
def globTxt (name : Str) : Bool :=
  (".txt".data).isSuffixOf name && name.take 1 ≠ ['.']

/-- Lexicographic (code-point) string order, as Python compares paths of a
common directory. -/
def strLe : Str → Str → Bool
  | [], _ => true
  | _ :: _, [] => false
  | x :: xs, y :: ys => if x = y then strLe xs ys else decide (x < y)

/-- Stable insertion into a sorted list (earlier elements stay first among
`le`-ties), modelling the stability of Python's sorts. -/
def stableInsert {α : Type} (le : α → α → Bool) (x : α) : List α → List α
  | [] => [x]
  | y :: ys => if le x y then x :: y :: ys else y :: stableInsert le x ys

/-- Stable sort (insertion sort), modelling Python `sorted`/`list.sort`. -/
def stableSort {α : Type} (le : α → α → Bool) : List α → List α
  | [] => []
  | x :: xs => stableInsert le x (stableSort le xs)

/-- `date` order on `(y, m, d)` triples. -/
def dateLe (a b : Nat × Nat × Nat) : Bool :=
  decide (a.1 < b.1 ∨ (a.1 = b.1 ∧ (a.2.1 < b.2.1
    ∨ (a.2.1 = b.2.1 ∧ a.2.2 ≤ b.2.2))))

/-- Python `load_posts()`, with the posts directory modelled as a list of
`(file name, file content)` pairs: glob `*.txt`, iterate in sorted name
order, keep the files `parse_post` accepts, and stable-sort by date
descending (`reverse=True` keeps ties in scan order). -/
def load_posts (files : List (Str × Str)) : List Post :=
  let globbed := files.filter (fun f => globTxt f.1)
  let sortedFiles := stableSort (fun a b => strLe a.1 b.1) globbed
  let posts := sortedFiles.filterMap (fun f => parse_post f.1 f.2)
  stableSort (fun a b => dateLe b.date a.date) posts

/-! ### Spec-side definitions

These definitions formalise wording of the specification (they are compared
with the source-derived definitions above, never used to define them). -/

/-- A character that triggers none of the inline scanner's span rules:
plain text for `render_inlines`. -/
def plainChar (c : Char) : Bool := c ≠ '*' && c ≠ '`' && c ≠ '(' && c ≠ '['

/-- Spec side: "stripping all HTML tags" — remove every `<…>` run. -/
def stripTags : Str → Str
  | [] => []
  | '<' :: t => stripTags ((t.dropWhile (fun c => c ≠ '>')).drop 1)
  | c :: t => c :: stripTags t
  termination_by s => s.length
  decreasing_by
  all_goals simp_wf
  all_goals
    first
    | omega
    | (have h1 : (List.dropWhile (fun c => c ≠ '>') t).length ≤ t.length :=
         dropWhile_length_le _ _
       try simp only [ne_eq, decide_not] at h1
       try simp only [List.length_drop, List.length_cons]
       omega)

/-- Spec side: "normalizing whitespace" — collapse whitespace runs and trim,
exactly the normalisation the Summary Extractor itself ends with. -/
def normWs (s : Str) : Str := pyStrip (collapseWs s)

/-- The anchor the suffix scheme assigns to the `k`-th heading (0-based)
with a given base slug. -/
def anchorFor (base : Str) (k : Nat) : Str :=
  if k = 0 then base else base ++ ['-'] ++ natToStr k

/-- Largest `k` such that the first `k` words joined with spaces, plus the
ellipsis, fit in `width`. -/
def wordPrefixFit (width : Nat) : List Str → Nat → Nat
  | [], _ => 0
  | w :: ws, cur =>
    let add := if cur = 0 then w.length else w.length + 1
    if cur + add + 1 ≤ width then 1 + wordPrefixFit width ws (cur + add) else 0

/-- Spec side (claim C8): truncation of a summary "at a word boundary": the
longest whitespace-separated word prefix whose space-joined length leaves
room for the ellipsis, with the ellipsis appended. -/
def wordBoundaryTruncate (width : Nat) (s : Str) : Str :=
  (joinSp ((pySplitWs s).take (wordPrefixFit width (pySplitWs s) 0))) ++ ['…']

/-- Rewriting of one line for claim C9: an ordered-list marker's digits are
replaced by `1`; all other lines are unchanged. -/
def renumberLine (line : Str) : Str :=
  if (orderedMatch (pyStrip line)).isSome then
    '1' :: ((pyStrip line).dropWhile pyIsDigit)
  else line

/-- Claim C9's rewriting over a body's lines, leaving code-fence content
untouched (lines inside a fence are not ordered-list markers). -/
def renumberLines (inFence : Bool) : List Str → List Str
  | [] => []
  | l :: ls =>
    if inFence then
      l :: renumberLines (!(['`', '`', '`'].isPrefixOf (pyStrip l))) ls
    else
      renumberLine l :: renumberLines (['`', '`', '`'].isPrefixOf (pyStrip l)) ls

/-- Claim C9's rewriting of a whole body. -/
def renumberBody (body : Str) : Str :=
  joinNl (renumberLines false (splitLines body))

/-- The sequence of `render_body` calls of one generation run (`load_posts`
invokes `parse_post`, which calls `render_body`, once per post in order). -/
def renderBodySeq (bodies : List Str) : List RenderedBody :=
  bodies.map render_body

/-- A string without any whitespace character (claim C8: the shape of the
non-whitespace chunks `textwrap` works on). -/
def wsFree (s : Str) : Bool := s.all (fun c => !pyIsSpace c)

/-- No two adjacent whitespace characters (claim C8: the shape of the
whitespace-collapsed text `shorten` wraps). -/
def noDoubleWs : Str → Bool
  | a :: b :: t => (!(pyIsSpace a && pyIsSpace b)) && noDoubleWs (b :: t)
  | _ => true

/-- Claim C3: characters that trigger neither an inline-markup rule, nor
HTML escaping, nor autolinking, nor any block-level rule (headings, list
markers, code fences) — a body of such characters carries no markup. -/
def c3Char (c : Char) : Bool :=
  pyIsAlpha c || c = ' ' || c = '\n' || c = '.' || c = ','

/-- Claim C3: the paragraph texts `render_body` produces for a body of
plain lines — nonblank lines accumulate (stripped) into the pending
paragraph, blank lines flush it, and each finished paragraph's lines are
joined with single spaces. -/
def c3Paras (para : List Str) : List Str → List Str
  | [] => if para = [] then [] else [joinSp para]
  | l :: ls =>
    if pyStrip l = [] then
      (if para = [] then [] else [joinSp para]) ++ c3Paras [] ls
    else c3Paras (para ++ [pyStrip l]) ls

/-- Claim C8, counterexample input: a 158-character summary whose second
word `bb-cccc` straddles the 155-character budget with a hyphen inside
the budget. -/
def c8S : Str :=
  "aaaaaaaaaaaaaaaaaaaaaaaaaaaaaaaaaaaaaaaaaaaaaaaaaaaaaaaaaaaaaaaaaaaaaaaaaaaaaaaaaaaaaaaaaaaaaaaaaaaaaaaaaaaaaaaaaaaaaaaaaaaaaaaaaaaaaaaaaaaaaaaaaaaaaa bb-cccc".data

/-- Claim C8, counterexample output: the description `shorten` actually
produces for [c8S] — cut just after the hyphen of `bb-cccc`. -/
def c8D : Str :=
  "aaaaaaaaaaaaaaaaaaaaaaaaaaaaaaaaaaaaaaaaaaaaaaaaaaaaaaaaaaaaaaaaaaaaaaaaaaaaaaaaaaaaaaaaaaaaaaaaaaaaaaaaaaaaaaaaaaaaaaaaaaaaaaaaaaaaaaaaaaaaaaaaaaaaaa bb-…".data

/-- Claim C8, counterexample post filename. -/
def c8name : Str := "2024-01-02-a.txt".data

/-- Claim C8, counterexample post content: a title line, then [c8S] as the
whole body. -/
def c8content : Str :=
  "T\n\naaaaaaaaaaaaaaaaaaaaaaaaaaaaaaaaaaaaaaaaaaaaaaaaaaaaaaaaaaaaaaaaaaaaaaaaaaaaaaaaaaaaaaaaaaaaaaaaaaaaaaaaaaaaaaaaaaaaaaaaaaaaaaaaaaaaaaaaaaaaaaaaaaaaaa bb-cccc".data

/-! ## Scanner lemmas -/

theorem scanInlines_nil (buf acc : Str) (ctx : Nat) :
    scanInlines [] buf acc ctx = (acc ++ flush_plain buf, ctx) := by
  rw [scanInlines.eq_def]

theorem scanInlines_plain_cons (c : Char) (rest buf acc : Str) (ctx : Nat)
    (h : plainChar c = true) :
    scanInlines (c :: rest) buf acc ctx = scanInlines rest (buf ++ [c]) acc ctx := by
  simp only [plainChar, Bool.and_eq_true, decide_eq_true_eq] at h
  obtain ⟨⟨⟨h1, h2⟩, h3⟩, h4⟩ := h
  rw [scanInlines.eq_def]
  split
  all_goals first | rfl | simp_all

theorem scanInlines_plain_append (a : Str) (h : ∀ c ∈ a, plainChar c = true)
    (t buf acc : Str) (ctx : Nat) :
    scanInlines (a ++ t) buf acc ctx = scanInlines t (buf ++ a) acc ctx := by
  induction a generalizing buf with
  | nil => simp
  | cons c a' ih =>
    have hc := h c (by simp)
    rw [List.cons_append, scanInlines_plain_cons c _ _ _ _ hc,
      ih (fun x hx => h x (by simp [hx]))]
    simp

theorem scanInlines_plain_all (a buf acc : Str) (ctx : Nat)
    (h : ∀ c ∈ a, plainChar c = true) :
    scanInlines a buf acc ctx = (acc ++ flush_plain (buf ++ a), ctx) := by
  have := scanInlines_plain_append a h [] buf acc ctx
  rw [List.append_nil] at this
  rw [this, scanInlines_nil]

theorem findSub_none_of_head_notin {p : Char} {pat b : Str}
    (hb : ∀ c ∈ b, c ≠ p) : findSub (p :: pat) b = none := by
  induction b with
  | nil => simp [findSub]
  | cons c t ih =>
    have hc : c ≠ p := hb c (by simp)
    rw [findSub]
    have hpre : (p :: pat).isPrefixOf (c :: t) = false := by
      simp [List.isPrefixOf]
      intro he
      exact absurd he.symm hc
    rw [hpre]
    simp only [Bool.false_eq_true, if_false]
    rw [ih (fun x hx => hb x (by simp [hx]))]
    rfl

theorem scanInlines_unterminated_strong (b buf acc : Str) (ctx : Nat)
    (hfind : findSub ['*', '*'] b = none) :
    scanInlines ('*' :: '*' :: b) buf acc ctx
      = scanInlines b []
          (acc ++ flush_plain buf ++ "<em>".data ++ "</em>".data) ctx := by
  rw [scanInlines.eq_def]
  simp only [hfind, scanInlines_nil]
  have hf : flush_plain ([] : Str) = [] := rfl
  simp [hf]

/-! ## Claim C1 -/

/-- Claim C1, counterexample: the claim says an input containing `**` with
no later closing `**` renders as the HTML-escaped input with no emphasis tag
for that marker.  At the spec's own example `Hello **world`, `render_inlines`
instead falls through to the single-asterisk rule, the second `*` closes the
first, and the output is `Hello <em></em>world` — not the escaped input. -/
theorem C1_counterexample :
    (render_inlines "Hello **world".data 0).1 = "Hello <em></em>world".data
    ∧ (render_inlines "Hello **world".data 0).1
        ≠ htmlEscape "Hello **world".data := by
  have heval : (render_inlines "Hello **world".data 0).1
      = "Hello <em></em>world".data := by
    simp +decide [render_inlines, scanInlines, findSub, flush_plain, linkify,
      htmlEscape, escapeChar, matchAutolink, pyIsAlpha, pyIsSpace, isSchemeChar,
      isUrlChar]
  refine ⟨heval, ?_⟩
  rw [heval]
  decide

/-- Claim C1 (amended): when the input is plain text around a `**` marker
with no later `*` at all, the scan falls through from the strong-emphasis
rule to the single-asterisk rule, which pairs the marker's two asterisks
into an empty `<em></em>`; the surrounding text is kept (escaped and
autolinked, as all plain text is), so nothing is thrown away, but the `**`
is not emitted as literal text. -/
theorem C1_amended (a b : Str) (ha : ∀ c ∈ a, plainChar c = true)
    (hb : ∀ c ∈ b, plainChar c = true) (hbstar : ∀ c ∈ b, c ≠ '*') :
    render_inlines (a ++ '*' :: '*' :: b) 0
      = (flush_plain a ++ "<em></em>".data ++ flush_plain b, 0) := by
  unfold render_inlines
  rw [scanInlines_plain_append a ha, List.nil_append,
    scanInlines_unterminated_strong b a [] 0 (findSub_none_of_head_notin hbstar),
    scanInlines_plain_all b [] _ 0 hb]
  have : ("<em>".data : Str) ++ "</em>".data = "<em></em>".data := by decide
  simp [this, flush_plain]

/-- Claim C1, witness for the amended theorem at the spec's example
`Hello **world` (`a = "Hello "`, `b = "world"`). -/
theorem C1_amended_witness :
    render_inlines ("Hello ".data ++ '*' :: '*' :: "world".data) 0
      = (flush_plain "Hello ".data ++ "<em></em>".data
          ++ flush_plain "world".data, 0) :=
  C1_amended "Hello ".data "world".data (by decide) (by decide) (by decide)

/-! ## Decimal representation lemmas (for heading anchors) -/

theorem natToStr_ne_nil (n : Nat) : natToStr n ≠ [] := by
  rw [natToStr]
  split <;> simp

theorem digitsToNat_append_digit (a : Str) (c : Char) :
    digitsToNat (a ++ [c]) = 10 * digitsToNat a + (c.toNat - 48) := by
  simp [digitsToNat, List.foldl_append]
  ring

theorem digitsToNat_natToStr (n : Nat) : digitsToNat (natToStr n) = n := by
  induction n using Nat.strong_induction_on with
  | _ n ih =>
    rw [natToStr]
    split
    · rename_i h
      simp only [digitsToNat, List.foldl_cons, List.foldl_nil, Nat.zero_mul,
        Nat.zero_add]
      interval_cases n <;> decide
    · rename_i h
      rw [digitsToNat_append_digit,
        ih (n / 10) (Nat.div_lt_self (by omega) (by omega))]
      have hlt : n % 10 < 10 := Nat.mod_lt _ (by omega)
      have hc : (Char.ofNat (48 + n % 10)).toNat - 48 = n % 10 := by
        generalize hr : n % 10 = r at hlt
        interval_cases r <;> decide
      rw [hc]
      omega

theorem natToStr_injective : Function.Injective natToStr := by
  intro a b h
  have := congrArg digitsToNat h
  rwa [digitsToNat_natToStr, digitsToNat_natToStr] at this

theorem anchorFor_injective (base : Str) : Function.Injective (anchorFor base) := by
  intro k m h
  unfold anchorFor at h
  by_cases hk : k = 0 <;> by_cases hm : m = 0
  · omega
  · rw [if_pos hk, if_neg hm] at h
    have := congrArg List.length h
    have hne := natToStr_ne_nil m
    have : (natToStr m).length ≠ 0 := by simpa using hne
    simp [List.length_append] at *
    all_goals omega
  · rw [if_neg hk, if_pos hm] at h
    have := congrArg List.length h
    have hne := natToStr_ne_nil k
    have : (natToStr k).length ≠ 0 := by simpa using hne
    simp [List.length_append] at *
    all_goals omega
  · rw [if_neg hk, if_neg hm] at h
    rw [List.append_assoc, List.append_assoc] at h
    have h2 := List.append_cancel_left h
    have h3 := List.append_cancel_left h2
    exact natToStr_injective h3

/-! ## Dictionary lemmas -/

theorem dictGet_dictSet_self (m : List (Str × Nat)) (k : Str) (v : Nat) :
    dictGet (dictSet m k v) k = v := by
  induction m with
  | nil => simp [dictGet, dictSet]
  | cons p t ih =>
    obtain ⟨k', v'⟩ := p
    by_cases h : k' = k
    · simp [dictGet, dictSet, h]
    · simp [dictGet, dictSet, h, ih]

theorem dictGet_dictSet_ne (m : List (Str × Nat)) (k k' : Str) (v : Nat)
    (h : k' ≠ k) : dictGet (dictSet m k v) k' = dictGet m k' := by
  have hne : k ≠ k' := fun he => h he.symm
  induction m with
  | nil => simp [dictGet, dictSet, hne]
  | cons p t ih =>
    obtain ⟨k0, v0⟩ := p
    by_cases h0 : k0 = k
    · subst h0
      simp [dictGet, dictSet, hne]
    · simp [dictGet, dictSet, h0, ih]

/-! ## Heading-anchor invariant (claim C2) -/

/-- The per-state invariant of `render_body`'s heading bookkeeping: for every
base slug, the anchors of the headings with that base, in order, are exactly
`anchorFor base 0, …, anchorFor base (count - 1)` where `count` is the
value recorded in `heading_counts`. -/
def anchorsOk (hs : List Heading) (cm : List (Str × Nat)) : Prop :=
  ∀ b : Str, ((hs.filter (fun h => slugify h.text = b)).map Heading.anchor)
    = (List.range (dictGet cm b)).map (anchorFor b)

theorem anchorsOk_nil : anchorsOk [] [] := by
  intro b
  simp [dictGet]

theorem anchorsOk_extend (hs : List Heading) (cm : List (Str × Nat))
    (plain : Str) (lvl : Nat) (hP : anchorsOk hs cm) :
    anchorsOk (hs ++ [⟨lvl, plain,
        if dictGet cm (slugify plain) = 0 then slugify plain
        else slugify plain ++ ['-'] ++ natToStr (dictGet cm (slugify plain))⟩])
      (dictSet cm (slugify plain) (dictGet cm (slugify plain) + 1)) := by
  intro b
  rw [List.filter_append, List.map_append]
  by_cases hb : b = slugify plain
  · subst hb
    rw [dictGet_dictSet_self, List.range_succ, List.map_append,
      hP (slugify plain)]
    congr 1
    simp [anchorFor]
  · rw [dictGet_dictSet_ne _ _ _ _ hb]
    have hne : slugify plain ≠ b := fun he => hb he.symm
    have hfil : List.filter (fun h => decide (slugify h.text = b))
        [(⟨lvl, plain,
          if dictGet cm (slugify plain) = 0 then slugify plain
          else slugify plain ++ ['-'] ++ natToStr (dictGet cm (slugify plain))⟩ :
            Heading)] = [] := by
      simp [hne]
    rw [hfil]
    simp [hP b]

theorem flush_paragraph_headings (st : BState) :
    (flush_paragraph st).headings = st.headings
    ∧ (flush_paragraph st).heading_counts = st.heading_counts := by
  unfold flush_paragraph
  split <;> simp

theorem flush_list_headings (st : BState) :
    (flush_list st).headings = st.headings
    ∧ (flush_list st).heading_counts = st.heading_counts := by
  unfold flush_list
  simp

theorem flush_code_headings (st : BState) :
    (flush_code st).headings = st.headings
    ∧ (flush_code st).heading_counts = st.heading_counts := by
  unfold flush_code
  split <;> simp

/-- `anchorsOk` only reads the two heading fields. -/
theorem anchorsOk_congr {st st' : BState}
    (hh : st'.headings = st.headings)
    (hc : st'.heading_counts = st.heading_counts)
    (hP : anchorsOk st.headings st.heading_counts) :
    anchorsOk st'.headings st'.heading_counts := by
  rw [hh, hc]; exact hP

theorem stepLine_anchorsOk (st : BState) (line : Str)
    (hP : anchorsOk st.headings st.heading_counts) :
    anchorsOk (stepLine st line).headings (stepLine st line).heading_counts := by
  unfold stepLine
  dsimp only
  repeat' split
  all_goals
    first
    | exact anchorsOk_congr rfl rfl hP
    | (refine anchorsOk_congr ?_ ?_ hP <;>
       simp [(flush_list_headings _).1, (flush_list_headings _).2,
         (flush_paragraph_headings _).1, (flush_paragraph_headings _).2,
         (flush_code_headings _).1, (flush_code_headings _).2] <;>
       done)
    | (rename_i x lvl g2 heq hc
       have hPf : anchorsOk (flush_list (flush_paragraph st)).headings
          (flush_list (flush_paragraph st)).heading_counts := by
         refine anchorsOk_congr ?_ ?_ hP <;>
           simp [(flush_list_headings _).1, (flush_list_headings _).2,
             (flush_paragraph_headings _).1, (flush_paragraph_headings _).2]
       simpa [anchorFor, hc] using
         anchorsOk_extend _ _ (extract_plain_text (pyStrip g2)) lvl hPf)

theorem foldl_stepLine_anchorsOk (lines : List Str) (st : BState)
    (hP : anchorsOk st.headings st.heading_counts) :
    anchorsOk (lines.foldl stepLine st).headings
      (lines.foldl stepLine st).heading_counts := by
  induction lines generalizing st with
  | nil => exact hP
  | cons l ls ih => exact ih _ (stepLine_anchorsOk st l hP)

theorem render_body_anchorsOk (body : Str) :
    ∃ cm, anchorsOk (render_body body).headings cm := by
  unfold render_body
  split
  · exact ⟨[], by intro b; simp [dictGet]⟩
  · refine ⟨(runBody body 0).heading_counts, ?_⟩
    show anchorsOk (runBody body 0).headings (runBody body 0).heading_counts
    unfold runBody finishBody
    have h1 : anchorsOk ((splitLines body).foldl stepLine (initState 0)).headings
        ((splitLines body).foldl stepLine (initState 0)).heading_counts :=
      foldl_stepLine_anchorsOk (splitLines body) (initState 0) anchorsOk_nil
    have h2 : anchorsOk
        (if ((splitLines body).foldl stepLine (initState 0)).in_code_fence then
          flush_code { (splitLines body).foldl stepLine (initState 0) with
            in_code_fence := false }
        else (splitLines body).foldl stepLine (initState 0)).headings
        (if ((splitLines body).foldl stepLine (initState 0)).in_code_fence then
          flush_code { (splitLines body).foldl stepLine (initState 0) with
            in_code_fence := false }
        else (splitLines body).foldl stepLine (initState 0)).heading_counts := by
      split
      · exact anchorsOk_congr (flush_code_headings _).1 (flush_code_headings _).2 h1
      · exact h1
    exact anchorsOk_congr
      (by rw [(flush_list_headings _).1, (flush_paragraph_headings _).1])
      (by rw [(flush_list_headings _).2, (flush_paragraph_headings _).2]) h2

theorem pairwise_of_filter_nodup (hs : List Heading)
    (H : ∀ b : Str,
      ((hs.filter (fun h => slugify h.text = b)).map Heading.anchor).Nodup) :
    List.Pairwise
      (fun h1 h2 => slugify h1.text = slugify h2.text → h1.anchor ≠ h2.anchor)
      hs := by
  induction hs with
  | nil => exact List.Pairwise.nil
  | cons h t ih =>
    refine List.Pairwise.cons ?_ (ih ?_)
    · intro h2 hmem heq hanch
      have hb := H (slugify h.text)
      have hfil : List.filter (fun x => decide (slugify x.text = slugify h.text))
          (h :: t)
          = h :: List.filter (fun x => decide (slugify x.text = slugify h.text)) t := by
        rw [List.filter_cons]
        simp
      rw [hfil, List.map_cons, List.nodup_cons] at hb
      apply hb.1
      rw [List.mem_map]
      refine ⟨h2, ?_, hanch.symm⟩
      rw [List.mem_filter]
      exact ⟨hmem, by simp [heq]⟩
    · intro b
      have hb := H b
      rw [List.filter_cons] at hb
      split at hb
      · rw [List.map_cons, List.nodup_cons] at hb
        exact hb.2
      · exact hb

/-! ## Claim C2 -/

/-- Claim C2, counterexample: the claim asserts pairwise-distinct anchors
for every body.  The body `# Notes 1` / `# Notes` / `# Notes` produces the
anchors `notes-1`, `notes`, `notes-1` — the base slug `notes-1` of the first
heading collides with the suffixed anchor of the third — so the anchor list
is not pairwise distinct. -/
theorem C2_counterexample :
    (render_body "# Notes 1\n# Notes\n# Notes".data).headings.map Heading.anchor
      = ["notes-1".data, "notes".data, "notes-1".data]
    ∧ ¬ ((render_body "# Notes 1\n# Notes\n# Notes".data).headings.map
          Heading.anchor).Nodup := by
  have heval : (render_body "# Notes 1\n# Notes\n# Notes".data).headings.map
      Heading.anchor = ["notes-1".data, "notes".data, "notes-1".data] := by
    simp +decide [render_body, runBody, initState, finishBody, stepLine,
      flush_paragraph, flush_list, flush_code, bulletMatch, orderedMatch,
      headingMatch, dictGet, dictSet, splitLines, joinNl, joinSp,
      render_inlines, scanInlines, findSub, flush_plain, linkify,
      matchAutolink, htmlEscape, escapeChar, natToStr, pyStrip, pyLstrip,
      pyRstrip, pyIsSpace, pyIsDigit, pyIsAlpha, isSchemeChar, isUrlChar,
      extract_plain_text, subGlossary, subCode, subStrong, subEm, subLink,
      findLinkMid, findParenNoNl, collapseWs, isTermChar, isDefChar, slugify,
      isSlugChar, slugCollapse, List.intercalate]
  refine ⟨heval, ?_⟩
  rw [heval]
  decide

/-- Claim C2 (amended): the suffix scheme guarantees distinct anchors only
among headings that share the same base slug — the k-th heading with a base
gets `base` (k = 1) or `base-(k-1)` — so two headings both textually
"Notes" get `notes` and `notes-1`; anchors of headings with distinct base
slugs may still collide with a suffixed anchor. -/
theorem C2_amended :
    (∀ body : Str,
      List.Pairwise
        (fun h1 h2 => slugify h1.text = slugify h2.text → h1.anchor ≠ h2.anchor)
        (render_body body).headings)
    ∧ (render_body "# Notes\n# Notes".data).headings.map Heading.anchor
        = ["notes".data, "notes-1".data] := by
  constructor
  · intro body
    obtain ⟨cm, hok⟩ := render_body_anchorsOk body
    apply pairwise_of_filter_nodup
    intro b
    rw [hok b]
    exact List.Nodup.map (anchorFor_injective b) (List.nodup_range _)
  · simp +decide [render_body, runBody, initState, finishBody, stepLine,
      flush_paragraph, flush_list, flush_code, bulletMatch, orderedMatch,
      headingMatch, dictGet, dictSet, splitLines, joinNl, joinSp,
      render_inlines, scanInlines, findSub, flush_plain, linkify,
      matchAutolink, htmlEscape, escapeChar, natToStr, pyStrip, pyLstrip,
      pyRstrip, pyIsSpace, pyIsDigit, pyIsAlpha, isSchemeChar, isUrlChar,
      extract_plain_text, subGlossary, subCode, subStrong, subEm, subLink,
      findLinkMid, findParenNoNl, collapseWs, isTermChar, isDefChar, slugify,
      isSlugChar, slugCollapse, List.intercalate]

/-! ## Claim C4 -/

/-- Claim C4: `render_body` is deterministic across calls.  In the embedding
the per-call `RenderContext()` of the source makes `render_body` a pure
function of the body alone: in a sequential run, the result for a body is
independent of whatever was rendered before it; two renders of the same
body in one run produce identical `RenderedBody` values (HTML and
headings); and each call starts its popover counter at the context's
initial value `0`. -/
theorem C4_render_body_deterministic :
    (∀ (pre : List Str) (b : Str),
      (renderBodySeq (pre ++ [b])).getLast? = some (render_body b))
    ∧ (∀ b : Str, renderBodySeq [b, b] = [render_body b, render_body b])
    ∧ (∀ b : Str, render_body b
        = if b = [] then ⟨[], []⟩
          else ⟨joinNl (runBody b 0).blocks, (runBody b 0).headings⟩) := by
  refine ⟨?_, ?_, ?_⟩
  · intro pre b
    simp [renderBodySeq]
  · intro b
    rfl
  · intro b
    rfl

/-! ## Claim C5 -/

theorem pyStrip_eq_nil_iff (s : Str) :
    pyStrip s = [] ↔ ∀ c ∈ s, pyIsSpace c = true := by
  constructor
  · intro h c hc
    unfold pyStrip pyRstrip at h
    have h2 : (pyLstrip s).reverse.dropWhile pyIsSpace = [] := by
      have := congrArg List.reverse h
      simpa using this
    rw [List.dropWhile_eq_nil_iff] at h2
    have hmem : ∀ x ∈ pyLstrip s, pyIsSpace x = true := by
      intro x hx
      exact h2 x (by simpa using hx)
    by_cases hcl : c ∈ pyLstrip s
    · exact hmem c hcl
    · unfold pyLstrip at hcl
      have hsplit : c ∈ s.takeWhile pyIsSpace := by
        have : s = s.takeWhile pyIsSpace ++ s.dropWhile pyIsSpace :=
          (List.takeWhile_append_dropWhile pyIsSpace s).symm
        rw [this] at hc
        rcases List.mem_append.mp hc with h | h
        · exact h
        · exact absurd h hcl
      exact List.mem_takeWhile_imp hsplit
  · intro h
    have h1 : pyLstrip s = [] := by
      unfold pyLstrip
      rw [List.dropWhile_eq_nil_iff]
      exact h
    rw [pyStrip, h1]
    rfl

theorem mem_splitLines_of_mem {c : Char} {content : Str} (hc : c ∈ content)
    (hne : c ≠ '\n') : ∃ l ∈ splitLines content, c ∈ l := by
  induction content with
  | nil => cases hc
  | cons a t ih =>
    rw [splitLines]
    by_cases ha : a = '\n'
    · rw [if_pos ha]
      rcases List.mem_cons.mp hc with h | h
      · exact absurd (h.trans ha) hne
      · obtain ⟨l, hl, hcl⟩ := ih h
        exact ⟨l, List.mem_cons_of_mem _ hl, hcl⟩
    · rw [if_neg ha]
      rcases List.mem_cons.mp hc with h | h
      · subst h
        cases hsp : splitLines t with
        | nil => exact ⟨[c], by simp⟩
        | cons l ls => exact ⟨c :: l, by simp⟩
      · obtain ⟨l, hl, hcl⟩ := ih h
        cases hsp : splitLines t with
        | nil => rw [hsp] at hl; cases hl
        | cons l0 ls =>
          rw [hsp] at hl
          rcases List.mem_cons.mp hl with h0 | h0
          · subst h0
            exact ⟨a :: l, by simp, List.mem_cons_of_mem _ hcl⟩
          · exact ⟨l, by simp [h0], hcl⟩

theorem exists_nonblank_line_of_strip_ne {content : Str}
    (h : pyStrip content ≠ []) :
    ∃ l ∈ splitLines content, pyStrip l ≠ [] := by
  have hex : ∃ c ∈ content, pyIsSpace c = false := by
    by_contra hall
    push_neg at hall
    apply h
    rw [pyStrip_eq_nil_iff]
    intro c hc
    have := hall c hc
    revert this
    cases pyIsSpace c <;> simp
  obtain ⟨c, hc, hcws⟩ := hex
  have hne : c ≠ '\n' := by
    intro he
    subst he
    simp [pyIsSpace] at hcws
  obtain ⟨l, hl, hcl⟩ := mem_splitLines_of_mem hc hne
  refine ⟨l, hl, fun hnil => ?_⟩
  rw [pyStrip_eq_nil_iff] at hnil
  have := hnil c hcl
  rw [hcws] at this
  cases this

theorem findTitle_isSome_of (lines : List Str)
    (h : ∃ l ∈ lines, pyStrip l ≠ []) : (findTitle lines).isSome = true := by
  induction lines with
  | nil => simp at h
  | cons l ls ih =>
    rw [findTitle]
    by_cases hl : pyStrip l = []
    · rw [if_neg (by simp [hl])]
      apply ih
      obtain ⟨l0, hl0, hs0⟩ := h
      rcases List.mem_cons.mp hl0 with he | he
      · exact absurd (he ▸ hs0) (by simp [hl])
      · exact ⟨l0, he, hs0⟩
    · rw [if_pos (by simp [hl])]
      rfl

theorem parse_post_isSome_iff (name content : Str) :
    (parse_post name content).isSome = true ↔
      (match parseFilename name with
       | some ((y, m, d), _, _) => validDate y m d = true
       | none => False)
      ∧ pyStrip content ≠ [] := by
  unfold parse_post
  cases hpf : parseFilename name with
  | none => simp
  | some x =>
    obtain ⟨⟨y, m, d⟩, slug, ext⟩ := x
    by_cases hv : validDate y m d = true
    · by_cases hs : pyStrip content = []
      · simp [hv, hs]
      · have hft := findTitle_isSome_of (splitLines content)
          (exists_nonblank_line_of_strip_ne hs)
        cases hft' : findTitle (splitLines content) with
        | none => rw [hft'] at hft; cases hft
        | some pr =>
          obtain ⟨t0, rest⟩ := pr
          simp [hv, hs, hft']
    · have hv' : validDate y m d = false := by
        revert hv; cases validDate y m d <;> simp
      simp [hv', hv]

/-- Claim C5, counterexample: the claim says a file yields a post exactly
when it matches `YYYY-MM-DD-<slug>.<ext>` with a recognized extension (txt
or md), a valid date, and nonempty trimmed content.  The md file
`2024-01-02-hello.md` with content `Hi` satisfies all of that — even
`parse_post` accepts it — yet `load_posts` globs only `*.txt`, so it
contributes zero posts. -/
theorem C5_counterexample :
    (parseFilename "2024-01-02-hello.md".data).isSome = true
    ∧ validDate 2024 1 2 = true
    ∧ pyStrip "Hi".data ≠ []
    ∧ (parse_post "2024-01-02-hello.md".data "Hi".data).isSome = true
    ∧ load_posts [("2024-01-02-hello.md".data, "Hi".data)] = [] := by
  refine ⟨by decide, by decide, by decide, ?_, by decide⟩
  rw [parse_post_isSome_iff]
  refine ⟨?_, by decide⟩
  have : parseFilename "2024-01-02-hello.md".data
      = some ((2024, 1, 2), "hello".data, "md".data) := by decide
  rw [this]
  decide

/-- Claim C5 (amended): in `load_posts` only `*.txt` files are globbed, so a
file in the posts directory yields a post record exactly when its name
matches the glob `*.txt` (ends in `.txt`, not a hidden file), its name
matches `POST_FILENAME`, its date segment is a valid calendar date, and its
content is nonempty after trimming; every other file — including `.md`
files that `POST_FILENAME` itself would accept — is silently skipped. -/
theorem C5_amended (name content : Str) :
    load_posts [(name, content)] ≠ [] ↔
      globTxt name = true
      ∧ (match parseFilename name with
         | some ((y, m, d), _, _) => validDate y m d = true
         | none => False)
      ∧ pyStrip content ≠ [] := by
  have h1 : load_posts [(name, content)] ≠ []
      ↔ (globTxt name = true ∧ (parse_post name content).isSome = true) := by
    unfold load_posts
    by_cases hg : globTxt name = true
    · cases hp : parse_post name content with
      | none => simp [hg, hp, stableSort, stableInsert]
      | some post => simp [hg, hp, stableSort, stableInsert]
    · simp [hg, stableSort]
  rw [h1, parse_post_isSome_iff]

/-! ## Claim C6 -/

/-- Claim C6, counterexample: the claim says the derived title always has a
leading heading marker stripped when present; but `parse_post` strips it
only for `.md` files, so the `.txt` post file `2024-01-02-a.txt` with first
line `# Hello` gets the literal title `# Hello`, not `Hello`. -/
theorem C6_counterexample :
    (parse_post "2024-01-02-a.txt".data "# Hello\nWorld".data).map Post.title
      = some "# Hello".data
    ∧ (parse_post "2024-01-02-a.txt".data "# Hello\nWorld".data).map Post.title
      ≠ some "Hello".data := by
  constructor <;> decide

theorem findTitle_some_ne {lines : List Str} {t0 : Str} {rest : List Str}
    (h : findTitle lines = some (t0, rest)) : t0 ≠ [] := by
  induction lines with
  | nil => simp [findTitle] at h
  | cons l ls ih =>
    rw [findTitle] at h
    by_cases hl : pyStrip l = []
    · rw [if_neg (by simp [hl])] at h
      exact ih h
    · rw [if_pos (by simp [hl])] at h
      cases h
      exact hl

theorem mdStripTitle_ne_nil {t0 : Str} (h : t0 ≠ []) : mdStripTitle t0 ≠ [] := by
  unfold mdStripTitle
  dsimp only
  split
  · split
    · rename_i hg
      exact hg
    · exact h
  · exact h

/-- Claim C6 (amended): for every qualifying post file, the derived title is
the stripped first non-blank line, with the leading `#`-marker run (and the
whitespace after it) removed only when the file extension is `md` and the
remainder is nonempty after stripping (for `.txt` files — the only files
`load_posts` processes — the marker is kept verbatim); the body handed to
the Block Renderer is the remaining lines joined with newlines and stripped
of leading and trailing whitespace (which removes blank boundary lines and
also surrounding spaces). -/
theorem C6_amended (name content : Str) (y m d : Nat) (slug ext t0 : Str)
    (rest : List Str)
    (hpf : parseFilename name = some ((y, m, d), slug, ext))
    (hv : validDate y m d = true)
    (hs : pyStrip content ≠ [])
    (hft : findTitle (splitLines content) = some (t0, rest)) :
    (parse_post name content).map Post.title
      = some (if ext = "md".data then mdStripTitle t0 else t0)
    ∧ (parse_post name content).map Post.body_html
      = some (render_body (pyStrip (joinNl rest))).html
    ∧ (parse_post name content).map Post.headings
      = some (render_body (pyStrip (joinNl rest))).headings := by
  have ht0 : t0 ≠ [] := findTitle_some_ne hft
  have htl : (if ext = "md".data then mdStripTitle t0 else t0) ≠ [] := by
    split
    · exact mdStripTitle_ne_nil ht0
    · exact ht0
  simp only [parse_post, hpf, hft]
  simp [hv, hs, htl]

/-- Claim C6, witness for the amended theorem: the md file
`2024-01-02-a.md` with content `# Hello\nWorld` (title line stripped to
`Hello` because the extension is md). -/
theorem C6_amended_witness :
    (parse_post "2024-01-02-a.md".data "# Hello\nWorld".data).map Post.title
      = some (if ("md".data : Str) = "md".data
          then mdStripTitle "# Hello".data else "# Hello".data)
    ∧ (parse_post "2024-01-02-a.md".data "# Hello\nWorld".data).map
        Post.body_html
      = some (render_body (pyStrip (joinNl ["World".data]))).html
    ∧ (parse_post "2024-01-02-a.md".data "# Hello\nWorld".data).map
        Post.headings
      = some (render_body (pyStrip (joinNl ["World".data]))).headings :=
  C6_amended "2024-01-02-a.md".data "# Hello\nWorld".data 2024 1 2 "a".data
    "md".data "# Hello".data ["World".data] (by decide) (by decide) (by decide)
    (by decide)

/-! ## Claim C7 -/

/-- Claim C7: outside a code fence, a blank line makes `render_body`'s line
step flush exactly the pending paragraph (`flush_paragraph`) — the
in-progress list buffers are untouched, so a list is never flushed by a
blank line.  Concretely, a list continues across a blank line (`- a`, blank,
`- b` is one `<ul>`), and is flushed when a later non-list line arrives
(`- a`, blank, `x`). -/
theorem C7_blank_line_flushes_paragraph_only :
    (∀ (st : BState) (line : Str), st.in_code_fence = false →
      pyStrip line = [] →
      stepLine st line = flush_paragraph st
      ∧ (flush_paragraph st).list_items = st.list_items
      ∧ (flush_paragraph st).list_type = st.list_type)
    ∧ (render_body "- a\n\n- b".data).html = "<ul><li>a</li><li>b</li></ul>".data
    ∧ (render_body "- a\n\nx".data).html
        = "<ul><li>a</li></ul>\n<p>x</p>".data := by
  refine ⟨?_, ?_, ?_⟩
  · intro st line hf hb
    refine ⟨?_, ?_, ?_⟩
    · unfold stepLine
      rw [hf, hb]
      simp
    · unfold flush_paragraph
      split <;> simp
    · unfold flush_paragraph
      split <;> simp
  · simp +decide [render_body, runBody, initState, finishBody, stepLine,
      flush_paragraph, flush_list, flush_code, bulletMatch, orderedMatch,
      headingMatch, dictGet, dictSet, splitLines, joinNl, joinSp,
      render_inlines, scanInlines, findSub, flush_plain, linkify,
      matchAutolink, htmlEscape, escapeChar, natToStr, pyStrip, pyLstrip,
      pyRstrip, pyIsSpace, pyIsDigit, pyIsAlpha, isSchemeChar, isUrlChar,
      extract_plain_text, subGlossary, subCode, subStrong, subEm, subLink,
      findLinkMid, findParenNoNl, collapseWs, isTermChar, isDefChar, slugify,
      isSlugChar, slugCollapse]
  · simp +decide [render_body, runBody, initState, finishBody, stepLine,
      flush_paragraph, flush_list, flush_code, bulletMatch, orderedMatch,
      headingMatch, dictGet, dictSet, splitLines, joinNl, joinSp,
      render_inlines, scanInlines, findSub, flush_plain, linkify,
      matchAutolink, htmlEscape, escapeChar, natToStr, pyStrip, pyLstrip,
      pyRstrip, pyIsSpace, pyIsDigit, pyIsAlpha, isSchemeChar, isUrlChar,
      extract_plain_text, subGlossary, subCode, subStrong, subEm, subLink,
      findLinkMid, findParenNoNl, collapseWs, isTermChar, isDefChar, slugify,
      isSlugChar, slugCollapse]

/-- Claim C7, witness: a state with an unordered list in progress, and a
whitespace-only line. -/
theorem C7_witness :
    stepLine ⟨[], [], [["a".data]], some LKind.unordered, false, [], [], [], 0⟩
        "  ".data
      = flush_paragraph ⟨[], [], [["a".data]], some LKind.unordered, false,
          [], [], [], 0⟩
    ∧ (flush_paragraph ⟨[], [], [["a".data]], some LKind.unordered, false,
          [], [], [], 0⟩).list_items
      = (⟨[], [], [["a".data]], some LKind.unordered, false, [], [], [],
          0⟩ : BState).list_items
    ∧ (flush_paragraph ⟨[], [], [["a".data]], some LKind.unordered, false,
          [], [], [], 0⟩).list_type
      = (⟨[], [], [["a".data]], some LKind.unordered, false, [], [], [],
          0⟩ : BState).list_type :=
  C7_blank_line_flushes_paragraph_only.1
    ⟨[], [], [["a".data]], some LKind.unordered, false, [], [], [], 0⟩
    "  ".data rfl (by decide)

/-! ## Claim C10 -/

theorem pyStrip_joinNl_blank : ∀ (rest : List Str),
    (∀ l ∈ rest, pyStrip l = []) → pyStrip (joinNl rest) = [] := by
  intro rest
  induction rest with
  | nil => intro _; rfl
  | cons l ls ih =>
    intro hrest
    rw [pyStrip_eq_nil_iff]
    intro c hc
    have hl : ∀ x ∈ l, pyIsSpace x = true := by
      rw [← pyStrip_eq_nil_iff]
      exact hrest l (by simp)
    cases ls with
    | nil =>
      rw [joinNl] at hc
      exact hl c hc
    | cons l2 ls2 =>
      have hj : joinNl (l :: l2 :: ls2) = l ++ '\n' :: joinNl (l2 :: ls2) := rfl
      rw [hj] at hc
      rcases List.mem_append.mp hc with h | h
      · exact hl c h
      · rcases List.mem_cons.mp h with h | h
        · subst h; decide
        · have hih := ih (fun x hx => hrest x (List.mem_cons_of_mem _ hx))
          rw [pyStrip_eq_nil_iff] at hih
          exact hih c h

/-- Claim C10: a qualifying post file whose trimmed content is a single
non-blank title line — `findTitle` finds a first non-blank line and every
later line is blank — is not skipped: `parse_post` produces a post with
empty `body_html`, no headings, and summary and description both equal to
the title. -/
theorem C10_title_only_post (name content : Str) (y m d : Nat)
    (slug ext t0 : Str) (rest : List Str)
    (hpf : parseFilename name = some ((y, m, d), slug, ext))
    (hv : validDate y m d = true)
    (hs : pyStrip content ≠ [])
    (hft : findTitle (splitLines content) = some (t0, rest))
    (hrest : ∀ l ∈ rest, pyStrip l = []) :
    (parse_post name content).isSome = true
    ∧ (parse_post name content).map Post.body_html = some []
    ∧ (parse_post name content).map Post.headings = some []
    ∧ (parse_post name content).map Post.summary
      = (parse_post name content).map Post.title
    ∧ (parse_post name content).map Post.description
      = (parse_post name content).map Post.title := by
  have hbody : pyStrip (joinNl rest) = [] := pyStrip_joinNl_blank rest hrest
  have hsum : extract_summary ([] : Str) = [] := by
    simp [extract_summary, splitParas, extract_plain_text, subGlossary,
      subCode, subStrong, subEm, subLink, collapseWs, pyStrip, pyLstrip,
      pyRstrip]
  have ht0 : t0 ≠ [] := findTitle_some_ne hft
  have htl : (if ext = "md".data then mdStripTitle t0 else t0) ≠ [] := by
    split
    · exact mdStripTitle_ne_nil ht0
    · exact ht0
  simp only [parse_post, hpf, hft]
  simp [hv, hs, hbody, hsum, htl, render_body]

/-- Claim C10, witness: the txt file `2024-01-02-a.txt` whose content is
blank lines around the single title line `Title Only`. -/
theorem C10_witness :
    (parse_post "2024-01-02-a.txt".data "\n\nTitle Only\n  \n".data).isSome
      = true
    ∧ (parse_post "2024-01-02-a.txt".data "\n\nTitle Only\n  \n".data).map
        Post.body_html = some []
    ∧ (parse_post "2024-01-02-a.txt".data "\n\nTitle Only\n  \n".data).map
        Post.headings = some []
    ∧ (parse_post "2024-01-02-a.txt".data "\n\nTitle Only\n  \n".data).map
        Post.summary
      = (parse_post "2024-01-02-a.txt".data "\n\nTitle Only\n  \n".data).map
        Post.title
    ∧ (parse_post "2024-01-02-a.txt".data "\n\nTitle Only\n  \n".data).map
        Post.description
      = (parse_post "2024-01-02-a.txt".data "\n\nTitle Only\n  \n".data).map
        Post.title :=
  C10_title_only_post "2024-01-02-a.txt".data "\n\nTitle Only\n  \n".data
    2024 1 2 "a".data "txt".data "Title Only".data ["  ".data] (by decide)
    (by decide) (by decide) (by decide) (by decide)

/-! ## Claim C9 -/

theorem flush_paragraph_fence (st : BState) :
    (flush_paragraph st).in_code_fence = st.in_code_fence := by
  unfold flush_paragraph
  split <;> rfl

theorem flush_list_fence (st : BState) :
    (flush_list st).in_code_fence = st.in_code_fence := rfl

theorem flush_code_fence (st : BState) :
    (flush_code st).in_code_fence = st.in_code_fence := by
  unfold flush_code
  split <;> rfl

theorem orderedMatch_head_digit {s rest : Str} (h : orderedMatch s = some rest) :
    ∃ c t, s = c :: t ∧ pyIsDigit c = true := by
  unfold orderedMatch at h
  by_cases hds : s.takeWhile pyIsDigit = []
  · rw [if_pos hds] at h; cases h
  · cases s with
    | nil => simp at hds
    | cons c t =>
      refine ⟨c, t, rfl, ?_⟩
      by_contra hc
      have hc' : pyIsDigit c = false := by revert hc; cases pyIsDigit c <;> simp
      rw [List.takeWhile_cons, hc'] at hds
      simp at hds

theorem orderedMatch_dropWhile_shape {s rest : Str}
    (h : orderedMatch s = some rest) :
    ∃ c d t, s.dropWhile pyIsDigit = c :: d :: t
      ∧ (c = '.' ∨ c = ')') ∧ pyIsSpace d = true
      ∧ rest = (d :: t).dropWhile pyIsSpace := by
  unfold orderedMatch at h
  by_cases hds : s.takeWhile pyIsDigit = []
  · rw [if_pos hds] at h; cases h
  · rw [if_neg hds] at h
    cases hX : s.dropWhile pyIsDigit with
    | nil => rw [hX] at h; cases h
    | cons c X1 =>
      rw [hX] at h
      cases X1 with
      | nil => cases h
      | cons d t =>
        dsimp only at h
        by_cases hcond : (c = '.' ∨ c = ')') ∧ pyIsSpace d = true
        · rw [if_pos hcond] at h
          cases h
          exact ⟨c, d, t, rfl, hcond.1, hcond.2, rfl⟩
        · rw [if_neg hcond] at h; cases h

theorem dropWhile_fix_head {p : Char → Bool} {l : Str} (h : l.dropWhile p = l) :
    ∀ c t, l = c :: t → p c = false := by
  intro c t he
  subst he
  rw [List.dropWhile_cons] at h
  by_cases hp : p c = true
  · rw [if_pos hp] at h
    have := congrArg List.length h
    have hle := dropWhile_length_le p t
    simp at this
    omega
  · revert hp; cases p c <;> simp

theorem dropWhile_idem (p : Char → Bool) (l : Str) :
    (l.dropWhile p).dropWhile p = l.dropWhile p := by
  induction l with
  | nil => rfl
  | cons c t ih =>
    rw [List.dropWhile_cons]
    split
    · exact ih
    · rename_i hp
      rw [List.dropWhile_cons, if_neg hp]

theorem pyRstrip_pyStrip (line : Str) : pyRstrip (pyStrip line) = pyStrip line := by
  unfold pyStrip pyRstrip
  rw [List.reverse_reverse, dropWhile_idem]

theorem pyStrip_one_cons (line : Str)
    (hne : (pyStrip line).dropWhile pyIsDigit ≠ []) :
    pyStrip ('1' :: (pyStrip line).dropWhile pyIsDigit)
      = '1' :: (pyStrip line).dropWhile pyIsDigit := by
  have h1 : pyLstrip ('1' :: (pyStrip line).dropWhile pyIsDigit)
      = '1' :: (pyStrip line).dropWhile pyIsDigit := by
    unfold pyLstrip
    rw [List.dropWhile_cons, if_neg (by decide)]
  rw [show pyStrip ('1' :: (pyStrip line).dropWhile pyIsDigit)
      = pyRstrip (pyLstrip ('1' :: (pyStrip line).dropWhile pyIsDigit))
    from rfl, h1]
  -- it remains to right-strip; the last character of the suffix is the last
  -- character of `pyStrip line`, which is not whitespace
  have hfix : ((pyStrip line).reverse).dropWhile pyIsSpace
      = (pyStrip line).reverse := by
    have h0 := congrArg List.reverse (pyRstrip_pyStrip line)
    conv at h0 =>
      lhs
      rw [show pyRstrip (pyStrip line)
          = (((pyStrip line).reverse).dropWhile pyIsSpace).reverse from rfl]
    rw [List.reverse_reverse] at h0
    exact h0
  have hsplit : (pyStrip line).reverse
      = ((pyStrip line).dropWhile pyIsDigit).reverse
        ++ ((pyStrip line).takeWhile pyIsDigit).reverse := by
    rw [← List.reverse_append, List.takeWhile_append_dropWhile]
  cases hrd : ((pyStrip line).dropWhile pyIsDigit).reverse with
  | nil =>
    exact absurd (by simpa using hrd) hne
  | cons a r =>
    have hhead : pyIsSpace a = false := by
      have h2 := hfix
      rw [hsplit, hrd] at h2
      rw [List.cons_append, List.dropWhile_cons] at h2
      by_cases ha : pyIsSpace a = true
      · rw [if_pos ha] at h2
        have hlen := congrArg List.length h2
        have hle := dropWhile_length_le pyIsSpace
          (r ++ ((pyStrip line).takeWhile pyIsDigit).reverse)
        simp [List.length_append] at hlen hle
        omega
      · revert ha; cases pyIsSpace a <;> simp
    rw [show pyRstrip ('1' :: (pyStrip line).dropWhile pyIsDigit)
        = ((('1' :: (pyStrip line).dropWhile pyIsDigit).reverse).dropWhile
            pyIsSpace).reverse from rfl]
    rw [List.reverse_cons, hrd, List.cons_append, List.dropWhile_cons,
      if_neg (by simp [hhead])]
    rw [← List.cons_append, ← hrd, ← List.reverse_cons, List.reverse_reverse]

theorem orderedMatch_renumber {s rest : Str} (h : orderedMatch s = some rest) :
    orderedMatch ('1' :: s.dropWhile pyIsDigit) = some rest := by
  obtain ⟨c, d, t, hX, hc, hd, hrest⟩ := orderedMatch_dropWhile_shape h
  have hcdig : pyIsDigit c = false := by
    rcases hc with h1 | h1 <;> subst h1 <;> decide
  rw [hX]
  unfold orderedMatch
  have ht : ('1' :: c :: d :: t).takeWhile pyIsDigit = ['1'] := by
    rw [List.takeWhile_cons, if_pos (by decide), List.takeWhile_cons, hcdig]
    simp
  have hdw : ('1' :: c :: d :: t).dropWhile pyIsDigit = c :: d :: t := by
    rw [List.dropWhile_cons, if_pos (by decide), List.dropWhile_cons, hcdig]
    simp
  rw [if_neg (by simp [ht]), hdw]
  dsimp only
  rw [if_pos ⟨hc, hd⟩, hrest]

theorem bulletMatch_none_of_digit {c : Char} {t : Str}
    (hc : pyIsDigit c = true) : bulletMatch (c :: t) = none := by
  unfold bulletMatch
  cases t with
  | nil => rfl
  | cons d t2 =>
    dsimp only
    rw [if_neg]
    rintro ⟨h1, -⟩
    rcases h1 with h | h | h <;> subst h <;> exact absurd hc (by decide)

theorem prefix_backticks_false_of_digit {c : Char} {t : Str}
    (hc : pyIsDigit c = true) : ['`', '`', '`'].isPrefixOf (c :: t) = false := by
  have hne : ('`' == c) = false := by
    have : c ≠ '`' := by
      intro he
      subst he
      exact absurd hc (by decide)
    simpa [beq_iff_eq] using fun he => this he.symm
  simp [List.isPrefixOf, hne]

theorem stepLine_ordered (st : BState) (l : Str) (rest : Str)
    (hf : st.in_code_fence = false)
    (hd : ∃ c tl, pyStrip l = c :: tl ∧ pyIsDigit c = true)
    (ho : orderedMatch (pyStrip l) = some rest) :
    stepLine st l =
      (let st1 := flush_paragraph st
       let st2 := if st1.list_type ≠ none ∧ st1.list_type ≠ some LKind.ordered
                  then flush_list st1 else st1
       let r := render_inlines rest st2.ctx
       { st2 with list_type := some LKind.ordered,
                  list_items := st2.list_items ++ [[r.1]], ctx := r.2 }) := by
  obtain ⟨c, tl, hdd, hdg⟩ := hd
  have hbul : bulletMatch (pyStrip l) = none := by
    rw [hdd]; exact bulletMatch_none_of_digit hdg
  have hpre : ['`', '`', '`'].isPrefixOf (pyStrip l) = false := by
    rw [hdd]; exact prefix_backticks_false_of_digit hdg
  have hnil : (pyStrip l = []) = False := by simp [hdd]
  unfold stepLine
  rw [hf]
  simp only [Bool.false_eq_true, if_false, hpre, hnil, hbul, ho]

theorem stepLine_fence_true (st : BState) (l : Str)
    (hf : st.in_code_fence = true) :
    (stepLine st l).in_code_fence
      = !(['`', '`', '`'].isPrefixOf (pyStrip l)) := by
  unfold stepLine
  rw [hf]
  by_cases hp : ['`', '`', '`'].isPrefixOf (pyStrip l) = true
  · simp [hp, flush_code_fence]
  · have hp' : ['`', '`', '`'].isPrefixOf (pyStrip l) = false := by
      revert hp; cases ['`', '`', '`'].isPrefixOf (pyStrip l) <;> simp
    simp [hp']

theorem stepLine_fence_false (st : BState) (l : Str)
    (hf : st.in_code_fence = false) :
    (stepLine st l).in_code_fence = ['`', '`', '`'].isPrefixOf (pyStrip l) := by
  unfold stepLine
  rw [hf]
  dsimp only
  by_cases hp : ['`', '`', '`'].isPrefixOf (pyStrip l) = true
  · simp [hp]
  · have hp' : ['`', '`', '`'].isPrefixOf (pyStrip l) = false := by
      revert hp; cases ['`', '`', '`'].isPrefixOf (pyStrip l) <;> simp
    simp only [hp', Bool.false_eq_true, if_false]
    repeat' split
    all_goals
      simp [flush_paragraph_fence, flush_list_fence, flush_code_fence, hf, hp']

theorem stepLine_renumber (st : BState) (line : Str)
    (hf : st.in_code_fence = false) :
    stepLine st (renumberLine line) = stepLine st line := by
  unfold renumberLine
  cases ho : (orderedMatch (pyStrip line)).isSome with
  | false =>
    rw [if_neg (by simp [ho])]
  | true =>
    rw [if_pos (by simp [ho])]
    obtain ⟨rest, ho'⟩ := Option.isSome_iff_exists.mp ho
    have hshape := orderedMatch_dropWhile_shape ho'
    obtain ⟨c, d, t, hX, -, -, -⟩ := hshape
    have hXne : (pyStrip line).dropWhile pyIsDigit ≠ [] := by
      rw [hX]; simp
    have hstrip := pyStrip_one_cons line hXne
    have ho2 : orderedMatch (pyStrip ('1' :: (pyStrip line).dropWhile pyIsDigit))
        = some rest := by
      rw [hstrip]
      exact orderedMatch_renumber ho'
    obtain ⟨c0, tl0, hd0, hg0⟩ := orderedMatch_head_digit ho'
    rw [stepLine_ordered st _ rest hf
        ⟨'1', (pyStrip line).dropWhile pyIsDigit, hstrip, by decide⟩ ho2,
      stepLine_ordered st line rest hf ⟨c0, tl0, hd0, hg0⟩ ho']

theorem foldl_renumber : ∀ (lines : List Str) (st : BState),
    List.foldl stepLine st (renumberLines st.in_code_fence lines)
      = List.foldl stepLine st lines := by
  intro lines
  induction lines with
  | nil => intro st; rfl
  | cons l ls ih =>
    intro st
    by_cases hf : st.in_code_fence = true
    · rw [hf, renumberLines]
      simp only [if_pos trivial, List.foldl_cons]
      have hnext := stepLine_fence_true st l hf
      rw [← hnext]
      exact ih (stepLine st l)
    · have hf' : st.in_code_fence = false := by
        revert hf; cases st.in_code_fence <;> simp
      rw [hf', renumberLines]
      simp only [Bool.false_eq_true, if_false, List.foldl_cons]
      rw [stepLine_renumber st l hf']
      have hnext := stepLine_fence_false st l hf'
      rw [← hnext]
      exact ih (stepLine st l)

/-- Claim C9: the digits of ordered-list markers never influence the output:
any two bodies whose lines agree after canonicalising every ordered-marker's
digit run to `1` (code-fence content excluded — such lines are not markers)
render to identical HTML and headings; and the emitted `<ol>` carries no
start attribute or per-item numbering. -/
theorem C9_ordered_marker_digits_irrelevant :
    (∀ b1 b2 : Str, (b1 = [] ↔ b2 = []) →
      renumberLines false (splitLines b1)
        = renumberLines false (splitLines b2) →
      render_body b1 = render_body b2)
    ∧ (render_body "3. a\n7. b".data).html
        = "<ol><li>a</li><li>b</li></ol>".data := by
  constructor
  · intro b1 b2 hemp hren
    by_cases h1 : b1 = []
    · rw [h1, hemp.mp h1]
    · have h2 : b2 ≠ [] := fun h => h1 (hemp.mpr h)
      unfold render_body
      rw [if_neg h1, if_neg h2]
      suffices hrun : runBody b1 0 = runBody b2 0 by rw [hrun]
      unfold runBody
      have e1 := foldl_renumber (splitLines b1) (initState 0)
      have e2 := foldl_renumber (splitLines b2) (initState 0)
      rw [← e1, ← e2]
      show finishBody (List.foldl stepLine (initState 0)
          (renumberLines false (splitLines b1)))
        = finishBody (List.foldl stepLine (initState 0)
          (renumberLines false (splitLines b2)))
      rw [hren]
  · simp +decide [render_body, runBody, initState, finishBody, stepLine,
      flush_paragraph, flush_list, flush_code, bulletMatch, orderedMatch,
      headingMatch, dictGet, dictSet, splitLines, joinNl, joinSp,
      render_inlines, scanInlines, findSub, flush_plain, linkify,
      matchAutolink, htmlEscape, escapeChar, natToStr, pyStrip, pyLstrip,
      pyRstrip, pyIsSpace, pyIsDigit, pyIsAlpha, isSchemeChar, isUrlChar,
      extract_plain_text, subGlossary, subCode, subStrong, subEm, subLink,
      findLinkMid, findParenNoNl, collapseWs, isTermChar, isDefChar, slugify,
      isSlugChar, slugCollapse]

/-- Claim C9, witness: `3. a\n7. b` and `1. a\n2. b` render identically. -/
theorem C9_witness :
    render_body "3. a\n7. b".data = render_body "1. a\n2. b".data :=
  C9_ordered_marker_digits_irrelevant.1 "3. a\n7. b".data "1. a\n2. b".data
    (by decide) (by decide)

/-! ## Claim C8 -/

theorem headD_mem {l : Str} (d : Char) (h : l ≠ []) : l.headD d ∈ l := by
  cases l with
  | nil => exact absurd rfl h
  | cons a t => simp

theorem headD_append_left {l r : Str} (d : Char) (h : l ≠ []) :
    (l ++ r).headD d = l.headD d := by
  cases l with
  | nil => exact absurd rfl h
  | cons a t => rfl

theorem wsFree_mem {w : Str} {c : Char} (hf : wsFree w = true) (hc : c ∈ w) :
    pyIsSpace c = false := by
  have := List.all_eq_true.mp hf c hc
  simpa using this

theorem isWsChunk_mem {w : Str} {c : Char} (hf : isWsChunk w = true) (hc : c ∈ w) :
    pyIsSpace c = true :=
  List.all_eq_true.mp hf c hc

theorem isWsChunk_false_of_wsFree {c : Str} (hne : c ≠ []) (hf : wsFree c = true) :
    isWsChunk c = false := by
  by_contra h
  have h' : isWsChunk c = true := by revert h; cases isWsChunk c <;> simp
  cases c with
  | nil => exact absurd rfl hne
  | cons a t =>
    have h1 := wsFree_mem hf (List.mem_cons_self a t)
    have h2 := isWsChunk_mem h' (List.mem_cons_self a t)
    rw [h1] at h2
    cases h2

theorem wsFree_take {s : Str} (n : Nat) (hf : wsFree s = true) :
    wsFree (s.take n) = true := by
  refine List.all_eq_true.mpr fun c hc => ?_
  exact List.all_eq_true.mp hf c (List.take_subset n s hc)

theorem wsFree_drop {s : Str} (n : Nat) (hf : wsFree s = true) :
    wsFree (s.drop n) = true := by
  refine List.all_eq_true.mpr fun c hc => ?_
  exact List.all_eq_true.mp hf c (List.drop_subset n s hc)

theorem wsFree_noDoubleWs : ∀ {s : Str}, wsFree s = true → noDoubleWs s = true := by
  intro s
  induction s with
  | nil => intro h; rfl
  | cons a t ih =>
    intro h
    cases t with
    | nil => rfl
    | cons b t2 =>
      rw [noDoubleWs]
      have ha : pyIsSpace a = false := wsFree_mem h (List.mem_cons_self a _)
      have ht : wsFree (b :: t2) = true := by
        refine List.all_eq_true.mpr fun c hc => ?_
        exact List.all_eq_true.mp h c (List.mem_cons_of_mem a hc)
      rw [ih ht, ha]
      rfl

theorem noDoubleWs_tail {c : Char} {t : Str} (h : noDoubleWs (c :: t) = true) :
    noDoubleWs t = true := by
  cases t with
  | nil => rfl
  | cons d t2 =>
    rw [noDoubleWs, Bool.and_eq_true] at h
    exact h.2

theorem noDoubleWs_append_right : ∀ (pre t : Str),
    noDoubleWs (pre ++ t) = true → noDoubleWs t = true := by
  intro pre
  induction pre with
  | nil => intro t h; simpa using h
  | cons c p ih =>
    intro t h
    exact ih t (noDoubleWs_tail (by simpa using h))

theorem noDoubleWs_suffix {s t : Str} (hsuf : t <:+ s)
    (h : noDoubleWs s = true) : noDoubleWs t = true := by
  obtain ⟨pre, rfl⟩ := hsuf
  exact noDoubleWs_append_right pre t h

theorem ws_run_single {c : Char} {t : Str} (hc : pyIsSpace c = true)
    (h : noDoubleWs (c :: t) = true) :
    (c :: t).takeWhile pyIsSpace = [c] := by
  rw [List.takeWhile_cons, if_pos hc]
  cases t with
  | nil => simp
  | cons d t2 =>
    have hd : pyIsSpace d = false := by
      rw [noDoubleWs, Bool.and_eq_true] at h
      have h1 := h.1
      rw [hc] at h1
      simpa using h1
    rw [List.takeWhile_cons, hd]
    rfl

theorem wordScan_flatten : ∀ (rest prevRev consumedRev : Str),
    (wordScan prevRev consumedRev rest).1 ++ (wordScan prevRev consumedRev rest).2
      = consumedRev.reverse ++ rest := by
  intro rest
  induction rest with
  | nil => intro p cr; simp [wordScan]
  | cons x r2 ih =>
    intro p cr
    rw [wordScan]
    split
    · rename_i hcond
      obtain ⟨hx, -, -⟩ := hcond
      subst hx
      simp
    · split
      · simp
      · split
        · simp
        · have h := ih p (x :: cr)
          simp only [List.reverse_cons] at h
          rw [h]
          simp

theorem wordScan_wsFree : ∀ (rest prevRev consumedRev : Str),
    wsFree consumedRev = true → wsFree (wordScan prevRev consumedRev rest).1 = true := by
  intro rest
  induction rest with
  | nil =>
    intro p cr h
    simp only [wordScan]
    simpa [wsFree] using h
  | cons x r2 ih =>
    intro p cr h
    rw [wordScan]
    split
    · simp only [wsFree, List.all_append, List.all_reverse]
      rw [Bool.and_eq_true]
      constructor
      · simpa [wsFree] using h
      · decide
    · split
      · simpa [wsFree] using h
      · split
        · simpa [wsFree] using h
        · rename_i h1 h2 h3
          refine ih p (x :: cr) ?_
          have hx : pyIsSpace x = false := by
            revert h2; cases pyIsSpace x <;> simp
          simpa [wsFree, hx] using h

theorem wordScan_ne : ∀ (rest prevRev consumedRev : Str),
    consumedRev ≠ [] → (wordScan prevRev consumedRev rest).1 ≠ [] := by
  intro rest
  induction rest with
  | nil =>
    intro p cr h
    simpa [wordScan] using h
  | cons x r2 ih =>
    intro p cr h
    rw [wordScan]
    split
    · simp
    · split
      · simpa using h
      · split
        · simpa using h
        · exact ih p (x :: cr) (by simp)

theorem wordScan_suffix : ∀ (rest prevRev consumedRev : Str),
    (wordScan prevRev consumedRev rest).2 <:+ rest := by
  intro rest
  induction rest with
  | nil => intro p cr; simp [wordScan]
  | cons x r2 ih =>
    intro p cr
    rw [wordScan]
    split
    · exact (List.suffix_cons x r2)
    · split
      · exact List.suffix_refl _
      · split
        · exact List.suffix_refl _
        · exact (ih p (x :: cr)).trans (List.suffix_cons x r2)

theorem wordsepChunks_flatten_fuel : ∀ (n : Nat) (prevRev s : Str),
    s.length ≤ n → (wordsepChunks prevRev s).flatten = s := by
  intro n
  induction n with
  | zero =>
    intro p s hs
    have hnil : s = [] := List.length_eq_zero.mp (Nat.le_zero.mp hs)
    subst hnil
    simp [wordsepChunks]
  | succ n ih =>
    intro p s hs
    cases s with
    | nil => simp [wordsepChunks]
    | cons c t =>
      have hts : t.length ≤ n := by
        simp only [List.length_cons] at hs
        omega
      rw [wordsepChunks]
      by_cases hc : pyIsSpace c = true
      · rw [if_pos hc, List.flatten_cons, ih _ _ ?hl1]
        · exact List.takeWhile_append_dropWhile pyIsSpace (c :: t)
        case hl1 =>
          rw [List.dropWhile_cons, if_pos hc]
          exact (dropWhile_length_le _ _).trans hts
      · rw [if_neg hc]
        by_cases hdash : c = '-' ∧ headWordPunct p = true ∧ emDashAhead (c :: t) = true
        · rw [if_pos hdash, List.flatten_cons, ih _ _ ?hl2]
          · exact List.takeWhile_append_dropWhile _ (c :: t)
          case hl2 =>
            rw [List.dropWhile_cons, if_pos (by simp [hdash.1])]
            exact (dropWhile_length_le _ _).trans hts
        · rw [if_neg hdash, List.flatten_cons, ih _ _ ?hl3]
          · have h := wordScan_flatten t p [c]
            simpa using h
          case hl3 =>
            exact (wordScan_rest_le p [c] t).trans hts

theorem wordsepChunks_flatten (prevRev s : Str) :
    (wordsepChunks prevRev s).flatten = s :=
  wordsepChunks_flatten_fuel s.length prevRev s (Nat.le_refl _)

theorem wordsepChunks_props_fuel : ∀ (n : Nat) (prevRev s : Str),
    s.length ≤ n → noDoubleWs s = true →
    ∀ ch ∈ wordsepChunks prevRev s,
      ch ≠ [] ∧ (wsFree ch = true ∨ (isWsChunk ch = true ∧ ch.length = 1)) := by
  intro n
  induction n with
  | zero =>
    intro p s hs hnd ch hch
    have hnil : s = [] := List.length_eq_zero.mp (Nat.le_zero.mp hs)
    subst hnil
    simp [wordsepChunks] at hch
  | succ n ih =>
    intro p s hs hnd ch hch
    cases s with
    | nil => simp [wordsepChunks] at hch
    | cons c t =>
      have hts : t.length ≤ n := by
        simp only [List.length_cons] at hs
        omega
      rw [wordsepChunks] at hch
      by_cases hc : pyIsSpace c = true
      · rw [if_pos hc] at hch
        rcases List.mem_cons.mp hch with h1 | h2
        · subst h1
          rw [ws_run_single hc hnd]
          refine ⟨by simp, Or.inr ⟨?_, rfl⟩⟩
          simp [isWsChunk, hc]
        · refine ih _ _ ?_ ?_ ch h2
          · rw [List.dropWhile_cons, if_pos hc]
            exact (dropWhile_length_le _ _).trans hts
          · exact noDoubleWs_suffix (List.dropWhile_suffix _) hnd
      · rw [if_neg hc] at hch
        have hc' : pyIsSpace c = false := by
          revert hc; cases pyIsSpace c <;> simp
        by_cases hdash : c = '-' ∧ headWordPunct p = true ∧ emDashAhead (c :: t) = true
        · rw [if_pos hdash] at hch
          rcases List.mem_cons.mp hch with h1 | h2
          · subst h1
            constructor
            · rw [List.takeWhile_cons, if_pos (by simp [hdash.1])]
              simp
            · refine Or.inl (List.all_eq_true.mpr fun x hx => ?_)
              have hx' := List.mem_takeWhile_imp hx
              have : x = '-' := by simpa using hx'
              subst this
              decide
          · refine ih _ _ ?_ ?_ ch h2
            · rw [List.dropWhile_cons, if_pos (by simp [hdash.1])]
              exact (dropWhile_length_le _ _).trans hts
            · exact noDoubleWs_suffix (List.dropWhile_suffix _) hnd
        · rw [if_neg hdash] at hch
          rcases List.mem_cons.mp hch with h1 | h2
          · subst h1
            refine ⟨wordScan_ne t p [c] (by simp), Or.inl ?_⟩
            exact wordScan_wsFree t p [c] (by simp [wsFree, hc'])
          · refine ih _ _ ?_ ?_ ch h2
            · exact (wordScan_rest_le p [c] t).trans hts
            · exact noDoubleWs_suffix
                ((wordScan_suffix t p [c]).trans (List.suffix_cons c t)) hnd

theorem greedyTake_append (width : Nat) : ∀ (l : List Str) (cur : Nat),
    (greedyTake width cur l).1 ++ (greedyTake width cur l).2 = l := by
  intro l
  induction l with
  | nil => intro cur; simp [greedyTake]
  | cons ch rest ih =>
    intro cur
    rw [greedyTake]
    split
    · show ch :: ((greedyTake width (cur + ch.length) rest).1
        ++ (greedyTake width (cur + ch.length) rest).2) = ch :: rest
      rw [ih]
    · simp

theorem greedyTake_all (width : Nat) : ∀ (l : List Str) (cur : Nat),
    cur + (l.map List.length).sum ≤ width → greedyTake width cur l = (l, []) := by
  intro l
  induction l with
  | nil => intro cur h; rfl
  | cons ch rest ih =>
    intro cur h
    simp only [List.map_cons, List.sum_cons] at h
    rw [greedyTake, if_pos (by omega), ih (cur + ch.length) (by omega)]

theorem greedyTake_full_sum (width : Nat) : ∀ (l : List Str) (cur : Nat),
    l ≠ [] → (greedyTake width cur l).2 = [] →
    cur + (l.map List.length).sum ≤ width := by
  intro l
  induction l with
  | nil => intro cur h; exact absurd rfl h
  | cons ch rest ih =>
    intro cur _ h2
    rw [greedyTake] at h2
    by_cases hc : cur + ch.length ≤ width
    · rw [if_pos hc] at h2
      simp only [List.map_cons, List.sum_cons]
      cases rest with
      | nil => simpa [greedyTake] using hc
      | cons r rs =>
        have := ih (cur + ch.length) (by simp) h2
        simp only [List.map_cons, List.sum_cons] at this ⊢
        omega
    · rw [if_neg hc] at h2
      simp at h2

theorem greedyTake_cons_ne (width : Nat) (ch : Str) (rest : List Str) (cur : Nat)
    (h : cur + ch.length ≤ width) : (greedyTake width cur (ch :: rest)).1 ≠ [] := by
  rw [greedyTake, if_pos h]
  simp

theorem greedyTake_not_taken (width : Nat) (ch : Str) (rest : List Str) (cur : Nat)
    (h : ¬(cur + ch.length ≤ width)) :
    greedyTake width cur (ch :: rest) = ([], ch :: rest) := by
  rw [greedyTake, if_neg h]

theorem flatten_length : ∀ (l : List Str),
    l.flatten.length = (l.map List.length).sum := by
  intro l
  induction l with
  | nil => rfl
  | cons a t ih => simp [ih]

theorem flatten_mono {a b : List Str} (h : a <+: b) :
    a.flatten <+: b.flatten := by
  obtain ⟨t, rfl⟩ := h
  exact ⟨t.flatten, (List.flatten_append a t).symm⟩

theorem prefix_take {a b : Str} (h : a <+: b) : a = b.take a.length := by
  obtain ⟨t, rfl⟩ := h
  simp

theorem dropLast_isPrefix {α : Type} (l : List α) : l.dropLast <+: l := by
  cases hl : l with
  | nil => simp
  | cons a t =>
    rw [← hl]
    refine ⟨[l.getLast (by simp [hl])], ?_⟩
    exact List.dropLast_append_getLast _

theorem placeholderLoop_shape_fuel : ∀ (n : Nat) (cur : List Str),
    cur.length ≤ n → ∀ (width : Nat),
    ∃ pre, pre <+: cur ∧ placeholderLoop width cur = pre.flatten ++ ['…']
      ∧ (pre = [] ∨ (pre.map List.length).sum + 1 ≤ width) := by
  intro n
  induction n with
  | zero =>
    intro cur h width
    have hnil : cur = [] := List.length_eq_zero.mp (Nat.le_zero.mp h)
    subst hnil
    exact ⟨[], List.prefix_refl _, by rw [placeholderLoop]; rfl, Or.inl rfl⟩
  | succ n ih =>
    intro cur h width
    cases cur with
    | nil => exact ⟨[], List.prefix_refl _, by rw [placeholderLoop]; rfl, Or.inl rfl⟩
    | cons a rest =>
      rw [placeholderLoop]
      by_cases hcond : isWsChunk ((a :: rest).getLastD []) = false
          ∧ ((a :: rest).map List.length).sum + 1 ≤ width
      · rw [if_pos hcond]
        exact ⟨a :: rest, List.prefix_refl _, rfl, Or.inr hcond.2⟩
      · rw [if_neg hcond]
        obtain ⟨pre, hpre, heq, hlen⟩ := ih ((a :: rest).dropLast)
          (by simp only [List.length_dropLast, List.length_cons] at h ⊢; omega) width
        exact ⟨pre, hpre.trans (dropLast_isPrefix _), heq, hlen⟩

theorem pySplitWs_words_fuel : ∀ (n : Nat) (s : Str), s.length ≤ n →
    ∀ w ∈ pySplitWs s, w ≠ [] ∧ wsFree w = true := by
  intro n
  induction n with
  | zero =>
    intro s hs w hw
    have hnil : s = [] := List.length_eq_zero.mp (Nat.le_zero.mp hs)
    subst hnil
    simp [pySplitWs] at hw
  | succ n ih =>
    intro s hs w hw
    cases s with
    | nil => simp [pySplitWs] at hw
    | cons c t =>
      have hts : t.length ≤ n := by
        simp only [List.length_cons] at hs
        omega
      rw [pySplitWs] at hw
      by_cases hc : pyIsSpace c = true
      · rw [if_pos hc] at hw
        exact ih t hts w hw
      · rw [if_neg hc] at hw
        have hc' : pyIsSpace c = false := by
          revert hc; cases pyIsSpace c <;> simp
        rcases List.mem_cons.mp hw with h1 | h2
        · subst h1
          constructor
          · rw [List.takeWhile_cons, if_pos (by simp [hc'])]
            simp
          · refine List.all_eq_true.mpr fun x hx => ?_
            have := List.mem_takeWhile_imp hx
            simpa using this
        · refine ih _ ?_ w h2
          rw [List.dropWhile_cons, if_pos (by simp [hc'])]
          exact (dropWhile_length_le _ _).trans hts

theorem pySplitWs_words (s : Str) :
    ∀ w ∈ pySplitWs s, w ≠ [] ∧ wsFree w = true :=
  pySplitWs_words_fuel s.length s (Nat.le_refl _)

theorem joinSp_ne_nil : ∀ (ws : List Str), (∀ w ∈ ws, w ≠ []) → ws ≠ [] →
    joinSp ws ≠ [] := by
  intro ws hws hne
  cases ws with
  | nil => exact absurd rfl hne
  | cons l ls =>
    cases ls with
    | nil => exact hws l (by simp)
    | cons l2 ls2 =>
      show l ++ ' ' :: joinSp (l2 :: ls2) ≠ []
      simp

theorem noDoubleWs_word_space : ∀ (l : Str), wsFree l = true →
    ∀ (R : Str), noDoubleWs R = true →
    (R ≠ [] → pyIsSpace (R.headD '!') = false) →
    noDoubleWs (l ++ ' ' :: R) = true := by
  intro l
  induction l with
  | nil =>
    intro _ R hR hhead
    cases R with
    | nil => rfl
    | cons y t =>
      show noDoubleWs (' ' :: y :: t) = true
      rw [noDoubleWs, Bool.and_eq_true]
      refine ⟨?_, hR⟩
      have hy : pyIsSpace y = false := hhead (by simp)
      simp [hy]
  | cons x l2 ihl =>
    intro hf R hR hhead
    have hx : pyIsSpace x = false := wsFree_mem hf (List.mem_cons_self x _)
    have hf2 : wsFree l2 = true := by
      refine List.all_eq_true.mpr fun a ha => ?_
      exact List.all_eq_true.mp hf a (List.mem_cons_of_mem x ha)
    cases l2 with
    | nil =>
      show noDoubleWs (x :: ' ' :: R) = true
      rw [noDoubleWs, Bool.and_eq_true]
      refine ⟨by simp [hx], ?_⟩
      exact ihl hf2 R hR hhead
    | cons x2 t2 =>
      show noDoubleWs (x :: ((x2 :: t2) ++ ' ' :: R)) = true
      rw [List.cons_append, noDoubleWs, Bool.and_eq_true]
      refine ⟨by simp [hx], ?_⟩
      rw [← List.cons_append]
      exact ihl hf2 R hR hhead

theorem joinSp_wsprops : ∀ (ws : List Str),
    (∀ w ∈ ws, w ≠ [] ∧ wsFree w = true) →
    noDoubleWs (joinSp ws) = true
    ∧ (ws ≠ [] → joinSp ws ≠ []
        ∧ pyIsSpace ((joinSp ws).headD '!') = false
        ∧ pyIsSpace ((joinSp ws).reverse.headD '!') = false) := by
  intro ws
  induction ws with
  | nil => exact fun _ => ⟨rfl, fun h => absurd rfl h⟩
  | cons l ls ih =>
    intro hprops
    have hl := hprops l (by simp)
    have hls : ∀ w ∈ ls, w ≠ [] ∧ wsFree w = true :=
      fun w hw => hprops w (List.mem_cons_of_mem l hw)
    cases ls with
    | nil =>
      show noDoubleWs l = true ∧ _
      refine ⟨wsFree_noDoubleWs hl.2, fun _ => ⟨hl.1, ?_, ?_⟩⟩
      · exact wsFree_mem hl.2 (headD_mem '!' hl.1)
      · refine wsFree_mem hl.2 ?_
        have hrev : l.reverse ≠ [] := by simpa using hl.1
        have := headD_mem '!' hrev
        exact List.mem_reverse.mp this
    | cons l2 ls2 =>
      obtain ⟨ihnd, ihr⟩ := ih hls
      obtain ⟨hRne, hRhead, hRlast⟩ := ihr (by simp)
      have hjoin : joinSp (l :: l2 :: ls2) = l ++ ' ' :: joinSp (l2 :: ls2) := rfl
      rw [hjoin]
      refine ⟨?_, fun _ => ⟨by simp [hl.1], ?_, ?_⟩⟩
      · exact noDoubleWs_word_space l hl.2 _ ihnd (fun _ => hRhead)
      · rw [headD_append_left _ hl.1]
        exact wsFree_mem hl.2 (headD_mem '!' hl.1)
      · rw [List.reverse_append]
        have hcr : (' ' :: joinSp (l2 :: ls2)).reverse ≠ [] := by simp
        rw [headD_append_left _ hcr]
        rw [List.reverse_cons]
        have hjr : (joinSp (l2 :: ls2)).reverse ≠ [] := by simpa using hRne
        rw [headD_append_left _ hjr]
        exact hRlast

theorem chunks_head_not_ws {chunks : List Str} {ch0 : Str} {rest : List Str}
    (hch : chunks = ch0 :: rest) (hne : ch0 ≠ [])
    (hheadc : pyIsSpace (chunks.flatten.headD '!') = false) :
    isWsChunk ch0 = false := by
  subst hch
  by_contra h
  have h' : isWsChunk ch0 = true := by revert h; cases isWsChunk ch0 <;> simp
  rw [List.flatten_cons, headD_append_left _ hne] at hheadc
  have := isWsChunk_mem h' (headD_mem '!' hne)
  rw [this] at hheadc
  cases hheadc

theorem chunks_last_not_ws {chunks : List Str} {init : List Str} {w : Str}
    (hch : chunks = init ++ [w]) (hne : w ≠ [])
    (hlastc : pyIsSpace (chunks.flatten.reverse.headD '!') = false) :
    isWsChunk w = false := by
  subst hch
  by_contra h
  have h' : isWsChunk w = true := by revert h; cases isWsChunk w <;> simp
  rw [List.flatten_append, List.flatten_cons, List.flatten_nil,
    List.append_nil, List.reverse_append] at hlastc
  have hwr : w.reverse ≠ [] := by simpa using hne
  rw [headD_append_left _ hwr] at hlastc
  have hmem : w.reverse.headD '!' ∈ w := List.mem_reverse.mp (headD_mem '!' hwr)
  have := isWsChunk_mem h' hmem
  rw [this] at hlastc
  cases hlastc

theorem wrapOneLine_fits (chunks : List Str)
    (hsum : (chunks.map List.length).sum ≤ 155)
    (hlast : chunks ≠ [] → isWsChunk (chunks.getLastD []) = false) :
    wrapOneLine 155 chunks = chunks.flatten := by
  cases hch : chunks with
  | nil => rfl
  | cons c rest =>
    subst hch
    have h1 : greedyTake 155 0 (c :: rest) = (c :: rest, []) :=
      greedyTake_all _ _ _ (by omega)
    have h2 : isWsChunk ((c :: rest).getLastD []) = false := hlast (by simp)
    rw [List.getLastD_eq_getLast?] at h2
    unfold wrapOneLine
    rw [h1]
    dsimp only
    simp [h2]

theorem rfindDashBefore_bound {s : Str} {e i : Nat}
    (h : rfindDashBefore s e = some i) : i + 1 ≤ e ∧ i + 1 ≤ s.length := by
  unfold rfindDashBefore at h
  cases hf : ((s.take e).reverse.findIdx? (fun c => c = '-')) with
  | none => rw [hf] at h; cases h
  | some j =>
    rw [hf] at h
    cases h
    have hne : (s.take e).reverse ≠ [] := by
      intro hnil
      rw [hnil] at hf
      simp [List.findIdx?] at hf
    have hpos : 1 ≤ (s.take e).length := by
      cases hq : s.take e with
      | nil => rw [hq] at hne; simp at hne
      | cons a b => simp [hq]
    have hle : (s.take e).length ≤ e ∧ (s.take e).length ≤ s.length := by
      constructor <;> simp [List.length_take]
    dsimp only
    omega

theorem take_ne_nil_of {l : Str} {n : Nat} (hn : n ≠ 0) (hl : l ≠ []) :
    l.take n ≠ [] := by
  cases l with
  | nil => exact absurd rfl hl
  | cons a t =>
    cases n with
    | zero => exact absurd rfl hn
    | succ m => simp

theorem handleLongWord_shape (width : Nat) (cur : List Str) (chunk : Str)
    (rest : List Str) (hck : chunk ≠ []) :
    ∃ e, e ≤ width
      ∧ handleLongWord width cur chunk rest
          = (cur ++ [chunk.take e], chunk.drop e :: rest)
      ∧ (chunk.take e ≠ [] ∨ width ≤ (cur.map List.length).sum) := by
  unfold handleLongWord
  dsimp only
  cases hr : rfindDashBefore chunk (width - (cur.map List.length).sum) with
  | none =>
    refine ⟨width - (cur.map List.length).sum, by omega, rfl, ?_⟩
    by_cases hz : width - (cur.map List.length).sum = 0
    · exact Or.inr (by omega)
    · exact Or.inl (take_ne_nil_of hz hck)
  | some hy =>
    dsimp only
    by_cases hcond : hy > 0 ∧ (chunk.take hy).any (fun c => c ≠ '-') = true
    · rw [if_pos hcond]
      have hb := rfindDashBefore_bound hr
      exact ⟨hy + 1, by omega, rfl, Or.inl (take_ne_nil_of (by omega) hck)⟩
    · rw [if_neg hcond]
      refine ⟨width - (cur.map List.length).sum, by omega, rfl, ?_⟩
      by_cases hz : width - (cur.map List.length).sum = 0
      · exact Or.inr (by omega)
      · exact Or.inl (take_ne_nil_of hz hck)

theorem wrapOneLine_eval_longword (chunks g1 : List Str) (w2 : Str)
    (t2 : List Str) (curV : List Str) (e : Nat)
    (hg : greedyTake 155 0 chunks = (g1, w2 :: t2))
    (hlong : 155 < w2.length)
    (hhlw : handleLongWord 155 g1 w2 t2 = (g1 ++ [w2.take e], w2.drop e :: t2))
    (hcur : curV = if isWsChunk (w2.take e) = true then g1 else g1 ++ [w2.take e])
    (hcurne : curV ≠ [])
    (hrest : t2 = [] → isWsChunk (w2.drop e) = false) :
    wrapOneLine 155 chunks = placeholderLoop 155 curV := by
  unfold wrapOneLine
  rw [hg]
  dsimp only
  have hc1 : w2 :: t2 ≠ [] ∧ List.length ((w2 :: t2).headD []) > 155 :=
    ⟨by simp, by simpa using hlong⟩
  rw [if_pos hc1]
  simp only [List.headD_cons, List.tail_cons]
  rw [hhlw]
  dsimp only
  rw [List.getLastD_concat]
  have hcv : (if ¬g1 ++ [w2.take e] = [] ∧ isWsChunk (w2.take e) = true
      then (g1 ++ [w2.take e]).dropLast else g1 ++ [w2.take e]) = curV := by
    rw [hcur]
    by_cases hws : isWsChunk (w2.take e) = true
    · rw [if_pos ⟨by simp, hws⟩, if_pos hws, List.dropLast_concat]
    · rw [if_neg (fun hc => hws hc.2), if_neg hws]
  rw [hcv, if_neg hcurne]
  have hsing : ¬(w2.drop e :: t2 = []
      ∨ ((w2.drop e :: t2).length = 1
          ∧ isWsChunk ((w2.drop e :: t2).headD []) = true)) := by
    rintro (habs | ⟨hlen, hws⟩)
    · exact absurd habs (by simp)
    · simp only [List.length_cons] at hlen
      have ht2 : t2 = [] := by
        cases t2 with
        | nil => rfl
        | cons a b => simp at hlen
      simp only [List.headD_cons] at hws
      rw [hrest ht2] at hws
      cases hws
  rw [if_neg hsing]

theorem wrapOneLine_eval_greedy (chunks g1 : List Str) (w2 : Str)
    (t2 : List Str) (curV : List Str)
    (hg : greedyTake 155 0 chunks = (g1, w2 :: t2))
    (hshort : ¬155 < w2.length)
    (hcur : curV = if isWsChunk (g1.getLastD []) = true then g1.dropLast else g1)
    (hg1ne : g1 ≠ [])
    (hcurne : curV ≠ [])
    (hsingle : t2 = [] → isWsChunk w2 = false) :
    wrapOneLine 155 chunks = placeholderLoop 155 curV := by
  unfold wrapOneLine
  rw [hg]
  dsimp only
  have hc1 : ¬(w2 :: t2 ≠ [] ∧ List.length ((w2 :: t2).headD []) > 155) := by
    rintro ⟨-, hlen⟩
    simp only [List.headD_cons] at hlen
    omega
  rw [if_neg hc1]
  dsimp only
  have hcv : (if ¬g1 = [] ∧ isWsChunk (g1.getLastD []) = true
      then g1.dropLast else g1) = curV := by
    rw [hcur]
    by_cases hws : isWsChunk (g1.getLastD []) = true
    · rw [if_pos ⟨hg1ne, hws⟩, if_pos hws]
    · rw [if_neg (fun hc => hws hc.2), if_neg hws]
  rw [hcv, if_neg hcurne]
  have hsing : ¬(w2 :: t2 = []
      ∨ ((w2 :: t2).length = 1 ∧ isWsChunk ((w2 :: t2).headD []) = true)) := by
    rintro (habs | ⟨hlen, hws⟩)
    · exact absurd habs (by simp)
    · simp only [List.length_cons] at hlen
      have ht2 : t2 = [] := by
        cases t2 with
        | nil => rfl
        | cons a b => simp at hlen
      simp only [List.headD_cons] at hws
      rw [hsingle ht2] at hws
      cases hws
  rw [if_neg hsing]

theorem placeholder_result {chunks cur : List Str}
    (hcurpre : cur.flatten <+: chunks.flatten) :
    ∃ n, n ≤ 154 ∧ placeholderLoop 155 cur = chunks.flatten.take n ++ ['…'] := by
  obtain ⟨pre, hpre, heq, hb⟩ :=
    placeholderLoop_shape_fuel cur.length cur (Nat.le_refl _) 155
  refine ⟨pre.flatten.length, ?_, ?_⟩
  · rcases hb with h | h
    · subst h; simp
    · rw [flatten_length]; omega
  · rw [heq]
    have : pre.flatten = chunks.flatten.take pre.flatten.length :=
      prefix_take ((flatten_mono hpre).trans hcurpre)
    rw [← this]

theorem wrapOneLine_overflow (chunks : List Str)
    (hsum : 155 < (chunks.map List.length).sum)
    (hprops : ∀ ch ∈ chunks,
      ch ≠ [] ∧ (wsFree ch = true ∨ (isWsChunk ch = true ∧ ch.length = 1)))
    (hheadc : pyIsSpace (chunks.flatten.headD '!') = false)
    (hlastc : pyIsSpace (chunks.flatten.reverse.headD '!') = false) :
    ∃ n, n ≤ 154 ∧ wrapOneLine 155 chunks = chunks.flatten.take n ++ ['…'] := by
  have hchne : chunks ≠ [] := by
    intro h
    subst h
    simp at hsum
  have hg2ne : (greedyTake 155 0 chunks).2 ≠ [] := by
    intro h
    have := greedyTake_full_sum 155 chunks 0 hchne h
    omega
  obtain ⟨w2, t2, hg2⟩ : ∃ a b, (greedyTake 155 0 chunks).2 = a :: b := by
    cases hgt : (greedyTake 155 0 chunks).2 with
    | nil => exact absurd hgt hg2ne
    | cons a b => exact ⟨a, b, rfl⟩
  have hdecomp : (greedyTake 155 0 chunks).1 ++ w2 :: t2 = chunks := by
    rw [← hg2]
    exact greedyTake_append 155 chunks 0
  have hg : greedyTake 155 0 chunks = ((greedyTake 155 0 chunks).1, w2 :: t2) := by
    rw [← hg2]
  have hw2mem : w2 ∈ chunks := by
    rw [← hdecomp]
    simp
  have hw2p := hprops w2 hw2mem
  have hfl : chunks.flatten
      = (greedyTake 155 0 chunks).1.flatten ++ (w2 ++ t2.flatten) := by
    conv_lhs => rw [← hdecomp]
    rw [List.flatten_append, List.flatten_cons]
  have hg1pre : (greedyTake 155 0 chunks).1.flatten <+: chunks.flatten :=
    ⟨w2 ++ t2.flatten, hfl.symm⟩
  by_cases hlong : 155 < w2.length
  · have hw2free : wsFree w2 = true := by
      rcases hw2p.2 with h | h
      · exact h
      · exact absurd hlong (by omega)
    obtain ⟨e, he, hhlw, hene⟩ :=
      handleLongWord_shape 155 (greedyTake 155 0 chunks).1 w2 t2 hw2p.1
    have hdropne : w2.drop e ≠ [] := by
      intro hnil
      rw [List.drop_eq_nil_iff_le] at hnil
      omega
    have hrest : t2 = [] → isWsChunk (w2.drop e) = false := fun _ =>
      isWsChunk_false_of_wsFree hdropne (wsFree_drop e hw2free)
    by_cases hta : w2.take e = []
    · have hws : isWsChunk (w2.take e) = true := by
        rw [hta]
        rfl
      have hg1ne : (greedyTake 155 0 chunks).1 ≠ [] := by
        rcases hene with h | h
        · exact absurd hta h
        · intro hnil
          rw [hnil] at h
          simp at h
      have hev := wrapOneLine_eval_longword chunks (greedyTake 155 0 chunks).1
        w2 t2 (greedyTake 155 0 chunks).1 e hg hlong hhlw
        (by rw [if_pos hws]) hg1ne hrest
      obtain ⟨n, hn, heq⟩ := placeholder_result hg1pre
      exact ⟨n, hn, by rw [hev, heq]⟩
    · have hws : isWsChunk (w2.take e) = false :=
        isWsChunk_false_of_wsFree hta (wsFree_take e hw2free)
      have hcurne : (greedyTake 155 0 chunks).1 ++ [w2.take e] ≠ [] := by
        simp
      have hev := wrapOneLine_eval_longword chunks (greedyTake 155 0 chunks).1
        w2 t2 ((greedyTake 155 0 chunks).1 ++ [w2.take e]) e hg hlong hhlw
        (by rw [if_neg (by rw [hws]; simp)]) hcurne hrest
      have hcurpre : ((greedyTake 155 0 chunks).1 ++ [w2.take e]).flatten
          <+: chunks.flatten := by
        refine ⟨w2.drop e ++ t2.flatten, ?_⟩
        rw [List.flatten_append, List.flatten_cons, List.flatten_nil,
          List.append_nil, hfl, List.append_assoc]
        rw [← List.append_assoc (w2.take e) (w2.drop e) t2.flatten,
          List.take_append_drop]
      obtain ⟨n, hn, heq⟩ := placeholder_result hcurpre
      exact ⟨n, hn, by rw [hev, heq]⟩
  · have hg1ne : (greedyTake 155 0 chunks).1 ≠ [] := by
      cases hch0 : chunks with
      | nil => exact absurd hch0 hchne
      | cons ch0 r0 =>
        by_cases hc0 : 0 + ch0.length ≤ 155
        · exact greedyTake_cons_ne 155 ch0 r0 0 hc0
        · exfalso
          have hnt := greedyTake_not_taken 155 ch0 r0 0 hc0
          rw [hch0, hnt] at hg2
          have hg2' : ch0 :: r0 = w2 :: t2 := hg2
          cases hg2'
          exact hlong (by omega)
    have hsingle : t2 = [] → isWsChunk w2 = false := by
      intro ht2
      have hcx : chunks = (greedyTake 155 0 chunks).1 ++ [w2] := by
        have hd2 := hdecomp
        rw [ht2] at hd2
        exact hd2.symm
      exact chunks_last_not_ws hcx hw2p.1 hlastc
    by_cases hwl : isWsChunk ((greedyTake 155 0 chunks).1.getLastD []) = true
    · have hcurne : (greedyTake 155 0 chunks).1.dropLast ≠ [] := by
        cases hg1shape : (greedyTake 155 0 chunks).1 with
        | nil => exact absurd hg1shape hg1ne
        | cons x xs =>
          cases xs with
          | nil =>
            exfalso
            have hcx : chunks = x :: w2 :: t2 := by
              have hd2 := hdecomp
              rw [hg1shape] at hd2
              simpa using hd2.symm
            have hxp := hprops x (by rw [hcx]; simp)
            have hxnw := chunks_head_not_ws hcx hxp.1 hheadc
            rw [hg1shape] at hwl
            have hxl : ([x] : List Str).getLastD [] = x := rfl
            rw [hxl] at hwl
            rw [hxnw] at hwl
            cases hwl
          | cons y ys => simp
      have hev := wrapOneLine_eval_greedy chunks (greedyTake 155 0 chunks).1
        w2 t2 ((greedyTake 155 0 chunks).1.dropLast) hg hlong
        (by rw [if_pos hwl]) hg1ne hcurne hsingle
      have hcurpre : ((greedyTake 155 0 chunks).1.dropLast).flatten
          <+: chunks.flatten :=
        (flatten_mono (dropLast_isPrefix _)).trans hg1pre
      obtain ⟨n, hn, heq⟩ := placeholder_result hcurpre
      exact ⟨n, hn, by rw [hev, heq]⟩
    · have hev := wrapOneLine_eval_greedy chunks (greedyTake 155 0 chunks).1
        w2 t2 ((greedyTake 155 0 chunks).1) hg hlong
        (by rw [if_neg hwl]) hg1ne hg1ne hsingle
      obtain ⟨n, hn, heq⟩ := placeholder_result hg1pre
      exact ⟨n, hn, by rw [hev, heq]⟩

theorem pyShorten_chunk_props (s : Str) :
    ∀ ch ∈ wordsepChunks [] (joinSp (pySplitWs s)),
      ch ≠ [] ∧ (wsFree ch = true ∨ (isWsChunk ch = true ∧ ch.length = 1)) := by
  have hw := pySplitWs_words s
  have hnd := (joinSp_wsprops (pySplitWs s) hw).1
  exact wordsepChunks_props_fuel (joinSp (pySplitWs s)).length []
    (joinSp (pySplitWs s)) (Nat.le_refl _) hnd

theorem pyShorten_fits (s : Str)
    (h : (joinSp (pySplitWs s)).length ≤ 155) :
    pyShorten s = joinSp (pySplitWs s) := by
  have hfl := wordsepChunks_flatten [] (joinSp (pySplitWs s))
  unfold pyShorten
  rw [wrapOneLine_fits _ ?hsum ?hlast]
  · exact hfl
  case hsum =>
    rw [← flatten_length, hfl]
    exact h
  case hlast =>
    intro hne
    have hprops := pyShorten_chunk_props s
    obtain ⟨init, w, hdec⟩ : ∃ a b,
        wordsepChunks [] (joinSp (pySplitWs s)) = a ++ [b] := by
      refine ⟨(wordsepChunks [] (joinSp (pySplitWs s))).dropLast,
        (wordsepChunks [] (joinSp (pySplitWs s))).getLast hne, ?_⟩
      exact (List.dropLast_append_getLast hne).symm
    have hwmem : w ∈ wordsepChunks [] (joinSp (pySplitWs s)) := by
      rw [hdec]
      simp
    have hwp := hprops w hwmem
    have hlastc : pyIsSpace
        ((wordsepChunks [] (joinSp (pySplitWs s))).flatten.reverse.headD '!')
          = false := by
      rw [hfl]
      have hwsne : pySplitWs s ≠ [] := by
        intro hnil
        rw [hnil] at hne
        have hj : joinSp ([] : List Str) = [] := rfl
        rw [hj] at hne
        rw [wordsepChunks] at hne
        exact hne rfl
      exact ((joinSp_wsprops (pySplitWs s) (pySplitWs_words s)).2 hwsne).2.2
    have := chunks_last_not_ws hdec hwp.1 hlastc
    rw [hdec, List.getLastD_concat]
    exact this

theorem pyShorten_overflow (s : Str)
    (h : 155 < (joinSp (pySplitWs s)).length) :
    ∃ n, n ≤ 154
      ∧ pyShorten s = (joinSp (pySplitWs s)).take n ++ ['…'] := by
  have hfl := wordsepChunks_flatten [] (joinSp (pySplitWs s))
  have hwsne : pySplitWs s ≠ [] := by
    intro hnil
    rw [hnil] at h
    have : joinSp ([] : List Str) = [] := rfl
    rw [this] at h
    simp at h
  have hjs := (joinSp_wsprops (pySplitWs s) (pySplitWs_words s)).2 hwsne
  obtain ⟨n, hn, heq⟩ := wrapOneLine_overflow
    (wordsepChunks [] (joinSp (pySplitWs s)))
    (by rw [← flatten_length, hfl]; exact h)
    (pyShorten_chunk_props s)
    (by rw [hfl]; exact hjs.2.1)
    (by rw [hfl]; exact hjs.2.2)
  refine ⟨n, hn, ?_⟩
  unfold pyShorten
  rw [heq, hfl]

/-- Claim C8, amended theorem: for every parsed post the description is
`shorten(summary, 155, "…")` when the summary is non-empty, and both
summary and description fall back to the title otherwise; `shorten` first
collapses whitespace runs (`" ".join(s.split())`), returns the collapsed
summary unchanged when it fits the 155-character budget, and otherwise
emits a prefix of at most 154 characters of the collapsed summary followed
by a single ellipsis — but that prefix may end mid-word (after a hyphen,
or anywhere inside an over-long word), not only at a word boundary. -/
theorem C8_amended :
    (∀ (name content : Str) (p : Post), parse_post name content = some p →
      (p.summary ≠ [] ∧ p.description = pyShorten p.summary)
      ∨ (p.summary = p.title ∧ p.description = p.title))
    ∧ (∀ s : Str, (joinSp (pySplitWs s)).length ≤ 155 →
        pyShorten s = joinSp (pySplitWs s))
    ∧ (∀ s : Str, 155 < (joinSp (pySplitWs s)).length →
        ∃ n, n ≤ 154 ∧ pyShorten s = (joinSp (pySplitWs s)).take n ++ ['…']) := by
  refine ⟨?_, pyShorten_fits, pyShorten_overflow⟩
  intro name content p hp
  unfold parse_post at hp
  cases hpf : parseFilename name with
  | none =>
    rw [hpf] at hp
    cases hp
  | some x =>
    obtain ⟨⟨y, m, d⟩, slug, ext⟩ := x
    rw [hpf] at hp
    dsimp only at hp
    split at hp
    · cases hp
    · split at hp
      · cases hp
      · split at hp
        · cases hp
        · rename_i t0 restLines heq
          cases hp
          by_cases hsum : extract_summary (pyStrip (joinNl restLines)) ≠ []
          · left
            constructor
            · show (if extract_summary (pyStrip (joinNl restLines)) ≠ []
                  then extract_summary (pyStrip (joinNl restLines)) else _) ≠ []
              rw [if_pos hsum]
              exact hsum
            · show (if extract_summary (pyStrip (joinNl restLines)) ≠ []
                    then pyShorten (extract_summary (pyStrip (joinNl restLines)))
                    else _)
                  = pyShorten (if extract_summary (pyStrip (joinNl restLines)) ≠ []
                    then extract_summary (pyStrip (joinNl restLines)) else _)
              rw [if_pos hsum, if_pos hsum]
          · right
            constructor
            · show (if extract_summary (pyStrip (joinNl restLines)) ≠ []
                  then extract_summary (pyStrip (joinNl restLines)) else _) = _
              rw [if_neg hsum]
            · show (if extract_summary (pyStrip (joinNl restLines)) ≠ []
                  then pyShorten (extract_summary (pyStrip (joinNl restLines)))
                  else _) = _
              rw [if_neg hsum]

set_option maxHeartbeats 8000000 in
set_option maxRecDepth 1000000 in
/-- Claim C8 witness: the amended theorem applied to the concrete post
`T\nhello` (non-empty summary branch), to a short summary (fits
unchanged), and to the 158-character summary [c8S] (truncation). -/
theorem C8_amended_witness :
    ((("hello".data : Str) ≠ [] ∧ ("hello".data : Str) = pyShorten "hello".data)
      ∨ (("hello".data : Str) = "T".data ∧ ("hello".data : Str) = "T".data))
    ∧ pyShorten "ab cd".data = joinSp (pySplitWs "ab cd".data)
    ∧ ∃ n, n ≤ 154 ∧ pyShorten c8S = (joinSp (pySplitWs c8S)).take n ++ ['…'] :=
  ⟨C8_amended.1 "2024-01-02-b.txt".data "T\nhello".data
      ⟨"T".data, (2024, 1, 2), "b".data, "hello".data, "hello".data,
        "<p>hello</p>".data, []⟩
      (by simp +decide [parse_post, parseFilename, validDate, isLeap,
        daysInMonth, digitsToNat, findTitle, mdStripTitle, splitLines,
        joinNl, joinSp, pyStrip, pyLstrip, pyRstrip, pyIsSpace, pyIsDigit,
        pyIsAlpha, pyTitle, render_body, runBody, initState, finishBody,
        stepLine, flush_paragraph, flush_list, flush_code, bulletMatch,
        orderedMatch, headingMatch, dictGet, dictSet, render_inlines,
        scanInlines, findSub, flush_plain, linkify, matchAutolink,
        htmlEscape, escapeChar, natToStr, isSchemeChar, isUrlChar,
        extract_summary, splitParas, extract_plain_text, subGlossary,
        subCode, subStrong, subEm, subLink, findLinkMid, findParenNoNl,
        collapseWs, isTermChar, isDefChar, slugify, isSlugChar,
        slugCollapse, pyShorten, pySplitWs, wordsepChunks, wordScan,
        wsWordChar, wsLetter, wordPunct, headWordPunct, hyphenLookbehind,
        hyphenLookahead, emDashAhead, isWsChunk, greedyTake,
        rfindDashBefore, handleLongWord, placeholderLoop, wrapOneLine]),
    C8_amended.2.1 "ab cd".data
      (by simp +decide [pySplitWs, joinSp, pyIsSpace]),
    C8_amended.2.2 c8S
      (by simp +decide [c8S, pySplitWs, joinSp, pyIsSpace])⟩

set_option maxHeartbeats 8000000 in
set_option maxRecDepth 1000000 in
/-- Claim C8, counterexample: this parsed post has the 158-character
summary [c8S], and its description is NOT the summary truncated at a word
boundary: `shorten` cuts inside the word `bb-cccc`, right after its
hyphen (the characters around the cut are `-` and `c`, neither
whitespace), while a word-boundary truncation would have kept only the
150 `a`s of the first word. -/
theorem C8_counterexample :
    (parse_post c8name c8content).map Post.summary = some c8S
    ∧ (parse_post c8name c8content).map Post.description = some c8D
    ∧ c8S ≠ [] ∧ c8D ≠ c8S
    ∧ c8D = c8S.take 154 ++ ['…']
    ∧ c8S.getD 153 ' ' = '-' ∧ c8S.getD 154 ' ' = 'c'
    ∧ c8D ≠ wordBoundaryTruncate 155 c8S
    ∧ wordBoundaryTruncate 155 c8S = c8S.take 150 ++ ['…'] := by
  refine ⟨?_, ?_, by decide, by decide, by decide, by decide, by decide,
    ?_, ?_⟩
  all_goals
    simp +decide [c8S, c8D, c8name, c8content, parse_post, parseFilename,
      validDate, isLeap, daysInMonth, digitsToNat, findTitle, mdStripTitle,
      splitLines, joinNl, joinSp, pyStrip, pyLstrip, pyRstrip, pyIsSpace,
      pyIsDigit, pyIsAlpha, pyTitle, render_body, runBody, initState,
      finishBody, stepLine, flush_paragraph, flush_list, flush_code,
      bulletMatch, orderedMatch, headingMatch, dictGet, dictSet,
      render_inlines, scanInlines, findSub, flush_plain, linkify,
      matchAutolink, htmlEscape, escapeChar, natToStr, isSchemeChar,
      isUrlChar, extract_summary, splitParas, extract_plain_text,
      subGlossary, subCode, subStrong, subEm, subLink, findLinkMid,
      findParenNoNl, collapseWs, isTermChar, isDefChar, slugify, isSlugChar,
      slugCollapse, pyShorten, pySplitWs, wordsepChunks, wordScan,
      wsWordChar, wsLetter, wordPunct, headWordPunct, hyphenLookbehind,
      hyphenLookahead, emDashAhead, isWsChunk, greedyTake, rfindDashBefore,
      handleLongWord, placeholderLoop, wrapOneLine, wordBoundaryTruncate,
      wordPrefixFit]

/-! ## Claim C3 -/

theorem c3_ne {c : Char} (h : c3Char c = true) {x : Char}
    (hx : c3Char x = false) : c ≠ x := by
  intro he
  rw [he, hx] at h
  cases h

theorem c3_not_mem {s : Str} (h : ∀ c ∈ s, c3Char c = true) {x : Char}
    (hx : c3Char x = false) : x ∉ s := by
  intro hmem
  exact absurd rfl (c3_ne (h x hmem) hx)

theorem c3_plainChar {c : Char} (h : c3Char c = true) : plainChar c = true := by
  simp only [plainChar, Bool.and_eq_true, decide_eq_true_eq, ne_eq]
  refine ⟨⟨⟨?_, ?_⟩, ?_⟩, ?_⟩ <;> exact c3_ne h (by decide)

theorem c3_not_digit {c : Char} (h : c3Char c = true) : pyIsDigit c = false := by
  simp only [c3Char, Bool.or_eq_true, decide_eq_true_eq] at h
  rcases h with (((h1 | h2) | h3) | h4) | h5
  · simp only [pyIsAlpha, Bool.or_eq_true, Bool.and_eq_true,
      decide_eq_true_eq] at h1
    simp only [pyIsDigit, Bool.and_eq_true]
    rcases h1 with ⟨ha, -⟩ | ⟨ha, -⟩ <;>
      (have h9 : ¬c ≤ '9' := fun hle => absurd (le_trans ha hle) (by decide)
       simp [pyIsDigit, h9])
  · subst h2; decide
  · subst h3; decide
  · subst h4; decide
  · subst h5; decide

theorem subGlossary_id {s : Str} (h : '(' ∉ s) : subGlossary s = s := by
  induction s with
  | nil => rw [subGlossary.eq_def]
  | cons c t ih =>
    have hc : c ≠ '(' := fun he => h (by rw [he]; exact List.mem_cons_self _ _)
    have ht : '(' ∉ t := fun hm => h (List.mem_cons_of_mem c hm)
    have iht := ih ht
    rw [subGlossary.eq_def]
    split
    all_goals simp_all

theorem subCode_id {s : Str} (h : '`' ∉ s) : subCode s = s := by
  induction s with
  | nil => rw [subCode.eq_def]
  | cons c t ih =>
    have hc : c ≠ '`' := fun he => h (by rw [he]; exact List.mem_cons_self _ _)
    have ht : '`' ∉ t := fun hm => h (List.mem_cons_of_mem c hm)
    have iht := ih ht
    rw [subCode.eq_def]
    split
    all_goals simp_all

theorem subStrong_id {s : Str} (h : '*' ∉ s) : subStrong s = s := by
  induction s with
  | nil => rw [subStrong.eq_def]
  | cons c t ih =>
    have hc : c ≠ '*' := fun he => h (by rw [he]; exact List.mem_cons_self _ _)
    have ht : '*' ∉ t := fun hm => h (List.mem_cons_of_mem c hm)
    have iht := ih ht
    rw [subStrong.eq_def]
    split
    all_goals simp_all

theorem subEm_id {s : Str} (h : '*' ∉ s) : subEm s = s := by
  induction s with
  | nil => rw [subEm.eq_def]
  | cons c t ih =>
    have hc : c ≠ '*' := fun he => h (by rw [he]; exact List.mem_cons_self _ _)
    have ht : '*' ∉ t := fun hm => h (List.mem_cons_of_mem c hm)
    have iht := ih ht
    rw [subEm.eq_def]
    split
    all_goals simp_all

theorem subLink_id {s : Str} (h : '[' ∉ s) : subLink s = s := by
  induction s with
  | nil => rw [subLink.eq_def]
  | cons c t ih =>
    have hc : c ≠ '[' := fun he => h (by rw [he]; exact List.mem_cons_self _ _)
    have ht : '[' ∉ t := fun hm => h (List.mem_cons_of_mem c hm)
    have iht := ih ht
    rw [subLink.eq_def]
    split
    all_goals simp_all

theorem escapeChar_c3 {c : Char} (h : c3Char c = true) : escapeChar c = [c] := by
  unfold escapeChar
  rw [if_neg (c3_ne h (by decide)), if_neg (c3_ne h (by decide)),
    if_neg (c3_ne h (by decide)), if_neg (c3_ne h (by decide)),
    if_neg (c3_ne h (by decide))]

theorem htmlEscape_c3 {s : Str} (h : ∀ c ∈ s, c3Char c = true) :
    htmlEscape s = s := by
  induction s with
  | nil => rfl
  | cons c t ih =>
    unfold htmlEscape at ih ⊢
    rw [List.map_cons, List.flatten_cons, escapeChar_c3 (h c (by simp)),
      ih (fun x hx => h x (List.mem_cons_of_mem c hx))]
    rfl

theorem matchAutolink_none {s : Str} (h : ':' ∉ s) : matchAutolink s = none := by
  cases s with
  | nil => rfl
  | cons c t =>
    rw [matchAutolink.eq_def]
    dsimp only
    by_cases ha : pyIsAlpha c = true
    · rw [if_pos ha]
      have hdw : [':', '/', '/'].isPrefixOf
          ((c :: t).dropWhile isSchemeChar) = false := by
        cases hq : (c :: t).dropWhile isSchemeChar with
        | nil => rfl
        | cons d r =>
          have hdmem : d ∈ c :: t := by
            have hsuf : (c :: t).dropWhile isSchemeChar <:+ c :: t :=
              List.dropWhile_suffix _
            exact hsuf.subset (by rw [hq]; simp)
          have hd : d ≠ ':' := fun he => h (he ▸ hdmem)
          have : (':' == d) = false := by
            simpa [beq_iff_eq] using fun he => hd he.symm
          simp [List.isPrefixOf, this]
      rw [hdw]
      rfl
    · rw [if_neg ha]

theorem linkify_id {s : Str} (h : ':' ∉ s) : linkify s = s := by
  induction s with
  | nil => rw [linkify.eq_def]
  | cons c t ih =>
    have ht : ':' ∉ t := fun hm => h (List.mem_cons_of_mem c hm)
    rw [linkify.eq_def]
    dsimp only
    rw [if_neg (by rw [matchAutolink_none h]; simp)]
    rw [ih ht]

theorem render_inlines_c3 (text : Str) (ctx : Nat)
    (h : ∀ c ∈ text, c3Char c = true) :
    render_inlines text ctx = (text, ctx) := by
  unfold render_inlines
  rw [scanInlines_plain_all text [] [] ctx (fun c hc => c3_plainChar (h c hc))]
  unfold flush_plain
  by_cases hnil : text = []
  · subst hnil
    simp
  · simp only [List.nil_append]
    rw [if_neg hnil, htmlEscape_c3 h, linkify_id (c3_not_mem h (by decide))]

theorem stripTags_plain_append {t : Str} (r : Str) (h : '<' ∉ t) :
    stripTags (t ++ r) = t ++ stripTags r := by
  induction t with
  | nil => rfl
  | cons c t2 ih =>
    have hc : c ≠ '<' := fun he => h (by rw [he]; exact List.mem_cons_self _ _)
    have ht2 : '<' ∉ t2 := fun hm => h (List.mem_cons_of_mem c hm)
    have iht := ih ht2
    rw [List.cons_append, stripTags.eq_def]
    split
    all_goals simp_all

theorem stripTags_tag_p (x : Str) :
    stripTags ('<' :: 'p' :: '>' :: x) = stripTags x := by
  rw [stripTags.eq_def]
  congr 1

theorem stripTags_tag_pc (x : Str) :
    stripTags ('<' :: '/' :: 'p' :: '>' :: x) = stripTags x := by
  rw [stripTags.eq_def]
  congr 1

theorem stripTags_p_wrap (t r : Str) (h : '<' ∉ t) :
    stripTags ("<p>".data ++ t ++ "</p>".data ++ r) = t ++ stripTags r := by
  have hshape : "<p>".data ++ t ++ "</p>".data ++ r
      = '<' :: 'p' :: '>' :: (t ++ ('<' :: '/' :: 'p' :: '>' :: r)) := by
    simp
  rw [hshape, stripTags_tag_p, stripTags_plain_append _ h, stripTags_tag_pc]

theorem takeWhile_append_stop {p : Char → Bool} {sep : Char}
    (hsep : p sep = false) : ∀ (x y : Str),
    (x ++ sep :: y).takeWhile p = x.takeWhile p := by
  intro x y
  induction x with
  | nil => simp [List.takeWhile_cons, hsep]
  | cons c t ih =>
    rw [List.cons_append, List.takeWhile_cons, List.takeWhile_cons]
    cases hc : p c
    · rfl
    · simp [ih]

theorem dropWhile_append_stop {p : Char → Bool} {sep : Char}
    (hsep : p sep = false) : ∀ (x y : Str),
    (x ++ sep :: y).dropWhile p = x.dropWhile p ++ sep :: y := by
  intro x y
  induction x with
  | nil => simp [List.dropWhile_cons, hsep]
  | cons c t ih =>
    rw [List.cons_append, List.dropWhile_cons, List.dropWhile_cons]
    cases hc : p c
    · rfl
    · simp [ih]

theorem pySplitWs_nil : pySplitWs [] = [] := by
  rw [pySplitWs.eq_def]

theorem pySplitWs_cons (c : Char) (t : Str) :
    pySplitWs (c :: t)
      = if pyIsSpace c then pySplitWs t
        else (c :: t).takeWhile (fun x => !pyIsSpace x)
          :: pySplitWs ((c :: t).dropWhile (fun x => !pyIsSpace x)) := by
  rw [pySplitWs.eq_def]

theorem pySplitWs_sep_fuel : ∀ (n : Nat) (a : Str), a.length ≤ n →
    ∀ (sep : Char) (b : Str), pyIsSpace sep = true →
    pySplitWs (a ++ sep :: b) = pySplitWs a ++ pySplitWs b := by
  intro n
  induction n with
  | zero =>
    intro a ha sep b hsep
    have hnil : a = [] := List.length_eq_zero.mp (Nat.le_zero.mp ha)
    subst hnil
    rw [List.nil_append, pySplitWs_nil, pySplitWs_cons, if_pos hsep,
      List.nil_append]
  | succ n ih =>
    intro a ha sep b hsep
    cases a with
    | nil =>
      rw [List.nil_append, pySplitWs_nil, pySplitWs_cons, if_pos hsep,
        List.nil_append]
    | cons c t =>
      have hts : t.length ≤ n := by
        simp only [List.length_cons] at ha
        omega
      rw [List.cons_append, pySplitWs_cons]
      by_cases hc : pyIsSpace c = true
      · rw [if_pos hc]
        conv_rhs => rw [pySplitWs_cons, if_pos hc]
        exact ih t hts sep b hsep
      · rw [if_neg hc]
        have hstop : (fun x => !pyIsSpace x) sep = false := by simp [hsep]
        rw [show c :: (t ++ sep :: b) = (c :: t) ++ sep :: b from rfl]
        rw [takeWhile_append_stop hstop, dropWhile_append_stop hstop]
        have hdwlen : ((c :: t).dropWhile (fun x => !pyIsSpace x)).length ≤ n := by
          rw [List.dropWhile_cons, if_pos (by simp [hc])]
          exact (dropWhile_length_le _ _).trans hts
        rw [ih _ hdwlen sep b hsep]
        conv_rhs => rw [pySplitWs_cons, if_neg hc]
        rw [List.cons_append]

theorem pySplitWs_allws : ∀ {s : Str}, (∀ c ∈ s, pyIsSpace c = true) →
    pySplitWs s = [] := by
  intro s
  induction s with
  | nil => intro _; rw [pySplitWs_nil]
  | cons c t ih =>
    intro h
    rw [pySplitWs_cons, if_pos (h c (by simp))]
    exact ih (fun x hx => h x (List.mem_cons_of_mem c hx))

theorem pySplitWs_ws_lead : ∀ (a : Str) (x : Str),
    (∀ c ∈ a, pyIsSpace c = true) → pySplitWs (a ++ x) = pySplitWs x := by
  intro a
  induction a with
  | nil => intro x _; rw [List.nil_append]
  | cons c t ih =>
    intro x h
    rw [List.cons_append, pySplitWs_cons, if_pos (h c (by simp))]
    exact ih x (fun y hy => h y (List.mem_cons_of_mem c hy))

theorem joinNl_cons_head (c : Char) (l : Str) (ls : List Str) :
    joinNl ((c :: l) :: ls) = c :: joinNl (l :: ls) := by
  cases ls <;> rfl

theorem joinNl_words : ∀ (xs : List Str),
    pySplitWs (joinNl xs) = (xs.map pySplitWs).flatten := by
  intro xs
  induction xs with
  | nil =>
    rw [show joinNl [] = [] from rfl, pySplitWs_nil]
    rfl
  | cons x ys ih =>
    cases ys with
    | nil => simp [joinNl]
    | cons y rest =>
      show pySplitWs (x ++ '\n' :: joinNl (y :: rest)) = _
      rw [pySplitWs_sep_fuel x.length x (Nat.le_refl _) '\n' _ (by decide), ih]
      simp

theorem joinSp_words : ∀ (xs : List Str),
    pySplitWs (joinSp xs) = (xs.map pySplitWs).flatten := by
  intro xs
  induction xs with
  | nil =>
    rw [show joinSp [] = [] from rfl, pySplitWs_nil]
    rfl
  | cons x ys ih =>
    cases ys with
    | nil => simp [joinSp]
    | cons y rest =>
      show pySplitWs (x ++ ' ' :: joinSp (y :: rest)) = _
      rw [pySplitWs_sep_fuel x.length x (Nat.le_refl _) ' ' _ (by decide), ih]
      simp

theorem splitLines_nil_iff {t : Str} : splitLines t = [] ↔ t = [] := by
  constructor
  · intro h
    cases t with
    | nil => rfl
    | cons c u =>
      rw [splitLines] at h
      by_cases hc : c = '\n'
      · rw [if_pos hc] at h; cases h
      · rw [if_neg hc] at h
        revert h
        cases splitLines u <;> intro h <;> cases h
  · intro h; subst h; rfl

theorem body_reconstruct : ∀ (body : Str),
    body = joinNl (splitLines body)
    ∨ body = joinNl (splitLines body) ++ ['\n'] := by
  intro body
  induction body with
  | nil => exact Or.inl rfl
  | cons c t ih =>
    rw [splitLines]
    by_cases hc : c = '\n'
    · rw [if_pos hc]
      subst hc
      cases hsp : splitLines t with
      | nil =>
        have ht : t = [] := splitLines_nil_iff.mp hsp
        subst ht
        exact Or.inr rfl
      | cons l ls =>
        rw [hsp] at ih
        have hj : joinNl ([] :: l :: ls) = '\n' :: joinNl (l :: ls) := rfl
        rw [hj]
        rcases ih with h | h
        · exact Or.inl (by rw [← h])
        · exact Or.inr (by rw [List.cons_append, ← h])
    · rw [if_neg hc]
      cases hsp : splitLines t with
      | nil =>
        have ht : t = [] := splitLines_nil_iff.mp hsp
        subst ht
        exact Or.inl rfl
      | cons l ls =>
        rw [hsp] at ih
        rw [joinNl_cons_head]
        rcases ih with h | h
        · exact Or.inl (by rw [← h])
        · exact Or.inr (by rw [List.cons_append, ← h])

theorem body_words (body : Str) :
    pySplitWs body = ((splitLines body).map pySplitWs).flatten := by
  rcases body_reconstruct body with h | h
  · rw [← joinNl_words]
    exact congrArg pySplitWs h
  · conv_lhs => rw [h]
    rw [pySplitWs_sep_fuel (joinNl (splitLines body)).length _ (Nat.le_refl _)
      '\n' [] (by decide)]
    rw [joinNl_words, pySplitWs_nil]
    simp

theorem pyStrip_words (l : Str) : pySplitWs (pyStrip l) = pySplitWs l := by
  have hdec1 : l = l.takeWhile pyIsSpace ++ pyLstrip l :=
    (List.takeWhile_append_dropWhile pyIsSpace l).symm
  have hstep1 : pySplitWs l = pySplitWs (pyLstrip l) := by
    conv_lhs => rw [hdec1]
    exact pySplitWs_ws_lead _ _ (fun c hc => List.mem_takeWhile_imp hc)
  have hdec2 : pyLstrip l
      = pyStrip l ++ (((pyLstrip l).reverse.takeWhile pyIsSpace)).reverse := by
    have hrev : (pyLstrip l).reverse
        = (pyLstrip l).reverse.takeWhile pyIsSpace
          ++ (pyLstrip l).reverse.dropWhile pyIsSpace :=
      (List.takeWhile_append_dropWhile pyIsSpace _).symm
    have := congrArg List.reverse hrev
    rw [List.reverse_reverse, List.reverse_append] at this
    exact this
  rw [hstep1]
  conv_rhs => rw [hdec2]
  have hallws : ∀ c ∈ (((pyLstrip l).reverse.takeWhile pyIsSpace)).reverse,
      pyIsSpace c = true := by
    intro c hc
    exact List.mem_takeWhile_imp (List.mem_reverse.mp hc)
  cases hE : (((pyLstrip l).reverse.takeWhile pyIsSpace)).reverse with
  | nil => rw [List.append_nil]
  | cons e E2 =>
    have hews : pyIsSpace e = true := hallws e (by rw [hE]; simp)
    have hE2 : ∀ c ∈ E2, pyIsSpace c = true := fun c hc =>
      hallws c (by rw [hE]; exact List.mem_cons_of_mem e hc)
    rw [pySplitWs_sep_fuel (pyStrip l).length _ (Nat.le_refl _) e E2 hews,
      pySplitWs_allws hE2, List.append_nil]

theorem dropWhile_head_false {p : Char → Bool} : ∀ {l : Str} {a : Char} {b : Str},
    l.dropWhile p = a :: b → p a = false := by
  intro l
  induction l with
  | nil => intro a b h; cases h
  | cons c t ih =>
    intro a b h
    rw [List.dropWhile_cons] at h
    by_cases hc : p c = true
    · rw [if_pos hc] at h
      exact ih h
    · rw [if_neg hc] at h
      injection h with h1 _
      subst h1
      revert hc
      cases p c <;> simp

theorem dropWhile_append_of_ne {p : Char → Bool} : ∀ (x y : Str),
    x.dropWhile p ≠ [] → (x ++ y).dropWhile p = x.dropWhile p ++ y := by
  intro x y
  induction x with
  | nil => intro h; exact absurd rfl h
  | cons c t ih =>
    intro h
    rw [List.cons_append, List.dropWhile_cons, List.dropWhile_cons]
    rw [List.dropWhile_cons] at h
    by_cases hc : p c = true
    · rw [if_pos hc] at h ⊢
      rw [if_pos hc]
      exact ih h
    · rw [if_neg hc, if_neg hc]
      rfl

theorem pyRstrip_append {a b : Str} (h : pyRstrip b ≠ []) :
    pyRstrip (a ++ b) = a ++ pyRstrip b := by
  unfold pyRstrip at h ⊢
  rw [List.reverse_append]
  have hb : b.reverse.dropWhile pyIsSpace ≠ [] := by
    intro hnil
    rw [hnil] at h
    exact h rfl
  rw [dropWhile_append_of_ne _ _ hb, List.reverse_append, List.reverse_reverse]

theorem pyLstrip_nonws_head {c : Char} (x : Str) (h : pyIsSpace c = false) :
    pyLstrip (c :: x) = c :: x := by
  unfold pyLstrip
  rw [List.dropWhile_cons, h]
  rfl

theorem pyStrip_nonws_head {c : Char} (x : Str) (h : pyIsSpace c = false) :
    pyStrip (c :: x) = pyRstrip (c :: x) := by
  unfold pyStrip
  rw [pyLstrip_nonws_head x h]

theorem pyStrip_space_cons (x : Str) : pyStrip (' ' :: x) = pyStrip x := by
  unfold pyStrip
  rw [show pyLstrip (' ' :: x) = pyLstrip x from by
    unfold pyLstrip
    rw [List.dropWhile_cons, if_pos (by decide)]]

theorem pyRstrip_wsFree {w : Str} (h : ∀ c ∈ w, pyIsSpace c = false) :
    pyRstrip w = w := by
  unfold pyRstrip
  cases hr : w.reverse with
  | nil =>
    rw [show w = [] from by simpa using congrArg List.reverse hr]
    rfl
  | cons a rr =>
    have ha : pyIsSpace a = false :=
      h a (List.mem_reverse.mp (by rw [hr]; simp))
    rw [List.dropWhile_cons, ha]
    simp only [Bool.false_eq_true, if_false]
    rw [← hr, List.reverse_reverse]

theorem pyStrip_wsFree {w : Str} (h : ∀ c ∈ w, pyIsSpace c = false) :
    pyStrip w = w := by
  cases w with
  | nil => rfl
  | cons c t =>
    rw [pyStrip_nonws_head t (h c (by simp))]
    exact pyRstrip_wsFree h

theorem pyStrip_trailing_space {w : Str} (hne : w ≠ [])
    (h : ∀ c ∈ w, pyIsSpace c = false) : pyStrip (w ++ [' ']) = w := by
  cases w with
  | nil => exact absurd rfl hne
  | cons c t =>
    rw [List.cons_append, pyStrip_nonws_head _ (h c (by simp)),
      ← List.cons_append]
    unfold pyRstrip
    rw [List.reverse_append]
    rw [show (([' '] : Str).reverse ++ ((c :: t) : Str).reverse)
        = ' ' :: (c :: t).reverse from rfl]
    rw [List.dropWhile_cons, if_pos (by decide)]
    have hrf := pyRstrip_wsFree h
    unfold pyRstrip at hrf
    exact hrf

theorem collapseWs_nil : collapseWs [] = [] := by
  rw [collapseWs.eq_def]

theorem collapseWs_cons (c : Char) (t : Str) :
    collapseWs (c :: t)
      = if pyIsSpace c then
          (match t with
           | d :: _ => if pyIsSpace d then collapseWs t else ' ' :: collapseWs t
           | [] => [' '])
        else c :: collapseWs t := by
  rw [collapseWs.eq_def]
  rfl

theorem collapseWs_word_head : ∀ (a : Str) (r : Str),
    (∀ c ∈ a, pyIsSpace c = false) → collapseWs (a ++ r) = a ++ collapseWs r := by
  intro a
  induction a with
  | nil => intro r _; rfl
  | cons c t ih =>
    intro r h
    rw [List.cons_append, collapseWs_cons]
    rw [if_neg (by rw [h c (by simp)]; simp)]
    rw [ih r (fun x hx => h x (List.mem_cons_of_mem c hx)), List.cons_append]

theorem collapseWs_ws_ws (c d : Char) (t2 : Str) (hc : pyIsSpace c = true)
    (hd : pyIsSpace d = true) :
    collapseWs (c :: d :: t2) = collapseWs (d :: t2) := by
  rw [collapseWs_cons, if_pos hc]
  show (if pyIsSpace d = true then collapseWs (d :: t2)
    else ' ' :: collapseWs (d :: t2)) = _
  rw [if_pos hd]

theorem collapseWs_ws_nonws (c d : Char) (t2 : Str) (hc : pyIsSpace c = true)
    (hd : pyIsSpace d = false) :
    collapseWs (c :: d :: t2) = ' ' :: collapseWs (d :: t2) := by
  rw [collapseWs_cons, if_pos hc]
  show (if pyIsSpace d = true then collapseWs (d :: t2)
    else ' ' :: collapseWs (d :: t2)) = _
  rw [hd]
  simp

theorem collapseWs_ws_head : ∀ (t : Str) (c : Char), pyIsSpace c = true →
    collapseWs (c :: t)
      = if (c :: t).dropWhile pyIsSpace = [] then [' ']
        else ' ' :: collapseWs ((c :: t).dropWhile pyIsSpace) := by
  intro t
  induction t with
  | nil =>
    intro c hc
    rw [collapseWs_cons, if_pos hc]
    rw [List.dropWhile_cons, if_pos hc]
    rfl
  | cons d t2 ih =>
    intro c hc
    have hdw : (c :: d :: t2).dropWhile pyIsSpace
        = (d :: t2).dropWhile pyIsSpace := by
      rw [List.dropWhile_cons, if_pos hc]
    rw [hdw]
    by_cases hd : pyIsSpace d = true
    · rw [collapseWs_ws_ws c d t2 hc hd, ih d hd]
    · have hd' : pyIsSpace d = false := by
        revert hd; cases pyIsSpace d <;> simp
      rw [collapseWs_ws_nonws c d t2 hc hd']
      rw [List.dropWhile_cons, hd']
      simp only [Bool.false_eq_true, if_false]
      rw [if_neg (by simp)]

theorem normWs_canon_fuel : ∀ (n : Nat) (s : Str), s.length ≤ n →
    pyStrip (collapseWs s) = joinSp (pySplitWs s) := by
  intro n
  induction n with
  | zero =>
    intro s hs
    have hnil : s = [] := List.length_eq_zero.mp (Nat.le_zero.mp hs)
    subst hnil
    rw [collapseWs_nil, pySplitWs_nil]
    rfl
  | succ n ih =>
    intro s hs
    cases s with
    | nil =>
      rw [collapseWs_nil, pySplitWs_nil]
      rfl
    | cons c t =>
      have hts : t.length ≤ n := by
        simp only [List.length_cons] at hs
        omega
      by_cases hc : pyIsSpace c = true
      · rw [collapseWs_ws_head t c hc]
        by_cases hdw : (c :: t).dropWhile pyIsSpace = []
        · rw [if_pos hdw]
          have hallws : ∀ x ∈ c :: t, pyIsSpace x = true :=
            List.dropWhile_eq_nil_iff.mp hdw
          rw [pySplitWs_allws hallws]
          rfl
        · rw [if_neg hdw, pyStrip_space_cons]
          have hdwt : (c :: t).dropWhile pyIsSpace = t.dropWhile pyIsSpace := by
            rw [List.dropWhile_cons, if_pos hc]
          rw [hdwt] at hdw ⊢
          rw [ih _ ((dropWhile_length_le _ _).trans hts)]
          have h1 := pySplitWs_ws_lead (t.takeWhile pyIsSpace)
            (t.dropWhile pyIsSpace) (fun x hx => List.mem_takeWhile_imp hx)
          rw [List.takeWhile_append_dropWhile] at h1
          rw [show pySplitWs (c :: t) = pySplitWs t from by
            rw [pySplitWs_cons, if_pos hc], h1]
      · have hc' : pyIsSpace c = false := by
          revert hc; cases pyIsSpace c <;> simp
        have hW : (c :: t).takeWhile (fun z => !pyIsSpace z)
            = c :: t.takeWhile (fun z => !pyIsSpace z) := by
          rw [List.takeWhile_cons, if_pos (by simp [hc'])]
        have hRdef : (c :: t).dropWhile (fun z => !pyIsSpace z)
            = t.dropWhile (fun z => !pyIsSpace z) := by
          rw [List.dropWhile_cons, if_pos (by simp [hc'])]
        have hWfree : ∀ x ∈ (c :: t).takeWhile (fun z => !pyIsSpace z),
            pyIsSpace x = false := by
          intro x hx
          simpa using List.mem_takeWhile_imp hx
        have hsplit : c :: t
            = (c :: t).takeWhile (fun z => !pyIsSpace z)
              ++ (c :: t).dropWhile (fun z => !pyIsSpace z) :=
          (List.takeWhile_append_dropWhile _ _).symm
        rw [pySplitWs_cons, if_neg hc]
        conv_lhs => rw [hsplit]
        rw [collapseWs_word_head _ _ hWfree]
        have hRlen : ((c :: t).dropWhile (fun z => !pyIsSpace z)).length ≤ n := by
          rw [hRdef]
          exact (dropWhile_length_le _ _).trans hts
        cases hR : (c :: t).dropWhile (fun z => !pyIsSpace z) with
        | nil =>
          rw [collapseWs_nil, List.append_nil, pySplitWs_nil]
          exact pyStrip_wsFree hWfree
        | cons r0 R2 =>
          have hr0 : pyIsSpace r0 = true := by
            have := dropWhile_head_false hR
            simpa using this
          have hWne : (c :: t).takeWhile (fun z => !pyIsSpace z) ≠ [] := by
            rw [hW]
            simp
          rw [collapseWs_ws_head R2 r0 hr0]
          by_cases hRd : (r0 :: R2).dropWhile pyIsSpace = []
          · rw [if_pos hRd]
            have hR2ws : ∀ x ∈ r0 :: R2, pyIsSpace x = true :=
              List.dropWhile_eq_nil_iff.mp hRd
            rw [pyStrip_trailing_space hWne hWfree]
            rw [pySplitWs_allws hR2ws]
            rfl
          · rw [if_neg hRd]
            -- the stripped collapse of the ws-led remainder
            have hRdw : ∀ x ∈ (r0 :: R2).takeWhile pyIsSpace,
                pyIsSpace x = true := fun x hx => List.mem_takeWhile_imp hx
            have hRdlen : ((r0 :: R2).dropWhile pyIsSpace).length ≤ n := by
              have h1 : ((r0 :: R2).dropWhile pyIsSpace).length
                  ≤ (r0 :: R2).length := dropWhile_length_le _ _
              have h2 := congrArg List.length hR
              rw [hRdef] at h2
              have h3 := dropWhile_length_le (fun z => !pyIsSpace z) t
              rw [h2] at h3
              omega
            have hih := ih _ hRdlen
            -- head of the dropWhile result is non-whitespace
            cases hRdd : (r0 :: R2).dropWhile pyIsSpace with
            | nil => exact absurd hRdd hRd
            | cons d0 D2 =>
              have hd0 : pyIsSpace d0 = false := by
                have := dropWhile_head_false hRdd
                simpa using this
              rw [hRdd] at hih
              have hcd : collapseWs (d0 :: D2)
                  = d0 :: collapseWs D2 := by
                rw [collapseWs_cons, if_neg (by simp [hd0])]
              -- pyStrip over W ++ ' ' :: collapsed tail
              have hstrip_tail : pyStrip (collapseWs (d0 :: D2))
                  = pyRstrip (collapseWs (d0 :: D2)) := by
                rw [hcd]
                exact pyStrip_nonws_head _ hd0
              have hrne : pyRstrip (collapseWs (d0 :: D2)) ≠ [] := by
                rw [← hstrip_tail, hih]
                refine joinSp_ne_nil _ ?_ ?_
                · intro w hw
                  exact (pySplitWs_words (d0 :: D2) w hw).1
                · rw [pySplitWs_cons, if_neg (by simp [hd0])]
                  simp
              have hWhead : ∃ w0 W2, (c :: t).takeWhile (fun z => !pyIsSpace z)
                  = w0 :: W2 := by
                rw [hW]
                exact ⟨c, _, rfl⟩
              obtain ⟨w0, W2, hW0⟩ := hWhead
              have hw0 : pyIsSpace w0 = false := hWfree w0 (by rw [hW0]; simp)
              rw [hW0]
              rw [List.cons_append, pyStrip_nonws_head _ hw0, ← List.cons_append]
              rw [pyRstrip_append (by
                rw [show pyRstrip (' ' :: collapseWs (d0 :: D2))
                    = pyRstrip ([' '] ++ collapseWs (d0 :: D2)) from rfl]
                rw [pyRstrip_append hrne]
                simp)]
              rw [show pyRstrip (' ' :: collapseWs (d0 :: D2))
                  = pyRstrip ([' '] ++ collapseWs (d0 :: D2)) from rfl]
              rw [pyRstrip_append hrne, ← hstrip_tail, hih]
              -- right-hand side
              have hRwords : pySplitWs (r0 :: R2) = pySplitWs (d0 :: D2) := by
                conv_lhs =>
                  rw [show r0 :: R2
                      = (r0 :: R2).takeWhile pyIsSpace
                        ++ (r0 :: R2).dropWhile pyIsSpace from
                    (List.takeWhile_append_dropWhile pyIsSpace _).symm]
                rw [pySplitWs_ws_lead _ _ hRdw, hRdd]
              rw [hRwords]
              have hWd : pySplitWs (d0 :: D2) ≠ [] := by
                rw [pySplitWs_cons, if_neg (by simp [hd0])]
                simp
              cases hws : pySplitWs (d0 :: D2) with
              | nil => exact absurd hws hWd
              | cons q qs =>
                rw [show joinSp ((w0 :: W2) :: q :: qs)
                    = (w0 :: W2) ++ ' ' :: joinSp (q :: qs) from rfl]
                simp

theorem normWs_canon (s : Str) : normWs s = joinSp (pySplitWs s) :=
  normWs_canon_fuel s.length s (Nat.le_refl _)

theorem extract_plain_text_c3 (body : Str) (h : ∀ c ∈ body, c3Char c = true) :
    extract_plain_text body = joinSp (pySplitWs body) := by
  unfold extract_plain_text
  rw [subGlossary_id (c3_not_mem h (by decide)),
    subCode_id (c3_not_mem h (by decide)),
    subStrong_id (c3_not_mem h (by decide)),
    subEm_id (c3_not_mem h (by decide)),
    subLink_id (c3_not_mem h (by decide))]
  exact normWs_canon body

theorem c3Paras_words : ∀ (lines : List Str) (para : List Str),
    ((c3Paras para lines).map pySplitWs).flatten
      = (para.map pySplitWs).flatten ++ (lines.map pySplitWs).flatten := by
  intro lines
  induction lines with
  | nil =>
    intro para
    rw [c3Paras]
    by_cases hp : para = []
    · rw [if_pos hp]
      subst hp
      rfl
    · rw [if_neg hp]
      simp [joinSp_words]
  | cons l ls ih =>
    intro para
    rw [c3Paras]
    by_cases hb : pyStrip l = []
    · rw [if_pos hb]
      rw [List.map_append, List.flatten_append, ih []]
      have hl : pySplitWs l = [] := by
        rw [← pyStrip_words l, hb, pySplitWs_nil]
      by_cases hp : para = []
      · rw [if_pos hp]
        subst hp
        simp [hl]
      · rw [if_neg hp]
        simp [joinSp_words, hl]
    · rw [if_neg hb, ih (para ++ [pyStrip l])]
      simp [pyStrip_words, List.map_append, List.flatten_append]
  termination_by lines => lines.length

theorem mem_pyStrip {c : Char} {l : Str} (h : c ∈ pyStrip l) : c ∈ l := by
  unfold pyStrip pyRstrip pyLstrip at h
  have h1 := List.mem_reverse.mp h
  have h2 := (List.dropWhile_suffix pyIsSpace).subset h1
  have h3 := List.mem_reverse.mp h2
  exact (List.dropWhile_suffix pyIsSpace).subset h3

theorem splitLines_chars : ∀ {body : Str} {l : Str}, l ∈ splitLines body →
    ∀ c ∈ l, c ∈ body := by
  intro body
  induction body with
  | nil => intro l hl; rw [splitLines] at hl; cases hl
  | cons a t ih =>
    intro l hl c hc
    rw [splitLines] at hl
    by_cases ha : a = '\n'
    · rw [if_pos ha] at hl
      rcases List.mem_cons.mp hl with h1 | h1
      · subst h1; cases hc
      · exact List.mem_cons_of_mem a (ih h1 c hc)
    · rw [if_neg ha] at hl
      cases hsp : splitLines t with
      | nil =>
        rw [hsp] at hl
        rcases List.mem_cons.mp hl with h1 | h1
        · subst h1
          have hca : c = a := by simpa using hc
          subst hca
          simp
        · cases h1
      | cons l0 ls =>
        rw [hsp] at hl
        rcases List.mem_cons.mp hl with h1 | h1
        · subst h1
          rcases List.mem_cons.mp hc with h2 | h2
          · subst h2; simp
          · exact List.mem_cons_of_mem a (ih (by rw [hsp]; simp) c h2)
        · exact List.mem_cons_of_mem a
            (ih (by rw [hsp]; exact List.mem_cons_of_mem l0 h1) c hc)

theorem c3_joinSp {para : List Str}
    (h : ∀ p ∈ para, ∀ c ∈ p, c3Char c = true) :
    ∀ c ∈ joinSp para, c3Char c = true := by
  induction para with
  | nil => intro c hc; cases hc
  | cons p ps ih =>
    intro c hc
    cases ps with
    | nil => exact h p (by simp) c hc
    | cons p2 ps2 =>
      rw [show joinSp (p :: p2 :: ps2) = p ++ ' ' :: joinSp (p2 :: ps2)
        from rfl] at hc
      rcases List.mem_append.mp hc with h1 | h1
      · exact h p (by simp) c h1
      · rcases List.mem_cons.mp h1 with h2 | h2
        · subst h2; decide
        · exact ih (fun q hq => h q (List.mem_cons_of_mem p hq)) c h2

theorem c3Paras_chars : ∀ (lines : List Str) (para : List Str),
    (∀ l ∈ lines, ∀ c ∈ l, c3Char c = true) →
    (∀ p ∈ para, ∀ c ∈ p, c3Char c = true) →
    ∀ tx ∈ c3Paras para lines, ∀ c ∈ tx, c3Char c = true := by
  intro lines
  induction lines with
  | nil =>
    intro para _ hpara tx htx
    rw [c3Paras] at htx
    by_cases hp : para = []
    · rw [if_pos hp] at htx; cases htx
    · rw [if_neg hp] at htx
      rcases List.mem_cons.mp htx with h1 | h1
      · subst h1
        exact c3_joinSp hpara
      · cases h1
  | cons l ls ih =>
    intro para hlines hpara tx htx
    rw [c3Paras] at htx
    have hl := hlines l (by simp)
    have hls : ∀ x ∈ ls, ∀ c ∈ x, c3Char c = true :=
      fun x hx => hlines x (List.mem_cons_of_mem l hx)
    by_cases hb : pyStrip l = []
    · rw [if_pos hb] at htx
      rcases List.mem_append.mp htx with h1 | h1
      · by_cases hp : para = []
        · rw [if_pos hp] at h1; cases h1
        · rw [if_neg hp] at h1
          rcases List.mem_cons.mp h1 with h2 | h2
          · subst h2
            exact c3_joinSp hpara
          · cases h2
      · exact ih [] hls (by intro p hp; cases hp) tx h1
    · rw [if_neg hb] at htx
      refine ih (para ++ [pyStrip l]) hls ?_ tx htx
      intro p hp
      rcases List.mem_append.mp hp with h1 | h1
      · exact hpara p h1
      · rcases List.mem_cons.mp h1 with h2 | h2
        · subst h2
          exact fun c hc => hl c (mem_pyStrip hc)
        · cases h2

theorem stepLine_plain (st : BState) (l : Str)
    (hf : st.in_code_fence = false) (hlt : st.list_type = none)
    (hl : ∀ c ∈ l, c3Char c = true) :
    stepLine st l
      = if pyStrip l = [] then flush_paragraph st
        else { st with paragraph_lines := st.paragraph_lines ++ [pyStrip l] } := by
  have hstripc3 : ∀ c ∈ pyStrip l, c3Char c = true :=
    fun c hc => hl c (mem_pyStrip hc)
  unfold stepLine
  rw [hf]
  simp only [Bool.false_eq_true, if_false]
  by_cases hblank : pyStrip l = []
  · rw [hblank]
    rw [if_neg (by decide), if_pos rfl, if_pos rfl]
  · have hpre : ['`', '`', '`'].isPrefixOf (pyStrip l) = false := by
      cases hps : pyStrip l with
      | nil => exact absurd hps hblank
      | cons c0 t0 =>
        have hc0 : c0 ≠ '`' :=
          c3_ne (hstripc3 c0 (by rw [hps]; simp)) (by decide)
        have : ('`' == c0) = false := by
          simpa [beq_iff_eq] using fun he => hc0 he.symm
        simp [List.isPrefixOf, this]
    have hbul : bulletMatch (pyStrip l) = none := by
      unfold bulletMatch
      cases hps : pyStrip l with
      | nil => rfl
      | cons c0 t0 =>
        cases t0 with
        | nil => rfl
        | cons d0 t1 =>
          dsimp only
          rw [if_neg]
          rintro ⟨h1, -⟩
          have hc0 := hstripc3 c0 (by rw [hps]; simp)
          rcases h1 with h2 | h2 | h2 <;>
            exact absurd h2 (c3_ne hc0 (by decide))
    have hord : orderedMatch (pyStrip l) = none := by
      unfold orderedMatch
      rw [if_pos]
      cases hps : pyStrip l with
      | nil => rfl
      | cons c0 t0 =>
        rw [List.takeWhile_cons,
          c3_not_digit (hstripc3 c0 (by rw [hps]; simp))]
        rfl
    have hhead : headingMatch (pyStrip l) = none := by
      unfold headingMatch
      dsimp only
      rw [if_neg]
      cases hps : pyStrip l with
      | nil => simp
      | cons c0 t0 =>
        rw [List.takeWhile_cons]
        have hc0 : c0 ≠ '#' :=
          c3_ne (hstripc3 c0 (by rw [hps]; simp)) (by decide)
        rw [if_neg (by simpa using hc0)]
        simp
    rw [if_neg (by rw [hpre]; simp), if_neg hblank]
    simp only [hbul, hord, hhead]
    rw [if_neg (by rintro ⟨h1, -⟩; exact h1 hlt)]
    rw [if_neg (fun h1 => h1 hlt)]
    rw [if_neg hblank, hf]

theorem flush_paragraph_c3 (blocks para : List Str) (ctx : Nat)
    (hpara : ∀ p ∈ para, ∀ c ∈ p, c3Char c = true) :
    flush_paragraph ⟨blocks, para, [], none, false, [], [], [], ctx⟩
      = ⟨blocks ++ (if para = [] then []
          else ["<p>".data ++ joinSp para ++ "</p>".data]),
        [], [], none, false, [], [], [], ctx⟩ := by
  unfold flush_paragraph
  by_cases hp : para = []
  · rw [if_pos hp, if_pos hp]
    subst hp
    rw [List.append_nil]
  · rw [if_neg hp, if_neg hp]
    dsimp only
    rw [render_inlines_c3 (joinSp para) ctx (c3_joinSp hpara)]

theorem flush_list_plain (blocks : List Str) (ctx : Nat) :
    flush_list ⟨blocks, [], [], none, false, [], [], [], ctx⟩
      = ⟨blocks, [], [], none, false, [], [], [], ctx⟩ := by
  unfold flush_list
  dsimp only
  rw [if_neg (by rintro ⟨h1, -⟩; exact h1 rfl)]

theorem c3_fold : ∀ (lines : List Str) (blocks para : List Str) (ctx : Nat),
    (∀ l ∈ lines, ∀ c ∈ l, c3Char c = true) →
    (∀ p ∈ para, ∀ c ∈ p, c3Char c = true) →
    finishBody (List.foldl stepLine
      ⟨blocks, para, [], none, false, [], [], [], ctx⟩ lines)
      = ⟨blocks ++ (c3Paras para lines).map
            (fun tx => "<p>".data ++ tx ++ "</p>".data),
          [], [], none, false, [], [], [], ctx⟩ := by
  intro lines
  induction lines with
  | nil =>
    intro blocks para ctx _ hpara
    rw [List.foldl_nil, c3Paras]
    unfold finishBody
    rw [if_neg (by simp)]
    dsimp only
    rw [flush_paragraph_c3 blocks para ctx hpara]
    rw [flush_list_plain]
    by_cases hp : para = []
    · rw [if_pos hp, if_pos hp]
      rfl
    · rw [if_neg hp, if_neg hp]
      rfl
  | cons l ls ih =>
    intro blocks para ctx hlines hpara
    have hlc3 := hlines l (by simp)
    have hls : ∀ x ∈ ls, ∀ c ∈ x, c3Char c = true :=
      fun x hx => hlines x (List.mem_cons_of_mem l hx)
    rw [List.foldl_cons, stepLine_plain _ _ rfl rfl hlc3]
    rw [c3Paras]
    by_cases hb : pyStrip l = []
    · rw [if_pos hb, if_pos hb]
      rw [flush_paragraph_c3 blocks para ctx hpara]
      rw [ih _ [] ctx hls (by intro p hp; cases hp)]
      by_cases hp : para = []
      · rw [if_pos hp, if_pos hp]
        simp
      · rw [if_neg hp, if_neg hp]
        simp
    · rw [if_neg hb, if_neg hb]
      have hpara' : ∀ p ∈ para ++ [pyStrip l], ∀ c ∈ p, c3Char c = true := by
        intro p hp
        rcases List.mem_append.mp hp with h1 | h1
        · exact hpara p h1
        · rcases List.mem_cons.mp h1 with h2 | h2
          · subst h2
            exact fun c hc => hlc3 c (mem_pyStrip hc)
          · cases h2
      exact ih blocks (para ++ [pyStrip l]) ctx hls hpara'

theorem render_body_c3 (body : Str) (h : ∀ c ∈ body, c3Char c = true)
    (hne : body ≠ []) :
    (render_body body).html
      = joinNl ((c3Paras [] (splitLines body)).map
          (fun tx => "<p>".data ++ tx ++ "</p>".data)) := by
  unfold render_body
  rw [if_neg hne]
  unfold runBody
  rw [show initState 0 = ⟨[], [], [], none, false, [], [], [], 0⟩ from rfl]
  rw [c3_fold (splitLines body) [] [] 0
    (fun l hl c hc => h c (splitLines_chars hl c hc))
    (by intro p hp; cases hp)]
  simp

theorem stripTags_cons_plain {c : Char} (x : Str) (h : c ≠ '<') :
    stripTags (c :: x) = c :: stripTags x := by
  have hmem : ('<' : Char) ∉ [c] := by
    simp
    exact fun he => h he.symm
  have := @stripTags_plain_append [c] x hmem
  simpa using this

theorem stripTags_paras : ∀ (ts : List Str), (∀ t ∈ ts, '<' ∉ t) →
    stripTags (joinNl (ts.map (fun tx => "<p>".data ++ tx ++ "</p>".data)))
      = joinNl ts := by
  intro ts
  induction ts with
  | nil =>
    intro _
    rw [show (([] : List Str).map
      (fun tx => "<p>".data ++ tx ++ "</p>".data)) = [] from rfl]
    rw [show joinNl ([] : List Str) = [] from rfl]
    rw [stripTags.eq_def]
  | cons t rest ih =>
    intro h
    have hht := h t (by simp)
    cases rest with
    | nil =>
      rw [show joinNl [t] = t from rfl]
      rw [show (([t].map (fun tx => "<p>".data ++ tx ++ "</p>".data))) =
        ["<p>".data ++ t ++ "</p>".data] from rfl]
      rw [show joinNl ["<p>".data ++ t ++ "</p>".data]
        = "<p>".data ++ t ++ "</p>".data from rfl]
      have hpw := stripTags_p_wrap t [] hht
      rw [show stripTags ([] : Str) = [] from by rw [stripTags.eq_def]] at hpw
      rw [List.append_nil] at hpw
      rw [List.append_nil] at hpw
      simpa using hpw
    | cons t2 rest2 =>
      rw [List.map_cons]
      rw [show joinNl (("<p>".data ++ t ++ "</p>".data)
            :: ((t2 :: rest2).map (fun tx => "<p>".data ++ tx ++ "</p>".data)))
          = ("<p>".data ++ t ++ "</p>".data)
            ++ '\n' :: joinNl ((t2 :: rest2).map
                (fun tx => "<p>".data ++ tx ++ "</p>".data)) from rfl]
      rw [show ("<p>".data ++ t ++ "</p>".data)
            ++ '\n' :: joinNl ((t2 :: rest2).map
                (fun tx => "<p>".data ++ tx ++ "</p>".data))
          = "<p>".data ++ t ++ "</p>".data
            ++ ('\n' :: joinNl ((t2 :: rest2).map
                (fun tx => "<p>".data ++ tx ++ "</p>".data))) from by
        simp]
      rw [stripTags_p_wrap t _ hht]
      rw [stripTags_cons_plain _ (by decide)]
      rw [ih (fun x hx => h x (List.mem_cons_of_mem t hx))]
      rfl

/-- Claim C3, amended theorem: for a body containing no markup characters
at all (letters, spaces, newlines, periods and commas only), the roundtrip
does hold — stripping the tags from the rendered HTML and normalising
whitespace recovers exactly the delimiter-free body modulo whitespace
(its whitespace-collapsed normal form), which is also precisely what the
Summary Extractor's delimiter-removal passes produce.  In general the
claim is false (see the counterexample): a glossary span renders its term
twice plus its definition into the visible text. -/
theorem C3_amended (body : Str) (h : ∀ c ∈ body, c3Char c = true) :
    normWs (stripTags (render_body body).html) = extract_plain_text body
    ∧ extract_plain_text body = joinSp (pySplitWs body) := by
  have hept := extract_plain_text_c3 body h
  refine ⟨?_, hept⟩
  rw [hept]
  by_cases hne : body = []
  · subst hne
    unfold render_body
    rw [if_pos rfl]
    rw [show stripTags ([] : Str) = [] from by rw [stripTags.eq_def],
      pySplitWs_nil]
    rfl
  · rw [render_body_c3 body h hne]
    have htxc3 := c3Paras_chars (splitLines body) []
      (fun l hl c hc => h c (splitLines_chars hl c hc))
      (by intro p hp; cases hp)
    rw [stripTags_paras _
      (fun tx htx => c3_not_mem (htxc3 tx htx) (by decide))]
    rw [normWs_canon]
    rw [joinNl_words]
    rw [c3Paras_words (splitLines body) []]
    rw [show ((([] : List Str)).map pySplitWs).flatten = [] from rfl,
      List.nil_append]
    rw [← body_words body]

/-- Claim C3, witness for the amended theorem: a two-paragraph plain body
with a line break inside the second paragraph. -/
theorem C3_amended_witness :
    normWs (stripTags (render_body "one two\n\nthree.\nfour, five\n".data).html)
      = extract_plain_text "one two\n\nthree.\nfour, five\n".data
    ∧ extract_plain_text "one two\n\nthree.\nfour, five\n".data
      = joinSp (pySplitWs "one two\n\nthree.\nfour, five\n".data) :=
  C3_amended "one two\n\nthree.\nfour, five\n".data (by decide)

set_option maxHeartbeats 4000000 in
set_option maxRecDepth 100000 in
/-- Claim C3, counterexample: the claim fails on glossary spans.  For the
body `x ((T::D))` the visible text of the rendered popover contains the
term twice (button text and popover heading) and the definition once, so
the tag-stripped normalised output is `x TTD`, while the raw body with
markup delimiters removed keeps only the term: `x T`. -/
theorem C3_counterexample :
    normWs (stripTags (render_body "x ((T::D))".data).html) = "x TTD".data
    ∧ extract_plain_text "x ((T::D))".data = "x T".data
    ∧ normWs (stripTags (render_body "x ((T::D))".data).html)
        ≠ extract_plain_text "x ((T::D))".data := by
  have h1 : normWs (stripTags (render_body "x ((T::D))".data).html)
      = "x TTD".data := by
    simp +decide [render_body, runBody, initState, finishBody, stepLine,
      flush_paragraph, flush_list, flush_code, bulletMatch, orderedMatch,
      headingMatch, dictGet, dictSet, splitLines, joinNl, joinSp,
      render_inlines, scanInlines, findSub, flush_plain, linkify,
      matchAutolink, htmlEscape, escapeChar, natToStr, pyStrip, pyLstrip,
      pyRstrip, pyIsSpace, pyIsDigit, pyIsAlpha, isSchemeChar, isUrlChar,
      popover_html, extract_plain_text, subGlossary, subCode, subStrong,
      subEm, subLink, findLinkMid, findParenNoNl, collapseWs, isTermChar,
      isDefChar, slugify, isSlugChar, slugCollapse, stripTags, normWs]
  have h2 : extract_plain_text "x ((T::D))".data = "x T".data := by
    simp +decide [extract_plain_text, subGlossary, subCode, subStrong,
      subEm, subLink, findLinkMid, findParenNoNl, collapseWs, isTermChar,
      isDefChar, pyStrip, pyLstrip, pyRstrip, pyIsSpace]
  exact ⟨h1, h2, by rw [h1, h2]; decide⟩

end Blog
